import Mathlib

/-!
# Chess core of `src/pages/ChessPage.js`

A shallow embedding of the board model, the attack oracle, the move
generator, the evaluator, the negamax search and the parts of the game
session that the properties below talk about.

Conventions of the embedding:

* a board cell is `Option Piece`; `none` is the empty string of the source and
  `some ⟨color, kind⟩` is the letter whose case encodes the colour;
* a board is a list of rows, as in the source; `WellFormed` says it is 8x8;
* coordinates and scores are integers (every number the chess core computes is
  an integer, the half-integers of the centralisation bonus cancel);
* `-Infinity` and `Infinity` are the two extra points of `EInt`;
* loops with an early `return true` are `List.any`, loops that push onto an
  array are list concatenations in the same order, `while` loops that walk a
  ray carry a step budget of 8 (a ray leaves the board after at most 7 steps).
-/

namespace Chess

/-! ## Board model -/

/-- The two sides, `WHITE = "w"` and `BLACK = "b"`. -/
inductive Color where
  | white
  | black
  deriving DecidableEq, Repr

/-- The six piece kinds (the lower-cased letter of a piece). -/
inductive Kind where
  | pawn
  | knight
  | bishop
  | rook
  | queen
  | king
  deriving DecidableEq, Repr

/-- A piece letter: the case is the colour, the lower-cased letter the kind. -/
structure Piece where
  color : Color
  kind : Kind
  deriving DecidableEq, Repr

/-- A board cell: `none` is `""`. -/
abbrev Cell := Option Piece

/-- A board: `board[r][c]`. -/
abbrev Board := List (List Cell)

/-- A move object `{ from, to, promo }`; `promo` absent is `none`. -/
structure Move where
  from_ : Int × Int
  to_ : Int × Int
  promo : Option Piece
  deriving DecidableEq, Repr

/-- The board is an 8x8 grid. -/
def WellFormed (b : Board) : Prop :=
  b.length = 8 ∧ ∀ row ∈ b, row.length = 8

instance (b : Board) : Decidable (WellFormed b) := by
  unfold WellFormed; infer_instance

/-- The opposite side: `color === WHITE ? BLACK : WHITE`. -/
def other (color : Color) : Color :=
  if color = Color.white then Color.black else Color.white

/-- `cloneBoard`: a fresh copy of every row. -/
def cloneBoard (b : Board) : Board :=
  b.map (fun row => row.map id)

def wp (k : Kind) : Cell := some ⟨Color.white, k⟩

def bp (k : Kind) : Cell := some ⟨Color.black, k⟩

/-- `initialBoard`: row 0 is Black's back rank, row 7 White's. -/
def initialBoard : Board :=
  [ [bp .rook, bp .knight, bp .bishop, bp .queen, bp .king, bp .bishop, bp .knight, bp .rook],
    [bp .pawn, bp .pawn, bp .pawn, bp .pawn, bp .pawn, bp .pawn, bp .pawn, bp .pawn],
    [none, none, none, none, none, none, none, none],
    [none, none, none, none, none, none, none, none],
    [none, none, none, none, none, none, none, none],
    [none, none, none, none, none, none, none, none],
    [wp .pawn, wp .pawn, wp .pawn, wp .pawn, wp .pawn, wp .pawn, wp .pawn, wp .pawn],
    [wp .rook, wp .knight, wp .bishop, wp .queen, wp .king, wp .bishop, wp .knight, wp .rook] ]

/-- `pieceColor`: `null` for an empty cell. -/
def pieceColor (piece : Cell) : Option Color :=
  piece.map Piece.color

/-- `inBounds`. -/
def inBounds (r c : Int) : Bool :=
  decide (0 ≤ r) && decide (r < 8) && decide (0 ≤ c) && decide (c < 8)

/-- The cell `board[r][c]`. Every read of the source is guarded by `inBounds`
or has loop indices in `0..7`; outside the board the source reads nothing, and
the value given here has no meaning. -/
def sq (board : Board) (r c : Int) : Cell :=
  (board.getD r.toNat []).getD c.toNat none

/-- The assignment `board[r][c] = v`. -/
def setSq (board : Board) (r c : Int) (v : Cell) : Board :=
  board.set r.toNat ((board.getD r.toNat []).set c.toNat v)

/-- The indices `0..7` of the `for` loops over rows and columns. -/
def idx8 : List Int := [0, 1, 2, 3, 4, 5, 6, 7]

/-- All squares in row-major order: the two nested `for` loops `r`, `c`. -/
def allSquares : List (Int × Int) :=
  idx8.flatMap fun r => idx8.map fun c => (r, c)

/-- `findKing`: the first square, in row-major order, holding the king of
`color`. -/
def findKing (board : Board) (color : Color) : Option (Int × Int) :=
  allSquares.find? fun p => sq board p.1 p.2 == some ⟨color, Kind.king⟩

/-- Row-major order of the squares: `(r1, c1)` comes before `(r2, c2)`. -/
def rowMajorLt (p q : Int × Int) : Prop :=
  p.1 < q.1 ∨ (p.1 = q.1 ∧ p.2 < q.2)

instance (p q : Int × Int) : Decidable (rowMajorLt p q) := by
  unfold rowMajorLt; infer_instance

/-! ## Attack oracle -/

/-- The `while (inBounds(rr, cc))` loop of `isSquareAttacked`: walk from
`(rr, cc)` in direction `(dr, dc)`; at the first occupied square answer
whether it holds `p1` or `p2`. -/
def attackRay (board : Board) (dr dc : Int) (p1 p2 : Piece) : Nat → Int → Int → Bool
  | 0, _, _ => false
  | fuel + 1, rr, cc =>
    if inBounds rr cc then
      match sq board rr cc with
      | some p => p == p1 || p == p2
      | none => attackRay board dr dc p1 p2 fuel (rr + dr) (cc + dc)
    else false

def kMoves : List (Int × Int) :=
  [(-2, -1), (-2, 1), (2, -1), (2, 1), (-1, -2), (-1, 2), (1, -2), (1, 2)]

/-- The offsets visited by the two nested loops `-1..1` that skip `(0, 0)`. -/
def kingOffsets : List (Int × Int) :=
  [(-1, -1), (-1, 0), (-1, 1), (0, -1), (0, 1), (1, -1), (1, 0), (1, 1)]

def diagDirs : List (Int × Int) := [(1, 1), (1, -1), (-1, 1), (-1, -1)]

def orthoDirs : List (Int × Int) := [(1, 0), (-1, 0), (0, 1), (0, -1)]

/-- The number of squares a ray that stands on `(rr, cc)` and moves by
`(dr, dc)` can still visit before it leaves the board. -/
def stepsLeft (dr dc rr cc : Int) : Int :=
  if dr = 1 then 8 - rr else if dr = -1 then rr + 1 else if dc = 1 then 8 - cc else cc + 1

/-- A direction of a sliding piece: one step in a row, a column or a
diagonal. -/
def IsRayDir (dr dc : Int) : Prop :=
  dr = 1 ∨ dr = -1 ∨ (dr = 0 ∧ (dc = 1 ∨ dc = -1))

/-- `isSquareAttacked`. -/
def isSquareAttacked (board : Board) (r c : Int) (byColor : Color) : Bool :=
  let dr : Int := if byColor = Color.white then -1 else 1
  let pawn : Piece := ⟨byColor, Kind.pawn⟩
  let knight : Piece := ⟨byColor, Kind.knight⟩
  let king : Piece := ⟨byColor, Kind.king⟩
  let bishop : Piece := ⟨byColor, Kind.bishop⟩
  let queen : Piece := ⟨byColor, Kind.queen⟩
  let rook : Piece := ⟨byColor, Kind.rook⟩
  ([-1, 1].any fun dc => inBounds (r + dr) (c + dc) && sq board (r + dr) (c + dc) == some pawn)
  || (kMoves.any fun d => inBounds (r + d.1) (c + d.2) && sq board (r + d.1) (c + d.2) == some knight)
  || (kingOffsets.any fun d => inBounds (r + d.1) (c + d.2) && sq board (r + d.1) (c + d.2) == some king)
  || (diagDirs.any fun d => attackRay board d.1 d.2 bishop queen 8 (r + d.1) (c + d.2))
  || (orthoDirs.any fun d => attackRay board d.1 d.2 rook queen 8 (r + d.1) (c + d.2))

/-- Along the ray from `(r, c)` in direction `(dr, dc)`, the first occupied
square is on the board and holds a piece satisfying `P`: the square `k` steps
away holds such a piece, and the squares before it are on the board and
empty. -/
def FirstOnRay (board : Board) (r c dr dc : Int) (P : Piece → Prop) : Prop :=
  ∃ k : Nat, 1 ≤ k ∧
    (∀ j : Nat, 1 ≤ j → j ≤ k → inBounds (r + j * dr) (c + j * dc) = true) ∧
    (∀ j : Nat, 1 ≤ j → j < k → sq board (r + j * dr) (c + j * dc) = none) ∧
    ∃ p, sq board (r + k * dr) (c + k * dc) = some p ∧ P p

/-- `isInCheck`: `false` when the king is not found. -/
def isInCheck (board : Board) (color : Color) : Bool :=
  match findKing board color with
  | none => false
  | some (r, c) => isSquareAttacked board r c (other color)

/-! ## Move generator -/

/-- The `while (inBounds(rr, cc))` loop of a sliding piece standing on
`(r, c)`: empty squares are pushed, the first occupied square is pushed when
it holds a piece of `their` side, and ends the walk. -/
def slideRay (board : Board) (their : Color) (r c dr dc : Int) : Nat → Int → Int → List Move
  | 0, _, _ => []
  | fuel + 1, rr, cc =>
    if inBounds rr cc then
      match sq board rr cc with
      | none => ⟨(r, c), (rr, cc), none⟩ :: slideRay board their r c dr dc fuel (rr + dr) (cc + dc)
      | some t => if t.color = their then [⟨(r, c), (rr, cc), none⟩] else []
    else []

/-- The pawn branch of `generatePseudoMoves` for a pawn on `(r, c)`. -/
def pawnMoves (board : Board) (their : Color) (isWhite : Bool) (r c : Int) : List Move :=
  let dir : Int := if isWhite then -1 else 1
  let startRow : Int := if isWhite then 6 else 1
  let promo : Piece := ⟨if isWhite then Color.white else Color.black, Kind.queen⟩
  let one : Int × Int := (r + dir, c)
  let forward : List Move :=
    if inBounds one.1 one.2 && (sq board one.1 one.2).isNone then
      (if one.1 = 0 ∨ one.1 = 7 then [⟨(r, c), one, some promo⟩] else [⟨(r, c), one, none⟩])
      ++ (let two : Int × Int := (r + 2 * dir, c)
          if r = startRow ∧ (sq board two.1 two.2).isNone then [⟨(r, c), two, none⟩] else [])
    else []
  let captures : List Move :=
    ([-1, 1] : List Int).flatMap fun dc =>
      let rr := r + dir
      let cc := c + dc
      if !inBounds rr cc then []
      else
        match sq board rr cc with
        | none => []
        | some t =>
          if t.color = their then
            (if rr = 0 ∨ rr = 7 then [⟨(r, c), (rr, cc), some promo⟩] else [⟨(r, c), (rr, cc), none⟩])
          else []
  forward ++ captures

/-- The knight and king branches: one step by each offset, onto an empty
square or a piece of `their` side. -/
def stepMoves (board : Board) (their : Color) (r c : Int) (dirs : List (Int × Int)) : List Move :=
  dirs.flatMap fun d =>
    let rr := r + d.1
    let cc := c + d.2
    if !inBounds rr cc then []
    else
      match sq board rr cc with
      | none => [⟨(r, c), (rr, cc), none⟩]
      | some t => if t.color = their then [⟨(r, c), (rr, cc), none⟩] else []

/-- The body of the two nested loops of `generatePseudoMoves` for the square
`(r, c)`. -/
def pieceMoves (board : Board) (color : Color) (r c : Int) : List Move :=
  let their := other color
  match sq board r c with
  | none => []
  | some p =>
    if p.color ≠ color then []
    else
      let isWhite : Bool := decide (p.color = Color.white)
      match p.kind with
      | Kind.pawn => pawnMoves board their isWhite r c
      | Kind.knight => stepMoves board their r c kMoves
      | Kind.bishop =>
        diagDirs.flatMap fun d => slideRay board their r c d.1 d.2 8 (r + d.1) (c + d.2)
      | Kind.rook =>
        orthoDirs.flatMap fun d => slideRay board their r c d.1 d.2 8 (r + d.1) (c + d.2)
      | Kind.queen =>
        (diagDirs ++ orthoDirs).flatMap fun d =>
          slideRay board their r c d.1 d.2 8 (r + d.1) (c + d.2)
      | Kind.king => stepMoves board their r c kingOffsets

/-- `generatePseudoMoves`. -/
def generatePseudoMoves (board : Board) (color : Color) : List Move :=
  idx8.flatMap fun r => idx8.flatMap fun c => pieceMoves board color r c

/-- `applyMove`. -/
def applyMove (board : Board) (move : Move) : Board :=
  let nb := cloneBoard board
  let piece := sq nb move.from_.1 move.from_.2
  let nb1 := setSq nb move.from_.1 move.from_.2 none
  setSq nb1 move.to_.1 move.to_.2 (match move.promo with | some q => some q | none => piece)

/-- `generateLegalMoves`. -/
def generateLegalMoves (board : Board) (color : Color) : List Move :=
  (generatePseudoMoves board color).filter fun m => !isInCheck (applyMove board m) color

/-- The square is empty or holds a piece of the side `their`: what a move may
land on. -/
def FreeFor (board : Board) (their : Color) (r c : Int) : Prop :=
  sq board r c = none ∨ ∃ t, sq board r c = some t ∧ t.color = their

/-- The square `n` steps from `(r, c)` in direction `(dr, dc)` is reached
through empty squares only: it and the squares before it are on the board, and
the squares before it are empty. -/
def ClearPath (board : Board) (r c dr dc : Int) (n : Nat) : Prop :=
  1 ≤ n ∧
  (∀ j : Nat, 1 ≤ j → j ≤ n → inBounds (r + j * dr) (c + j * dc) = true) ∧
  (∀ j : Nat, 1 ≤ j → j < n → sq board (r + j * dr) (c + j * dc) = none)

/-- The row step of a pawn: `isWhite ? -1 : 1`. -/
def pawnDir (color : Color) : Int := if color = Color.white then -1 else 1

/-- The starting row of a pawn: `isWhite ? 6 : 1`. -/
def pawnStartRow (color : Color) : Int := if color = Color.white then 6 else 1

/-- The `promo` field of a pawn move that ends on `row`. -/
def promoAt (color : Color) (row : Int) : Option Piece :=
  if row = 0 ∨ row = 7 then some ⟨color, Kind.queen⟩ else none

/-- The ray directions of a sliding piece: `[...diag, ...ortho]`. -/
def slideDirs : Kind → List (Int × Int)
  | Kind.bishop => diagDirs
  | Kind.rook => orthoDirs
  | Kind.queen => diagDirs ++ orthoDirs
  | _ => []

/-! ## Evaluator -/

/-- `PIECE_VALUES`. -/
def pieceValue : Kind → Int
  | Kind.pawn => 100
  | Kind.knight => 320
  | Kind.bishop => 330
  | Kind.rook => 500
  | Kind.queen => 900
  | Kind.king => 20000

/-- The sign of a piece: `p === p.toUpperCase() ? 1 : -1`. -/
def pieceSign (p : Piece) : Int :=
  if p.color = Color.white then 1 else -1

/-- `centerDist = |3.5 - r| + |3.5 - c|`, written over the integers:
`2 * |3.5 - r| = |7 - 2 * r|` is odd, so the sum of the two is even and the
division is exact. -/
def centerDist (r c : Int) : Int :=
  ((7 - 2 * r).natAbs + (7 - 2 * c).natAbs : Nat) / 2

/-- `centerBonus = (4 - Math.min(4, centerDist)) * 2`. -/
def centerBonus (r c : Int) : Int :=
  (4 - min 4 (centerDist r c)) * 2

/-- `evaluate`: the loop accumulates `material` and `mobility`, the score is
their sum. -/
def evaluate (board : Board) : Int :=
  let acc := allSquares.foldl
    (fun (acc : Int × Int) (p : Int × Int) =>
      match sq board p.1 p.2 with
      | none => acc
      | some pc =>
        (acc.1 + pieceSign pc * pieceValue pc.kind, acc.2 + pieceSign pc * centerBonus p.1 p.2))
    (0, 0)
  acc.1 + acc.2

/-- The centralisation bonus in the words of the specification:
`(4 - min(4, |3.5 - row| + |3.5 - col|)) * 2`, over the rationals. -/
def specBonus (r c : Int) : ℚ :=
  (4 - min 4 (|3.5 - (r : ℚ)| + |3.5 - (c : ℚ)|)) * 2

/-- The material values in the words of the specification. -/
def specPieceValue : Kind → ℚ
  | Kind.pawn => 100
  | Kind.knight => 320
  | Kind.bishop => 330
  | Kind.rook => 500
  | Kind.queen => 900
  | Kind.king => 20000

/-- The evaluation in the words of the specification: the sum over all
occupied squares of `sign * (value + bonus)`, with sign `+1` for a white piece
and `-1` for a black piece. -/
def evaluateSpec (board : Board) : ℚ :=
  (allSquares.map fun p =>
    match sq board p.1 p.2 with
    | none => (0 : ℚ)
    | some pc =>
      (if pc.color = Color.white then 1 else -1) * (specPieceValue pc.kind + specBonus p.1 p.2)).sum

/-- The piece of the other colour. -/
def swapColor (p : Piece) : Piece := ⟨other p.color, p.kind⟩

/-- The board mirrored top to bottom (row `r` becomes row `7 - r`) with the
colour of every piece swapped. -/
def mirrorSwap (b : Board) : Board :=
  b.reverse.map fun row => row.map (Option.map swapColor)

/-- The term of one square in the sum of `evaluate`. -/
def squareScore (board : Board) (p : Int × Int) : Int :=
  match sq board p.1 p.2 with
  | none => 0
  | some pc => pieceSign pc * (pieceValue pc.kind + centerBonus p.1 p.2)

/-! ## Search -/

/-- A score of the search: an integer, `-Infinity` or `Infinity`. -/
inductive EInt where
  | negInf
  | fin (v : Int)
  | posInf
  deriving DecidableEq, Repr

namespace EInt

/-- Unary minus. -/
def neg : EInt → EInt
  | negInf => posInf
  | fin v => fin (-v)
  | posInf => negInf

/-- The order `a <= b` as a boolean. -/
def ble : EInt → EInt → Bool
  | negInf, _ => true
  | fin _, negInf => false
  | fin a, fin b => decide (a ≤ b)
  | fin _, posInf => true
  | posInf, posInf => true
  | posInf, _ => false

/-- The order `a < b` as a boolean. -/
def blt (a b : EInt) : Bool := !ble b a

instance : LE EInt := ⟨fun a b => ble a b = true⟩

instance : LT EInt := ⟨fun a b => blt a b = true⟩

theorem le_iff_ble (a b : EInt) : a ≤ b ↔ ble a b = true := Iff.rfl

theorem lt_iff_blt (a b : EInt) : a < b ↔ blt a b = true := Iff.rfl

instance (a b : EInt) : Decidable (a ≤ b) := inferInstanceAs (Decidable (ble a b = true))

instance (a b : EInt) : Decidable (a < b) := inferInstanceAs (Decidable (blt a b = true))

instance : LinearOrder EInt where
  le_refl a := by cases a <;> simp [le_iff_ble, ble]
  le_trans a b c := by
    cases a <;> cases b <;> cases c <;> simp [le_iff_ble, ble]; omega
  lt_iff_le_not_le a b := by
    cases a <;> cases b <;> simp [le_iff_ble, lt_iff_blt, blt, ble]; omega
  le_antisymm a b := by
    cases a <;> cases b <;> simp [le_iff_ble, ble]; omega
  le_total a b := by
    cases a <;> cases b <;> simp [le_iff_ble, ble]; omega
  decidableLE a b := inferInstanceAs (Decidable (ble a b = true))
  decidableLT a b := inferInstanceAs (Decidable (blt a b = true))

end EInt

/-- The object `{ score, move }` returned by `negamax`; `move` is `none` when
the field is absent or `null`. -/
structure SearchResult where
  score : EInt
  move : Option Move
  deriving DecidableEq, Repr

/-- `captureValue`. -/
def captureValue (board : Board) (move : Move) : Int :=
  match sq board move.to_.1 move.to_.2 with
  | none => 0
  | some t => pieceValue t.kind

/-- The move ordering `legal.sort((a, b) => captureValue(b) - captureValue(a))`:
a stable sort by capture value, largest first. -/
def sortByCapture (board : Board) (legal : List Move) : List Move :=
  legal.insertionSort fun a b => captureValue board b ≤ captureValue board a

/-- The `for (const m of legal)` loop of `negamax`; `child m a b` is the score
of the recursive call on `applyMove(board, m)` with window `(a, b)`. -/
def searchLoop (child : Move → EInt → EInt → EInt) :
    List Move → EInt → EInt → SearchResult → SearchResult
  | [], _, _, best => best
  | m :: ms, alpha, beta, best =>
    let score := child m beta.neg alpha.neg
    let val := score.neg
    let best1 := if EInt.blt best.score val then ⟨val, some m⟩ else best
    let alpha1 := if EInt.blt alpha val then val else alpha
    if EInt.ble beta alpha1 then best1 else searchLoop child ms alpha1 beta best1

/-- `negamax(board, color, depth, alpha, beta)`. -/
def negamax (board : Board) (color : Color) : Nat → EInt → EInt → SearchResult
  | 0, _, _ => ⟨EInt.fin (evaluate board * (if color = Color.white then 1 else -1)), none⟩
  | depth + 1, alpha, beta =>
    let legal := generateLegalMoves board color
    if legal.length = 0 then
      if isInCheck board color then ⟨EInt.fin (-100000 + (3 - ((depth : Int) + 1))), none⟩
      else ⟨EInt.fin 0, none⟩
    else
      searchLoop
        (fun m a b => (negamax (applyMove board m) (other color) depth a b).score)
        (sortByCapture board legal) alpha beta ⟨EInt.negInf, none⟩

/-- The loop of the full-width search: the running maximum of the negated
child values `V m`. -/
def fullLoop (V : Move → EInt) (ms : List Move) (best : EInt) : EInt :=
  ms.foldl (fun best m => if EInt.blt best (V m) then V m else best) best

/-- The un-pruned full-width negamax of the specification: the same depth-0
evaluation, the same mate and stalemate scores, and otherwise the maximum over
all legal moves, in generation order, of the negated child score. -/
def fullNegamax (board : Board) (color : Color) : Nat → EInt
  | 0 => EInt.fin (evaluate board * (if color = Color.white then 1 else -1))
  | depth + 1 =>
    let legal := generateLegalMoves board color
    if legal.length = 0 then
      if isInCheck board color then EInt.fin (-100000 + (3 - ((depth : Int) + 1)))
      else EInt.fin 0
    else
      fullLoop (fun m => (fullNegamax (applyMove board m) (other color) depth).neg)
        legal EInt.negInf

/-- The answer `x` of a search with window `(alpha, beta)` about a position
of exact value `v`: exact inside the window, an upper bound of `v` at or below
`alpha`, a lower bound of `v` at or above `beta`. -/
def Bounded (alpha beta x v : EInt) : Prop :=
  (x ≤ alpha → v ≤ x) ∧ (alpha < x → x < beta → x = v) ∧ (beta ≤ x → x ≤ v)

/-- `difficultyToDepth`. -/
def difficultyToDepth (diff : Int) : Nat :=
  if diff ≤ 2 then 1
  else if diff ≤ 4 then 2
  else if diff ≤ 6 then 3
  else if diff ≤ 9 then 4
  else 4

/-! ## Game session -/

/-- The state of the `ChessPage` component that the chess core reads and
writes. -/
structure Session where
  board : Board
  turn : Color
  humanColor : Color
  orientation : Color
  difficulty : Int
  selected : Option (Int × Int)
  legalMoves : List Move
  history : List String
  lastMove : Option ((Int × Int) × (Int × Int))
  hintMove : Option Move
  boardStack : List Board
  moveStack : List (Move × Cell)
  deriving DecidableEq

/-- The initial values of the `useState` hooks. -/
def initialSession : Session where
  board := initialBoard
  turn := Color.white
  humanColor := Color.white
  orientation := Color.white
  difficulty := 4
  selected := none
  legalMoves := []
  history := []
  lastMove := none
  hintMove := none
  boardStack := [initialBoard]
  moveStack := []

/-- The memoised `gameOver` value. -/
def gameOver (board : Board) (turn : Color) : Option String :=
  if (generateLegalMoves board turn).length = 0 then
    if isInCheck board turn then
      (if turn = Color.white then some "Black wins by checkmate" else some "White wins by checkmate")
    else some "Draw by stalemate"
  else none

/-- The depth `showHint` passes to `negamax`:
`difficultyToDepth(Math.max(4, difficulty))`. -/
def hintDepth (difficulty : Int) : Nat :=
  difficultyToDepth (max 4 difficulty)

/-- `showHint`. -/
def showHint (s : Session) : Session :=
  if (gameOver s.board s.turn).isSome ∨ s.turn ≠ s.humanColor then s
  else
    let legal := generateLegalMoves s.board s.turn
    if legal.length = 0 then s
    else
      let depth := hintDepth s.difficulty
      let result := negamax s.board s.turn depth EInt.negInf EInt.posInf
      let best := match result.move with
        | some m => some m
        | none => legal.head?
      { s with hintMove := best }

/-- The finite values of the binary64 format, the numbers of the source:
`m * 2 ^ e` with a significand of at most 53 bits and an exponent between
`-1074` and `971`. -/
def IsDouble (x : ℚ) : Prop :=
  ∃ m e : ℤ, |m| < 2 ^ 53 ∧ -1074 ≤ e ∧ e ≤ 971 ∧ x = (m : ℚ) * (2 : ℚ) ^ e

/-- The exponent of the unit in the last place at `x`: 52 below the binary
exponent of `x` for a normal value, `-1074` for a subnormal one. -/
def ulpExp (x : ℚ) : ℤ :=
  max (Int.log 2 |x| - 52) (-1074)

/-- The integer nearest to `t`, the even one of the two at a tie. -/
def roundHalfEven (t : ℚ) : ℤ :=
  let f := Int.floor t
  if t - (f : ℚ) < 1 / 2 then f
  else if 1 / 2 < t - (f : ℚ) then f + 1
  else if f % 2 = 0 then f else f + 1

/-- The binary64 value nearest to `x`, ties to the even significand: the
rounding of every arithmetic operation of the source. Overflow to `Infinity`
is left out; the values rounded below are smaller than 4. -/
def roundDouble (x : ℚ) : ℚ :=
  (roundHalfEven (x / (2 : ℚ) ^ ulpExp x) : ℚ) * (2 : ℚ) ^ ulpExp x

/-- The product `x * y` of two binary64 values as the source computes it: the
exact product, rounded. -/
def doubleMul (x y : ℚ) : ℚ :=
  roundDouble (x * y)

/-- `pickMoveWithNoise`; `rnd` is the value of `Math.random()`, a binary64
value. The index is `Math.floor` of the binary64 product
`Math.random() * choices.length`. -/
def pickMoveWithNoise (best : Move) (legal : List Move) (diff : Int) (rnd : ℚ) : Move :=
  if diff ≥ 6 then best
  else
    let topN : Nat := if diff ≤ 2 then 4 else 2
    let choices := legal.take (min topN legal.length)
    let i : Int := Int.floor (doubleMul rnd (choices.length : ℚ))
    if i < 0 then best else (choices.get? i.toNat).getD best

/-- The letter `"abcdefgh"[c]`. -/
def fileLetter (c : Int) : String :=
  match c with
  | 0 => "a"
  | 1 => "b"
  | 2 => "c"
  | 3 => "d"
  | 4 => "e"
  | 5 => "f"
  | 6 => "g"
  | 7 => "h"
  | _ => "undefined"

/-- `coordToAlgebra`. -/
def coordToAlgebra (p : Int × Int) : String :=
  fileLetter p.2 ++ toString (8 - p.1)

/-- The upper-cased letter of a piece. -/
def upperLetter : Kind → String
  | Kind.pawn => "P"
  | Kind.knight => "N"
  | Kind.bishop => "B"
  | Kind.rook => "R"
  | Kind.queen => "Q"
  | Kind.king => "K"

/-- `formatMove`. -/
def formatMove (m : Move) (piece : Cell) : String :=
  let promo := match m.promo with
    | some q => "=" ++ upperLetter q.kind
    | none => ""
  let lead := match piece with
    | some p => if p.kind = Kind.pawn then "" else upperLetter p.kind
    | none => ""
  lead ++ coordToAlgebra m.from_ ++ "-" ++ coordToAlgebra m.to_ ++ promo

/-- `doMove`: the state after the handler's updates are applied. -/
def doMove (s : Session) (move : Move) : Session :=
  let nb := applyMove s.board move
  let piece := sq s.board move.from_.1 move.from_.2
  { s with
    board := nb
    boardStack := s.boardStack ++ [nb]
    moveStack := (move, piece) :: s.moveStack
    turn := other s.turn
    history := (formatMove move piece :: s.history).take 60
    selected := none
    legalMoves := []
    hintMove := none
    lastMove := some (move.from_, move.to_) }

/-- `viewToModel`: the square shown at index `viewIndex` of the grid. -/
def viewToModel (viewIndex : Nat) (orientation : Color) : Int × Int :=
  let vr : Int := ((viewIndex / 8 : Nat) : Int)
  let vc : Int := ((viewIndex % 8 : Nat) : Int)
  if orientation = Color.white then (vr, vc) else (7 - vr, 7 - vc)

/-- The selection made by a click on an own piece on `(r, c)`. -/
def selectSquare (s : Session) (r c : Int) : Session :=
  { s with
    selected := some (r, c)
    legalMoves := (generateLegalMoves s.board s.humanColor).filter
      fun m => decide (m.from_.1 = r) && decide (m.from_.2 = c) }

/-- `setSelected(null); setLegalMoves([])`. -/
def clearSelection (s : Session) : Session :=
  { s with selected := none, legalMoves := [] }

/-- `onSquareClick`. -/
def onSquareClick (s : Session) (viewIndex : Nat) : Session :=
  if (gameOver s.board s.turn).isSome then s
  else
    let rc := viewToModel viewIndex s.orientation
    let current := sq s.board rc.1 rc.2
    let currentColor := pieceColor current
    if s.turn ≠ s.humanColor then s
    else
      match s.selected with
      | some sel =>
        if sel.1 = rc.1 ∧ sel.2 = rc.2 then clearSelection s
        else
          match s.legalMoves.find? fun m => decide (m.to_.1 = rc.1) && decide (m.to_.2 = rc.2) with
          | some move => doMove s move
          | none =>
            if current.isSome ∧ currentColor = some s.humanColor then selectSquare s rc.1 rc.2
            else clearSelection s
      | none =>
        if current.isSome ∧ currentColor = some s.humanColor then selectSquare s rc.1 rc.2
        else s

/-- `newGame(side)`. -/
def newGame (s : Session) (side : Color) : Session :=
  { s with
    board := initialBoard
    boardStack := [initialBoard]
    moveStack := []
    turn := Color.white
    history := []
    selected := none
    legalMoves := []
    hintMove := none
    lastMove := none
    humanColor := side
    orientation := side }

/-- `undoPly`. After the guard the shortened stack is not empty; the default
of `getLastD` stands for the `undefined` the source would read otherwise. -/
def undoPly (s : Session) : Session :=
  if s.boardStack.length ≤ 1 then s
  else
    let next := s.boardStack.dropLast
    let newMs := s.moveStack.drop 1
    { s with
      boardStack := next
      board := next.getLastD s.board
      moveStack := newMs
      lastMove := newMs.head?.map fun prev => (prev.1.from_, prev.1.to_)
      history := s.history.drop 1
      turn := other s.turn
      selected := none
      legalMoves := []
      hintMove := none }

/-- The state updates queued by `undoPly` once its guard has passed, applied
to the current state `s`. When the shortened stack is empty the source stores
`undefined` as the board; the board kept here then has no meaning. -/
def undoPlyUpdates (s : Session) : Session :=
  let next := s.boardStack.dropLast
  let newMs := s.moveStack.drop 1
  { s with
    boardStack := next
    board := next.getLastD s.board
    moveStack := newMs
    lastMove := newMs.head?.map fun prev => (prev.1.from_, prev.1.to_)
    history := s.history.drop 1
    turn := other s.turn
    selected := none
    legalMoves := []
    hintMove := none }

/-- The function `undoPly` created by the render of state `rendered`, called
when the state is `s`: the guard reads the `boardStack` of its own render, the
updates apply to the current state. -/
def undoPlyFrom (rendered s : Session) : Session :=
  if rendered.boardStack.length ≤ 1 then s else undoPlyUpdates s

/-- `undoTurn`: `undoPly()` now, and the same `undoPly` again from
`setTimeout(..., 0)`, after the first call's updates are applied. -/
def undoTurn (s : Session) : Session :=
  undoPlyFrom s (undoPly s)

/-- The Escape key handler. -/
def pressEscape (s : Session) : Session :=
  { s with selected := none, legalMoves := [], hintMove := none }

/-- The difficulty slider. -/
def setDifficulty (s : Session) (d : Int) : Session :=
  { s with difficulty := d }

/-- The "Flip Board" button. -/
def flipBoard (s : Session) : Session :=
  { s with orientation := other s.orientation }

/-- The session states reached from the mounted component by its handlers,
each applied to the state it was rendered for: new game, a move (of the human
or of the engine), undo of one ply, a click on a square, the hint, the Escape
key, the difficulty slider and the board flip. -/
inductive SessionReachable : Session → Prop where
  | init : SessionReachable initialSession
  | newGame {s : Session} (side : Color) : SessionReachable s → SessionReachable (newGame s side)
  | doMove {s : Session} (m : Move) : SessionReachable s → SessionReachable (doMove s m)
  | undoPly {s : Session} : SessionReachable s → SessionReachable (undoPly s)
  | click {s : Session} (i : Nat) : SessionReachable s → SessionReachable (onSquareClick s i)
  | hint {s : Session} : SessionReachable s → SessionReachable (showHint s)
  | escape {s : Session} : SessionReachable s → SessionReachable (pressEscape s)
  | difficulty {s : Session} (d : Int) : SessionReachable s → SessionReachable (setDifficulty s d)
  | flip {s : Session} : SessionReachable s → SessionReachable (flipBoard s)

/-- The moves offered for the selected square are the legal moves of the
side to move that start on it. -/
def SelectionConsistent (s : Session) : Prop :=
  ∀ sel, s.selected = some sel →
    s.legalMoves = (generateLegalMoves s.board s.turn).filter
      fun m => decide (m.from_.1 = sel.1) && decide (m.from_.2 = sel.2)

/-- The board, the two stacks and the side to move of `s2` are those of
`s1`. -/
def SameGame (s1 s2 : Session) : Prop :=
  s2.board = s1.board ∧ s2.boardStack = s1.boardStack ∧ s2.moveStack = s1.moveStack ∧
    s2.turn = s1.turn

/-- The component with the engine scheduling: the session state, the flag
`thinkingRef.current`, and the outstanding 60 ms timer, if any, with the state
of the render whose effect scheduled it (the values its callback closes
over). -/
structure Page where
  session : Session
  thinking : Bool
  timer : Option Session
  deriving DecidableEq

/-- The body of the engine effect, run for the rendered state. -/
def engineEffect (p : Page) : Page :=
  let engineColor := other p.session.humanColor
  if (gameOver p.session.board p.session.turn).isSome ∨ p.session.turn ≠ engineColor then p
  else if p.thinking then p
  else { p with thinking := true, timer := some p.session }

/-- The values of the dependency list of the engine effect:
`[board, turn, humanColor, difficulty, gameOver]`. -/
def effectDeps (s : Session) : Board × Color × Color × Int × Option String :=
  (s.board, s.turn, s.humanColor, s.difficulty, gameOver s.board s.turn)

/-- The component renders the new session state `s`. The dependencies of the
engine effect are compared as React does: the board by reference, the other
four (strings, a number, `null`) by value. The flag `freshBoard` says that the
handler stored a new board array, which differs from the old one whatever it
holds. When a dependency changed, the cleanup of the previous run cancels its
timer (`clearTimeout(id)`) and the effect runs again. -/
def render (p : Page) (s : Session) (freshBoard : Bool) : Page :=
  if freshBoard = false ∧ effectDeps s = effectDeps p.session then { p with session := s }
  else engineEffect { p with session := s, timer := none }

/-- The callback of the 60 ms timer; `rnd` is the value of `Math.random()`.
While the timer is outstanding the board and the side to move are those of the
render that scheduled it. The list `ordered` is not empty where its head is
read. The move is applied by `doMove`, which stores a new board array. -/
def timerFire (p : Page) (rnd : ℚ) : Page :=
  match p.timer with
  | none => p
  | some r =>
    let legal := generateLegalMoves r.board r.turn
    if legal.length = 0 then { p with thinking := false, timer := none }
    else
      let depth := difficultyToDepth r.difficulty
      let ordered := sortByCapture r.board legal
      let result := negamax r.board r.turn depth EInt.negInf EInt.posInf
      let best := match result.move with
        | some m => m
        | none => ordered.headD ⟨(0, 0), (0, 0), none⟩
      let picked := pickMoveWithNoise best ordered r.difficulty rnd
      render { p with thinking := false, timer := none } (doMove p.session picked) true

/-- One handler of the component takes the session state `s` to `s2`; the
flag says whether it stored a new board array (`setBoard`): `newGame` always,
`undoPly` past its guard, a click when it applied a move with `doMove`, which
is when the position stack changed. -/
inductive Handler : Session → Session → Bool → Prop where
  | newGame (s : Session) (side : Color) : Handler s (newGame s side) true
  | undoPly (s : Session) : Handler s (undoPly s) (decide (1 < s.boardStack.length))
  | click (s : Session) (i : Nat) :
      Handler s (onSquareClick s i) (decide ((onSquareClick s i).boardStack ≠ s.boardStack))
  | hint (s : Session) : Handler s (showHint s) false
  | escape (s : Session) : Handler s (pressEscape s) false
  | difficulty (s : Session) (d : Int) : Handler s (setDifficulty s d) false
  | flip (s : Session) : Handler s (flipBoard s) false

/-- The page after "Undo Turn": the component renders after the first
`undoPly` and again after the delayed one, which runs from the closure of the
render the button was pressed in. Each call stores a board when its guard, on
the position stack of that render, has passed. With a stack of two positions
the delayed call stores `undefined` (see `undoPlyUpdates`) and the page has no
meaning from there on. -/
def undoTurnPage (p : Page) : Page :=
  render (render p (undoPly p.session) (decide (1 < p.session.boardStack.length)))
    (undoTurn p.session) (decide (1 < p.session.boardStack.length))

/-- The states of the engine scheduling: the effect runs at mount, a handler
changes the session and the component renders again, "Undo Turn" renders
twice, the timer fires. -/
inductive PageReachable : Page → Prop where
  | mount : PageReachable (engineEffect ⟨initialSession, false, none⟩)
  | handler {p : Page} {s : Session} {f : Bool} :
      PageReachable p → Handler p.session s f → PageReachable (render p s f)
  | undoTurn {p : Page} : PageReachable p → PageReachable (undoTurnPage p)
  | fire {p : Page} (rnd : ℚ) :
      PageReachable p → p.timer.isSome = true → IsDouble rnd → 0 ≤ rnd → rnd < 1 →
      PageReachable (timerFire p rnd)

/-- The page after mount: the effect has run for the initial state. -/
def mountedPage : Page :=
  engineEffect ⟨initialSession, false, none⟩

/-- The page after "New Game" as Black at mount: the engine, White, is to
move and its search is scheduled. -/
def thinkingPage : Page :=
  render mountedPage (newGame mountedPage.session Color.black) true

/-- The page after the difficulty slider is moved to 7 while the search is
scheduled. -/
def blockedPage : Page :=
  render thinkingPage (setDifficulty thinkingPage.session 7) false

/-- The page after a click on e2 at mount: the pawn is selected. -/
def selectedPage : Page :=
  render mountedPage (onSquareClick mountedPage.session 52)
    (decide ((onSquareClick mountedPage.session 52).boardStack ≠ mountedPage.session.boardStack))

/-- The page after the click on e4 that follows: the human, White, has played
e2-e4, the engine is to move and its search is scheduled. -/
def movedPage : Page :=
  render selectedPage (onSquareClick selectedPage.session 36)
    (decide ((onSquareClick selectedPage.session 36).boardStack ≠ selectedPage.session.boardStack))

/-! ## Reachable positions and fixtures -/

/-- The positions of a game played by the rules of the code: the initial
position with White to move, and every position obtained from one of them by
a move of `generateLegalMoves` for the side to move. -/
inductive Reachable : Board → Color → Prop where
  | init : Reachable initialBoard Color.white
  | step {b : Board} {c : Color} {m : Move} :
      Reachable b c → m ∈ generateLegalMoves b c → Reachable (applyMove b m) (other c)

/-- The number of squares holding the king of `color`. -/
def kingCount (board : Board) (color : Color) : Nat :=
  (allSquares.filter fun p => sq board p.1 p.2 == some ⟨color, Kind.king⟩).length

/-- The pieces on the board, square by square in row-major order. -/
def pieces (board : Board) : List Piece :=
  allSquares.filterMap fun p => sq board p.1 p.2

/-- The position after 1.e4 d5 2.Ke2 d4: the black pawn on `(4, 3)` guards
`(5, 2)` and `(5, 4)`. -/
def pawnGuardBoard : Board :=
  [ [bp .rook, bp .knight, bp .bishop, bp .queen, bp .king, bp .bishop, bp .knight, bp .rook],
    [bp .pawn, bp .pawn, bp .pawn, none, bp .pawn, bp .pawn, bp .pawn, bp .pawn],
    [none, none, none, none, none, none, none, none],
    [none, none, none, none, none, none, none, none],
    [none, none, none, bp .pawn, wp .pawn, none, none, none],
    [none, none, none, none, none, none, none, none],
    [wp .pawn, wp .pawn, wp .pawn, wp .pawn, wp .king, wp .pawn, wp .pawn, wp .pawn],
    [wp .rook, wp .knight, wp .bishop, wp .queen, none, wp .bishop, wp .knight, wp .rook] ]

/-- A stalemate fixture: Black king on `(0, 7)`, White king on `(1, 5)`, White
queen on `(2, 6)`, Black to move. -/
def stalemateBoard : Board :=
  [ [none, none, none, none, none, none, none, bp .king],
    [none, none, none, none, none, wp .king, none, none],
    [none, none, none, none, none, none, wp .queen, none],
    [none, none, none, none, none, none, none, none],
    [none, none, none, none, none, none, none, none],
    [none, none, none, none, none, none, none, none],
    [none, none, none, none, none, none, none, none],
    [none, none, none, none, none, none, none, none] ]

/-- A promotion fixture: a white pawn on `(1, 0)` one step from row 0. -/
def promotionBoard : Board :=
  [ [none, none, none, none, bp .king, none, none, none],
    [wp .pawn, none, none, none, none, none, none, none],
    [none, none, none, none, none, none, none, none],
    [none, none, none, none, none, none, none, none],
    [none, none, none, none, none, none, none, none],
    [none, none, none, none, none, none, none, none],
    [none, none, none, none, none, none, none, none],
    [none, none, none, none, wp .king, none, none, none] ]

/-- The position after 1.f3 e5 2.g4 Qh4: White is checkmated. -/
def foolsMateBoard : Board :=
  [ [bp .rook, bp .knight, bp .bishop, none, bp .king, bp .bishop, bp .knight, bp .rook],
    [bp .pawn, bp .pawn, bp .pawn, bp .pawn, none, bp .pawn, bp .pawn, bp .pawn],
    [none, none, none, none, none, none, none, none],
    [none, none, none, none, bp .pawn, none, none, none],
    [none, none, none, none, none, none, wp .pawn, bp .queen],
    [none, none, none, none, none, wp .pawn, none, none],
    [wp .pawn, wp .pawn, wp .pawn, wp .pawn, wp .pawn, none, none, wp .pawn],
    [wp .rook, wp .knight, wp .bishop, wp .queen, wp .king, wp .bishop, wp .knight, wp .rook] ]

/-- The position after 1.e4 d5 2.e5 d4: the white pawn on `(3, 4)` stands one
row above and one column beside the black pawn on `(4, 3)`. -/
def advancedPawnsBoard : Board :=
  [ [bp .rook, bp .knight, bp .bishop, bp .queen, bp .king, bp .bishop, bp .knight, bp .rook],
    [bp .pawn, bp .pawn, bp .pawn, none, bp .pawn, bp .pawn, bp .pawn, bp .pawn],
    [none, none, none, none, none, none, none, none],
    [none, none, none, none, wp .pawn, none, none, none],
    [none, none, none, bp .pawn, none, none, none, none],
    [none, none, none, none, none, none, none, none],
    [wp .pawn, wp .pawn, wp .pawn, wp .pawn, none, wp .pawn, wp .pawn, wp .pawn],
    [wp .rook, wp .knight, wp .bishop, wp .queen, wp .king, wp .bishop, wp .knight, wp .rook] ]

/-! ## Board access and shape of the generated moves -/

theorem cloneBoard_eq (b : Board) : cloneBoard b = b := by
  simp [cloneBoard]

theorem getD_set_grid (b : List (List Cell)) (i j i' j' : Nat) (v : Cell)
    (hi : i < b.length) (hj : j < (b.getD i []).length) :
    ((b.set i ((b.getD i []).set j v)).getD i' []).getD j' none
      = if i' = i ∧ j' = j then v else (b.getD i' []).getD j' none := by
  simp only [List.getD_eq_getElem?_getD, List.getElem?_set] at *
  by_cases h1 : i = i'
  · subst h1
    simp only [hi, if_true, Option.getD_some, List.getElem?_set]
    by_cases h2 : j = j'
    · subst h2
      simp [hj]
    · have h2' : ¬ j' = j := fun h => h2 h.symm
      simp [h2, h2']
  · have h1' : ¬ i' = i := fun h => h1 h.symm
    simp [h1, h1']

theorem sq_setSq (b : Board) (r c r' c' : Int) (v : Cell) (hwf : WellFormed b)
    (hin : inBounds r c = true) (hin' : inBounds r' c' = true) :
    sq (setSq b r c v) r' c' = if (r', c') = (r, c) then v else sq b r' c' := by
  simp only [inBounds, Bool.and_eq_true, decide_eq_true_eq] at hin hin'
  obtain ⟨hlen, hrows⟩ := hwf
  have hi : r.toNat < b.length := by omega
  have hj : c.toNat < (b.getD r.toNat []).length := by
    have : (b.getD r.toNat []) ∈ b := by
      rw [List.getD_eq_getElem?_getD, List.getElem?_eq_getElem hi]
      exact List.getElem_mem hi
    rw [hrows _ this]; omega
  unfold sq setSq
  rw [getD_set_grid b _ _ _ _ v hi hj]
  have : (r'.toNat = r.toNat ∧ c'.toNat = c.toNat) ↔ (r', c') = (r, c) := by
    rw [Prod.mk.injEq]
    constructor
    · rintro ⟨h1, h2⟩; constructor <;> omega
    · rintro ⟨h1, h2⟩; subst h1 h2; exact ⟨rfl, rfl⟩
  simp only [this]

theorem wellFormed_setSq (b : Board) (r c : Int) (v : Cell) (hwf : WellFormed b) :
    WellFormed (setSq b r c v) := by
  obtain ⟨hlen, hrows⟩ := hwf
  refine ⟨by simp [setSq, hlen], ?_⟩
  intro row hrow
  unfold setSq at hrow
  by_cases hi : r.toNat < b.length
  · rcases List.mem_or_eq_of_mem_set hrow with h | h
    · exact hrows _ h
    · subst h
      rw [List.length_set]
      apply hrows
      rw [List.getD_eq_getElem?_getD, List.getElem?_eq_getElem hi]
      exact List.getElem_mem hi
  · rw [List.set_eq_of_length_le (by omega)] at hrow
    exact hrows _ hrow

theorem mem_idx8 (r : Int) : r ∈ idx8 ↔ 0 ≤ r ∧ r < 8 := by
  unfold idx8
  simp only [List.mem_cons, List.mem_singleton, List.not_mem_nil, or_false]
  omega

theorem inBounds_iff (r c : Int) : inBounds r c = true ↔ (0 ≤ r ∧ r < 8) ∧ 0 ≤ c ∧ c < 8 := by
  simp only [inBounds, Bool.and_eq_true, decide_eq_true_eq]
  tauto

theorem slideRay_spec (b : Board) (their : Color) (r c dr dc : Int) (m : Move) :
    ∀ (fuel : Nat) (rr cc : Int), m ∈ slideRay b their r c dr dc fuel rr cc →
      m.from_ = (r, c) ∧ m.promo = none ∧ inBounds m.to_.1 m.to_.2 = true := by
  intro fuel
  induction fuel with
  | zero => intro rr cc h; simp [slideRay] at h
  | succ n ih =>
    intro rr cc h
    unfold slideRay at h
    by_cases hin : inBounds rr cc = true
    · rw [if_pos hin] at h
      cases hsq : sq b rr cc with
      | none =>
        rw [hsq] at h
        rcases List.mem_cons.1 h with h | h
        · subst h; exact ⟨rfl, rfl, hin⟩
        · exact ih _ _ h
      | some t =>
        rw [hsq] at h
        dsimp only at h
        split_ifs at h
        · rw [List.mem_singleton] at h; subst h; exact ⟨rfl, rfl, hin⟩
        · simp at h
    · rw [if_neg hin] at h; simp at h

theorem stepMoves_spec (b : Board) (their : Color) (r c : Int) (dirs : List (Int × Int))
    (m : Move) (h : m ∈ stepMoves b their r c dirs) :
    m.from_ = (r, c) ∧ m.promo = none ∧ inBounds m.to_.1 m.to_.2 = true := by
  unfold stepMoves at h
  rw [List.mem_flatMap] at h
  obtain ⟨d, -, hd⟩ := h
  dsimp only at hd
  by_cases hin : inBounds (r + d.1) (c + d.2) = true
  · simp only [hin, Bool.not_true, Bool.false_eq_true, if_false] at hd
    cases hsq : sq b (r + d.1) (c + d.2) with
    | none =>
      rw [hsq] at hd
      rw [List.mem_singleton] at hd; subst hd; exact ⟨rfl, rfl, hin⟩
    | some t =>
      rw [hsq] at hd
      dsimp only at hd
      split_ifs at hd
      · rw [List.mem_singleton] at hd; subst hd; exact ⟨rfl, rfl, hin⟩
      · simp at hd
  · simp [hin] at hd

theorem mem_promoList (m : Move) (f : Int × Int) (rr cc : Int) (q : Piece)
    (h : m ∈ (if rr = 0 ∨ rr = 7 then [(⟨f, (rr, cc), some q⟩ : Move)]
      else [(⟨f, (rr, cc), none⟩ : Move)])) :
    m.from_ = f ∧ m.to_ = (rr, cc) ∧ m.promo = if rr = 0 ∨ rr = 7 then some q else none := by
  split_ifs at h with h1
  · rw [List.mem_singleton] at h; subst h; exact ⟨rfl, rfl, by rw [if_pos h1]⟩
  · rw [List.mem_singleton] at h; subst h; exact ⟨rfl, rfl, by rw [if_neg h1]⟩

theorem mem_captureList (b : Board) (their : Color) (m : Move) (f : Int × Int) (rr cc : Int)
    (q : Piece)
    (h : m ∈ (match sq b rr cc with
      | none => []
      | some t =>
        if t.color = their then
          (if rr = 0 ∨ rr = 7 then [(⟨f, (rr, cc), some q⟩ : Move)]
            else [(⟨f, (rr, cc), none⟩ : Move)])
        else [])) :
    m.from_ = f ∧ m.to_ = (rr, cc) ∧ m.promo = if rr = 0 ∨ rr = 7 then some q else none := by
  cases hsq : sq b rr cc with
  | none => rw [hsq] at h; simp at h
  | some t =>
    rw [hsq] at h
    dsimp only at h
    by_cases ht : t.color = their
    · rw [if_pos ht] at h; exact mem_promoList m f rr cc q h
    · rw [if_neg ht] at h; simp at h

theorem pawnMoves_spec (b : Board) (their : Color) (isWhite : Bool) (r c : Int) (m : Move)
    (h : m ∈ pawnMoves b their isWhite r c) :
    m.from_ = (r, c) ∧ inBounds m.to_.1 m.to_.2 = true ∧
    m.promo = (if m.to_.1 = 0 ∨ m.to_.1 = 7
      then some ⟨if isWhite then Color.white else Color.black, Kind.queen⟩ else none) ∧
    (m.to_.1 = r + (if isWhite then -1 else 1) ∨
      (r = (if isWhite then 6 else 1) ∧ m.to_.1 = r + 2 * (if isWhite then -1 else 1))) := by
  unfold pawnMoves at h
  dsimp only at h
  rw [List.mem_append] at h
  rcases h with h | h
  · by_cases h1 : (inBounds (r + if isWhite = true then -1 else 1) c
        && (sq b (r + if isWhite = true then -1 else 1) c).isNone) = true
    · rw [if_pos h1, List.mem_append] at h
      rw [Bool.and_eq_true] at h1
      rcases h with h | h
      · obtain ⟨hf, ht, hp⟩ := mem_promoList _ _ _ _ _ h
        rw [ht]
        exact ⟨hf, h1.1, hp, Or.inl rfl⟩
      · by_cases h2 : r = (if isWhite = true then 6 else 1)
            ∧ (sq b (r + 2 * if isWhite = true then -1 else 1) c).isNone = true
        · rw [if_pos h2, List.mem_singleton] at h
          subst h
          have hb := (inBounds_iff _ _).1 h1.1
          obtain ⟨h2, -⟩ := h2
          dsimp only
          refine ⟨rfl, ?_, ?_, Or.inr ⟨h2, rfl⟩⟩
          · rw [inBounds_iff]
            cases isWhite <;> simp at h2 ⊢ <;> omega
          · rw [if_neg]
            cases isWhite <;> simp at h2 ⊢ <;> omega
        · rw [if_neg h2] at h; simp at h
    · rw [if_neg h1] at h; simp at h
  · rw [List.mem_flatMap] at h
    obtain ⟨dc, -, hd⟩ := h
    by_cases hin : inBounds (r + (if isWhite = true then -1 else 1)) (c + dc) = true
    · simp only [hin, Bool.not_true, Bool.false_eq_true, if_false] at hd
      obtain ⟨hf, ht, hp⟩ := mem_captureList _ _ _ _ _ _ _ hd
      rw [ht]
      exact ⟨hf, hin, hp, Or.inl rfl⟩
    · simp [hin] at hd

theorem pieceMoves_spec (b : Board) (color : Color) (r c : Int) (m : Move)
    (h : m ∈ pieceMoves b color r c) :
    ∃ p : Piece, sq b r c = some p ∧ p.color = color ∧ m.from_ = (r, c) ∧
      inBounds m.to_.1 m.to_.2 = true ∧
      (p.kind ≠ Kind.pawn → m.promo = none) ∧
      (p.kind = Kind.pawn →
        m.promo = (if m.to_.1 = 0 ∨ m.to_.1 = 7 then some ⟨color, Kind.queen⟩ else none) ∧
        (m.to_.1 = r + (if color = Color.white then -1 else 1) ∨
          (r = (if color = Color.white then 6 else 1) ∧
            m.to_.1 = r + 2 * (if color = Color.white then -1 else 1)))) := by
  unfold pieceMoves at h
  cases hsq : sq b r c with
  | none => rw [hsq] at h; simp at h
  | some p =>
    rw [hsq] at h
    dsimp only at h
    by_cases hc : p.color = color
    · rw [if_neg (not_not.2 hc)] at h
      refine ⟨p, rfl, hc, ?_⟩
      obtain ⟨pc, pk⟩ := p
      dsimp only at hc h ⊢
      subst hc
      cases pk <;> dsimp only at h
      · obtain ⟨h1, h2, h3, h4⟩ := pawnMoves_spec _ _ _ _ _ _ h
        refine ⟨h1, h2, fun hk => absurd rfl hk, fun _ => ⟨?_, ?_⟩⟩
        · rw [h3]; cases pc <;> rfl
        · cases pc <;> simpa using h4
      · obtain ⟨h1, h2, h3⟩ := stepMoves_spec _ _ _ _ _ _ h
        exact ⟨h1, h3, fun _ => h2, fun hk => by cases hk⟩
      · obtain ⟨d, -, hd⟩ := List.mem_flatMap.1 h
        obtain ⟨h1, h2, h3⟩ := slideRay_spec _ _ _ _ _ _ _ _ _ _ hd
        exact ⟨h1, h3, fun _ => h2, fun hk => by cases hk⟩
      · obtain ⟨d, -, hd⟩ := List.mem_flatMap.1 h
        obtain ⟨h1, h2, h3⟩ := slideRay_spec _ _ _ _ _ _ _ _ _ _ hd
        exact ⟨h1, h3, fun _ => h2, fun hk => by cases hk⟩
      · obtain ⟨d, -, hd⟩ := List.mem_flatMap.1 h
        obtain ⟨h1, h2, h3⟩ := slideRay_spec _ _ _ _ _ _ _ _ _ _ hd
        exact ⟨h1, h3, fun _ => h2, fun hk => by cases hk⟩
      · obtain ⟨h1, h2, h3⟩ := stepMoves_spec _ _ _ _ _ _ h
        exact ⟨h1, h3, fun _ => h2, fun hk => by cases hk⟩
    · rw [if_pos hc] at h; simp at h

theorem mem_generatePseudoMoves (b : Board) (color : Color) (m : Move) :
    m ∈ generatePseudoMoves b color ↔
      ∃ r ∈ idx8, ∃ c ∈ idx8, m ∈ pieceMoves b color r c := by
  unfold generatePseudoMoves
  simp only [List.mem_flatMap]
theorem mem_allSquares (p : Int × Int) : p ∈ allSquares ↔ inBounds p.1 p.2 = true := by
  obtain ⟨r, c⟩ := p
  unfold allSquares
  simp only [List.mem_flatMap, List.mem_map, Prod.mk.injEq, mem_idx8, inBounds_iff]
  constructor
  · rintro ⟨a, ha, b, hb, rfl, rfl⟩; exact ⟨ha, hb⟩
  · rintro ⟨ha, hb⟩; exact ⟨r, ha, c, hb, rfl, rfl⟩

theorem nodup_allSquares : allSquares.Nodup := by decide

theorem sq_applyMove (b : Board) (m : Move) (r c : Int) (hwf : WellFormed b)
    (hf : inBounds m.from_.1 m.from_.2 = true) (ht : inBounds m.to_.1 m.to_.2 = true)
    (hrc : inBounds r c = true) :
    sq (applyMove b m) r c =
      if (r, c) = m.to_ then
        (match m.promo with
          | some q => some q
          | none => sq b m.from_.1 m.from_.2)
      else if (r, c) = m.from_ then none else sq b r c := by
  unfold applyMove
  rw [cloneBoard_eq]
  dsimp only
  rw [sq_setSq _ _ _ _ _ _ (wellFormed_setSq _ _ _ _ hwf) ht hrc, sq_setSq _ _ _ _ _ _ hwf hf hrc]

theorem wellFormed_applyMove (b : Board) (m : Move) (hwf : WellFormed b) :
    WellFormed (applyMove b m) := by
  unfold applyMove
  rw [cloneBoard_eq]
  exact wellFormed_setSq _ _ _ _ (wellFormed_setSq _ _ _ _ hwf)

theorem pieces_perm_of_swap (b nb : Board) (f t : Int × Int)
    (hf : f ∈ allSquares) (ht : t ∈ allSquares)
    (h : ∀ p ∈ allSquares, sq nb p.1 p.2 = sq b (Equiv.swap f t p).1 (Equiv.swap f t p).2) :
    (pieces nb).Perm (pieces b) := by
  unfold pieces
  have h1 : allSquares.filterMap (fun p => sq nb p.1 p.2)
      = (allSquares.map (Equiv.swap f t)).filterMap (fun p => sq b p.1 p.2) := by
    rw [List.filterMap_map]
    exact List.filterMap_congr h
  rw [h1]
  apply List.Perm.filterMap
  rw [List.perm_ext_iff_of_nodup (nodup_allSquares.map (Equiv.swap f t).injective)
    nodup_allSquares]
  intro p
  rw [List.mem_map]
  constructor
  · rintro ⟨q, hq, rfl⟩
    by_cases h1 : q = f
    · subst h1; rwa [Equiv.swap_apply_left]
    · by_cases h2 : q = t
      · subst h2; rwa [Equiv.swap_apply_right]
      · rwa [Equiv.swap_apply_of_ne_of_ne h1 h2]
  · intro hp
    refine ⟨Equiv.swap f t p, ?_, Equiv.swap_apply_self f t p⟩
    by_cases h1 : p = f
    · subst h1; rwa [Equiv.swap_apply_left]
    · by_cases h2 : p = t
      · subst h2; rwa [Equiv.swap_apply_right]
      · rwa [Equiv.swap_apply_of_ne_of_ne h1 h2]

/-! ## The step budget of the ray walks -/

theorem stepsLeft_pos (dr dc rr cc : Int) (h : inBounds rr cc = true) :
    1 ≤ stepsLeft dr dc rr cc ∧ stepsLeft dr dc rr cc ≤ 8 := by
  rw [inBounds_iff] at h
  unfold stepsLeft
  split_ifs <;> omega

theorem stepsLeft_step (dr dc rr cc : Int) (hd : IsRayDir dr dc) :
    stepsLeft dr dc (rr + dr) (cc + dc) = stepsLeft dr dc rr cc - 1 := by
  unfold IsRayDir at hd
  unfold stepsLeft
  split_ifs <;> omega

theorem attackRay_fuel (board : Board) (dr dc : Int) (p1 p2 : Piece) (hd : IsRayDir dr dc) :
    ∀ (n fuel : Nat) (rr cc : Int), (inBounds rr cc = true → stepsLeft dr dc rr cc ≤ n) →
      n ≤ fuel →
      attackRay board dr dc p1 p2 fuel rr cc = attackRay board dr dc p1 p2 n rr cc := by
  intro n
  induction n with
  | zero =>
    intro fuel rr cc hs _
    have hout : ¬ inBounds rr cc = true := fun h => by
      have := stepsLeft_pos dr dc rr cc h
      have := hs h
      omega
    cases fuel with
    | zero => rfl
    | succ f => simp [attackRay, hout]
  | succ n ih =>
    intro fuel rr cc hs hle
    obtain ⟨f, rfl⟩ : ∃ f, fuel = f + 1 := ⟨fuel - 1, by omega⟩
    unfold attackRay
    by_cases hin : inBounds rr cc = true
    · rw [if_pos hin, if_pos hin]
      cases sq board rr cc with
      | some p => rfl
      | none =>
        dsimp only
        apply ih
        · intro _
          rw [stepsLeft_step dr dc rr cc hd]
          have := hs hin
          omega
        · omega
    · rw [if_neg hin, if_neg hin]

theorem slideRay_fuel (board : Board) (their : Color) (r c dr dc : Int) (hd : IsRayDir dr dc) :
    ∀ (n fuel : Nat) (rr cc : Int), (inBounds rr cc = true → stepsLeft dr dc rr cc ≤ n) →
      n ≤ fuel →
      slideRay board their r c dr dc fuel rr cc = slideRay board their r c dr dc n rr cc := by
  intro n
  induction n with
  | zero =>
    intro fuel rr cc hs _
    have hout : ¬ inBounds rr cc = true := fun h => by
      have := stepsLeft_pos dr dc rr cc h
      have := hs h
      omega
    cases fuel with
    | zero => rfl
    | succ f => simp [slideRay, hout]
  | succ n ih =>
    intro fuel rr cc hs hle
    obtain ⟨f, rfl⟩ : ∃ f, fuel = f + 1 := ⟨fuel - 1, by omega⟩
    unfold slideRay
    by_cases hin : inBounds rr cc = true
    · rw [if_pos hin, if_pos hin]
      cases sq board rr cc with
      | some p => rfl
      | none =>
        dsimp only
        congr 1
        apply ih
        · intro _
          rw [stepsLeft_step dr dc rr cc hd]
          have := hs hin
          omega
        · omega
    · rw [if_neg hin, if_neg hin]

/-- The step budget 8 of the attack rays never cuts a walk short: with any
larger budget the walk gives the same answer. -/
theorem attackRay_budget_suffices (board : Board) (dr dc : Int) (p1 p2 : Piece)
    (hd : IsRayDir dr dc) (fuel : Nat) (hfuel : 8 ≤ fuel) (rr cc : Int) :
    attackRay board dr dc p1 p2 fuel rr cc = attackRay board dr dc p1 p2 8 rr cc :=
  attackRay_fuel board dr dc p1 p2 hd 8 fuel rr cc
    (fun h => (stepsLeft_pos dr dc rr cc h).2) hfuel

/-- The step budget 8 of the sliding moves never cuts a walk short. -/
theorem slideRay_budget_suffices (board : Board) (their : Color) (r c dr dc : Int)
    (hd : IsRayDir dr dc) (fuel : Nat) (hfuel : 8 ≤ fuel) (rr cc : Int) :
    slideRay board their r c dr dc fuel rr cc = slideRay board their r c dr dc 8 rr cc :=
  slideRay_fuel board their r c dr dc hd 8 fuel rr cc
    (fun h => (stepsLeft_pos dr dc rr cc h).2) hfuel

theorem isRayDir_of_mem (d : Int × Int) (h : d ∈ diagDirs ++ orthoDirs) : IsRayDir d.1 d.2 := by
  simp only [diagDirs, orthoDirs, List.cons_append, List.nil_append, List.mem_cons,
    List.mem_singleton, List.not_mem_nil, or_false] at h
  unfold IsRayDir
  rcases h with h | h | h | h | h | h | h | h <;> subst h <;> simp

/-! ## Legality filter -/

/-- C1: every move returned by `generateLegalMoves(board, side)` is also
returned by `generatePseudoMoves(board, side)`, and after applying it
`isInCheck` is false for the mover. -/
theorem legal_subset_pseudo_and_not_in_check (board : Board) (color : Color)
    (hwf : WellFormed board) (m : Move) (hm : m ∈ generateLegalMoves board color) :
    m ∈ generatePseudoMoves board color ∧ isInCheck (applyMove board m) color = false := by
  have _ := hwf
  unfold generateLegalMoves at hm
  rw [List.mem_filter] at hm
  refine ⟨hm.1, ?_⟩
  simpa using hm.2

theorem legal_subset_pseudo_and_not_in_check_witness :
    WellFormed initialBoard ∧
    (⟨(6, 4), (4, 4), none⟩ : Move) ∈ generateLegalMoves initialBoard Color.white ∧
    (⟨(6, 4), (4, 4), none⟩ : Move) ∈ generatePseudoMoves initialBoard Color.white ∧
    isInCheck (applyMove initialBoard ⟨(6, 4), (4, 4), none⟩) Color.white = false :=
  ⟨by decide, by decide,
    legal_subset_pseudo_and_not_in_check initialBoard Color.white (by decide)
      ⟨(6, 4), (4, 4), none⟩ (by decide)⟩

/-- C2, evaluated at the position after 1.e4 d5 2.Ke2 d4 (a reachable
position): the king move `(6, 4) -> (5, 4)` is returned by `generateLegalMoves`
although on the resulting board the black pawn on `(4, 3)` has the pseudo-legal
capture `(4, 3) -> (5, 4)` onto the square of the only white king;
`isSquareAttacked` does not see the pawn. -/
theorem legal_move_leaves_king_capturable_by_pawn :
    Reachable pawnGuardBoard Color.white ∧
    (⟨(6, 4), (5, 4), none⟩ : Move) ∈ generateLegalMoves pawnGuardBoard Color.white ∧
    findKing (applyMove pawnGuardBoard ⟨(6, 4), (5, 4), none⟩) Color.white = some (5, 4) ∧
    kingCount (applyMove pawnGuardBoard ⟨(6, 4), (5, 4), none⟩) Color.white = 1 ∧
    (⟨(4, 3), (5, 4), none⟩ : Move) ∈
      generatePseudoMoves (applyMove pawnGuardBoard ⟨(6, 4), (5, 4), none⟩) Color.black ∧
    isSquareAttacked (applyMove pawnGuardBoard ⟨(6, 4), (5, 4), none⟩) 5 4 Color.black
      = false := by
  refine ⟨?_, by decide, by decide, by decide, by decide, by decide⟩
  have h1 : Reachable (applyMove initialBoard ⟨(6, 4), (4, 4), none⟩) Color.black :=
    Reachable.step Reachable.init (by decide)
  have h2 := Reachable.step (m := ⟨(1, 3), (3, 3), none⟩) h1 (by decide)
  have h3 := Reachable.step (m := ⟨(7, 4), (6, 4), none⟩) h2 (by decide)
  have h4 := Reachable.step (m := ⟨(3, 3), (4, 3), none⟩) h3 (by decide)
  exact h4

/-- C3, evaluated on the game 1.e4 d5 2.Ke2 d4 3.Ke3 dxe3: every move is
returned by `generateLegalMoves` for the side to move, and the position
reached holds no white king, so that `findKing` fails and `isInCheck` takes
its fallback. -/
theorem reachable_position_without_white_king :
    Reachable (applyMove (applyMove pawnGuardBoard ⟨(6, 4), (5, 4), none⟩)
      ⟨(4, 3), (5, 4), none⟩) Color.white ∧
    kingCount (applyMove (applyMove pawnGuardBoard ⟨(6, 4), (5, 4), none⟩)
      ⟨(4, 3), (5, 4), none⟩) Color.white = 0 ∧
    findKing (applyMove (applyMove pawnGuardBoard ⟨(6, 4), (5, 4), none⟩)
      ⟨(4, 3), (5, 4), none⟩) Color.white = none := by
  refine ⟨?_, by decide, by decide⟩
  have h1 : Reachable (applyMove initialBoard ⟨(6, 4), (4, 4), none⟩) Color.black :=
    Reachable.step Reachable.init (by decide)
  have h2 := Reachable.step (m := ⟨(1, 3), (3, 3), none⟩) h1 (by decide)
  have h3 := Reachable.step (m := ⟨(7, 4), (6, 4), none⟩) h2 (by decide)
  have h4 : Reachable pawnGuardBoard Color.white :=
    Reachable.step (m := ⟨(3, 3), (4, 3), none⟩) h3 (by decide)
  have h5 := Reachable.step (m := ⟨(6, 4), (5, 4), none⟩) h4 (by decide)
  exact Reachable.step (m := ⟨(4, 3), (5, 4), none⟩) h5 (by decide)

/-- C5: `generateLegalMoves(initialBoard(), WHITE)` contains exactly 20
moves. -/
theorem initial_position_has_twenty_legal_moves :
    (generateLegalMoves initialBoard Color.white).length = 20 := by
  decide

/-! ## Terminal nodes of the search -/

/-- C8 as stated fails at depth 0: on the stalemate fixture (Black to move has
no legal move and is not in check) `negamax` at depth 0 returns the static
evaluation `-900`, not 0. -/
theorem stalemate_depth_zero_score_nonzero :
    (generateLegalMoves stalemateBoard Color.black).length = 0 ∧
    isInCheck stalemateBoard Color.black = false ∧
    (negamax stalemateBoard Color.black 0 EInt.negInf EInt.posInf).score = EInt.fin (-900) ∧
    (negamax stalemateBoard Color.black 0 EInt.negInf EInt.posInf).score ≠ EInt.fin 0 := by
  decide

/-- C8, amended: in a position where the side to move has no legal move and
is not in check, `negamax` at every depth of at least 1, with every window,
returns score 0 (and no move). -/
theorem stalemate_score_zero (board : Board) (color : Color) (depth : Nat) (alpha beta : EInt)
    (hnone : (generateLegalMoves board color).length = 0)
    (hcheck : isInCheck board color = false) (hdepth : 1 ≤ depth) :
    (negamax board color depth alpha beta).score = EInt.fin 0 := by
  obtain ⟨d, rfl⟩ : ∃ d, depth = d + 1 := ⟨depth - 1, by omega⟩
  simp [negamax, hnone, hcheck]

theorem stalemate_score_zero_witness :
    (generateLegalMoves stalemateBoard Color.black).length = 0 ∧
    isInCheck stalemateBoard Color.black = false ∧
    (negamax stalemateBoard Color.black 3 EInt.negInf EInt.posInf).score = EInt.fin 0 :=
  ⟨by decide, by decide,
    stalemate_score_zero stalemateBoard Color.black 3 EInt.negInf EInt.posInf
      (by decide) (by decide) (by decide)⟩

/-- C9: in a position where the side to move has no legal move and is in
check, `negamax` at every depth of at least 1 returns exactly
`-100000 + (3 - depth)`; the score is strictly decreasing in the remaining
depth, so its negation, the score of the mating side, is strictly larger for
the mate found with more remaining depth. -/
theorem checkmate_score (board : Board) (color : Color) (alpha beta : EInt)
    (hnone : (generateLegalMoves board color).length = 0)
    (hcheck : isInCheck board color = true) :
    (∀ depth : Nat, 1 ≤ depth →
      (negamax board color depth alpha beta).score = EInt.fin (-100000 + (3 - (depth : Int)))) ∧
    (∀ d1 d2 : Nat, 1 ≤ d1 → d1 < d2 →
      ∃ s1 s2 : Int,
        (negamax board color d1 alpha beta).score = EInt.fin s1 ∧
        (negamax board color d2 alpha beta).score = EInt.fin s2 ∧
        s2 < s1 ∧ -s1 < -s2) := by
  have key : ∀ depth : Nat, 1 ≤ depth →
      (negamax board color depth alpha beta).score = EInt.fin (-100000 + (3 - (depth : Int))) := by
    intro depth hdepth
    obtain ⟨d, rfl⟩ : ∃ d, depth = d + 1 := ⟨depth - 1, by omega⟩
    simp [negamax, hnone, hcheck]
  refine ⟨key, ?_⟩
  intro d1 d2 h1 h12
  refine ⟨_, _, key d1 h1, key d2 (by omega), ?_, ?_⟩ <;> omega

theorem checkmate_score_witness :
    (generateLegalMoves foolsMateBoard Color.white).length = 0 ∧
    isInCheck foolsMateBoard Color.white = true ∧
    (negamax foolsMateBoard Color.white 2 EInt.negInf EInt.posInf).score = EInt.fin (-99999) :=
  ⟨by decide, by decide,
    (checkmate_score foolsMateBoard Color.white EInt.negInf EInt.posInf
      (by decide) (by decide)).1 2 (by decide)⟩

/-! ## Hint -/

/-- C10 as stated fails at the default difficulty 4: `showHint` searches at
depth `difficultyToDepth(max(4, 4)) = 2`, while
`max(4, difficultyToDepth(4)) = 4`. -/
theorem hint_depth_at_level_four :
    hintDepth 4 = 2 ∧ max 4 (difficultyToDepth 4) = 4 ∧
    hintDepth 4 ≠ max 4 (difficultyToDepth 4) := by
  decide

/-- C10, amended: for every difficulty level 1..10 the hint searches at depth
`difficultyToDepth(max(4, difficulty))`, which is 2 for the levels 1..4, 3 for
5..6 and 4 for 7..10 (never shallower than 2 plies, never deeper than 4);
the hint is the move of that search, or the first legal move when the search
returns none; and `showHint` changes neither the board, the two stacks nor the
side to move. -/
theorem showHint_depth_and_frame (s : Session) (h1 : 1 ≤ s.difficulty) (h10 : s.difficulty ≤ 10) :
    hintDepth s.difficulty = difficultyToDepth (max 4 s.difficulty) ∧
    hintDepth s.difficulty
      = (if s.difficulty ≤ 4 then 2 else if s.difficulty ≤ 6 then 3 else 4) ∧
    2 ≤ hintDepth s.difficulty ∧ hintDepth s.difficulty ≤ 4 ∧
    (gameOver s.board s.turn = none → s.turn = s.humanColor →
      (showHint s).hintMove =
        match (negamax s.board s.turn (hintDepth s.difficulty) EInt.negInf EInt.posInf).move with
        | some m => some m
        | none => (generateLegalMoves s.board s.turn).head?) ∧
    (showHint s).board = s.board ∧ (showHint s).boardStack = s.boardStack ∧
    (showHint s).moveStack = s.moveStack ∧ (showHint s).turn = s.turn := by
  have hd : hintDepth s.difficulty
      = (if s.difficulty ≤ 4 then 2 else if s.difficulty ≤ 6 then 3 else 4) := by
    unfold hintDepth difficultyToDepth
    rcases le_total 4 s.difficulty with h | h
    · rw [max_eq_right h]
      split_ifs <;> first | rfl | omega
    · rw [max_eq_left h]
      split_ifs <;> first | rfl | omega
  refine ⟨rfl, hd, ?_, ?_, ?_, ?_⟩
  · rw [hd]; split_ifs <;> omega
  · rw [hd]; split_ifs <;> omega
  · intro hgo hturn
    have hlegal : ¬ (generateLegalMoves s.board s.turn).length = 0 := by
      intro h0
      unfold gameOver at hgo
      rw [if_pos h0] at hgo
      split_ifs at hgo
    have hA : ¬ ((gameOver s.board s.turn).isSome ∨ s.turn ≠ s.humanColor) := by
      rintro (h | h)
      · rw [hgo] at h; exact absurd h (by decide)
      · exact h hturn
    unfold showHint
    rw [if_neg hA]
    dsimp only
    rw [if_neg hlegal]
  · unfold showHint
    by_cases hA : (gameOver s.board s.turn).isSome ∨ s.turn ≠ s.humanColor
    · rw [if_pos hA]
      exact ⟨rfl, rfl, rfl, rfl⟩
    · rw [if_neg hA]
      dsimp only
      by_cases hB : (generateLegalMoves s.board s.turn).length = 0
      · rw [if_pos hB]
        exact ⟨rfl, rfl, rfl, rfl⟩
      · rw [if_neg hB]
        exact ⟨rfl, rfl, rfl, rfl⟩

theorem showHint_depth_and_frame_witness :
    hintDepth initialSession.difficulty = 2 ∧
    (showHint initialSession).board = initialBoard ∧
    (showHint initialSession).turn = Color.white :=
  have h := showHint_depth_and_frame initialSession (by decide) (by decide)
  ⟨h.2.1, h.2.2.2.2.2.1, h.2.2.2.2.2.2.2.2⟩

/-! ## Applying a move -/

/-- C7: `applyMove` changes exactly two squares. The copy made by `cloneBoard`
has the contents of the input, which is a value of the embedding and is not
written to; on an 8x8 board and for a move with in-range, distinct squares,
the result is again 8x8, its origin square is empty, its destination square
holds the promotion piece if there is one and the moved piece otherwise, and
every other square is as in the input. When the destination was empty and
there is no promotion, the pieces of the result are a rearrangement of the
pieces of the input. -/
theorem applyMove_changes_two_squares (board : Board) (m : Move) (hwf : WellFormed board)
    (hf : inBounds m.from_.1 m.from_.2 = true) (ht : inBounds m.to_.1 m.to_.2 = true)
    (hne : m.from_ ≠ m.to_) :
    cloneBoard board = board ∧
    WellFormed (applyMove board m) ∧
    sq (applyMove board m) m.from_.1 m.from_.2 = none ∧
    sq (applyMove board m) m.to_.1 m.to_.2 =
      (match m.promo with
        | some q => some q
        | none => sq board m.from_.1 m.from_.2) ∧
    (∀ r c : Int, inBounds r c = true → (r, c) ≠ m.from_ → (r, c) ≠ m.to_ →
      sq (applyMove board m) r c = sq board r c) ∧
    (sq board m.to_.1 m.to_.2 = none → m.promo = none →
      (pieces (applyMove board m)).Perm (pieces board)) := by
  refine ⟨cloneBoard_eq board, wellFormed_applyMove board m hwf, ?_, ?_, ?_, ?_⟩
  · rw [sq_applyMove board m _ _ hwf hf ht hf, if_neg hne, if_pos rfl]
  · rw [sq_applyMove board m _ _ hwf hf ht ht, if_pos rfl]
  · intro r c hrc h1 h2
    rw [sq_applyMove board m _ _ hwf hf ht hrc, if_neg h2, if_neg h1]
  · intro hempty hpromo
    apply pieces_perm_of_swap board (applyMove board m) m.from_ m.to_
      ((mem_allSquares _).2 hf) ((mem_allSquares _).2 ht)
    intro p hp
    have hp' := (mem_allSquares p).1 hp
    rw [sq_applyMove board m _ _ hwf hf ht hp', hpromo]
    by_cases h2 : p = m.to_
    · subst h2
      rw [if_pos rfl, Equiv.swap_apply_right]
    · rw [if_neg h2]
      by_cases h1 : p = m.from_
      · subst h1
        rw [if_pos rfl, Equiv.swap_apply_left, hempty]
      · rw [if_neg h1, Equiv.swap_apply_of_ne_of_ne h1 h2]

theorem applyMove_changes_two_squares_witness :
    WellFormed initialBoard ∧
    sq (applyMove initialBoard ⟨(6, 4), (4, 4), none⟩) 6 4 = none ∧
    sq (applyMove initialBoard ⟨(6, 4), (4, 4), none⟩) 4 4 = wp Kind.pawn ∧
    (pieces (applyMove initialBoard ⟨(6, 4), (4, 4), none⟩)).Perm (pieces initialBoard) :=
  have h := applyMove_changes_two_squares initialBoard ⟨(6, 4), (4, 4), none⟩
    (by decide) (by decide) (by decide) (by decide)
  ⟨by decide, h.2.2.1, h.2.2.2.1, h.2.2.2.2.2 (by decide) rfl⟩

/-- C6: a move of `generatePseudoMoves(board, side)` carries a promotion if
and only if the moved piece is a pawn and the destination row is 0 for White
or 7 for Black; the promotion is then the queen of the mover's side and
`applyMove` puts that queen on the destination square; a move without a
promotion puts the unchanged moved piece there. -/
theorem promotion_is_auto_queen (board : Board) (color : Color) (hwf : WellFormed board)
    (m : Move) (hm : m ∈ generatePseudoMoves board color) :
    ∃ p : Piece, sq board m.from_.1 m.from_.2 = some p ∧ p.color = color ∧
      (m.promo.isSome = true ↔
        (p.kind = Kind.pawn ∧ m.to_.1 = (if color = Color.white then 0 else 7))) ∧
      (m.promo.isSome = true →
        m.promo = some ⟨color, Kind.queen⟩ ∧
        sq (applyMove board m) m.to_.1 m.to_.2 = some ⟨color, Kind.queen⟩) ∧
      (m.promo = none → sq (applyMove board m) m.to_.1 m.to_.2 = some p) := by
  obtain ⟨r, hr, c, hc, hmem⟩ := (mem_generatePseudoMoves board color m).1 hm
  obtain ⟨p, hsq, hcol, hfrom, hto, hnp, hpawn⟩ := pieceMoves_spec board color r c m hmem
  have hrb := (mem_idx8 r).1 hr
  have hcb := (mem_idx8 c).1 hc
  have hf : inBounds m.from_.1 m.from_.2 = true := by
    rw [hfrom, inBounds_iff]; exact ⟨hrb, hcb⟩
  have hdest := sq_applyMove board m _ _ hwf hf hto hto
  rw [if_pos rfl] at hdest
  have hsq' : sq board m.from_.1 m.from_.2 = some p := by rw [hfrom]; exact hsq
  have hiff : m.promo.isSome = true ↔
      (p.kind = Kind.pawn ∧ m.to_.1 = (if color = Color.white then 0 else 7)) := by
    by_cases hk : p.kind = Kind.pawn
    · obtain ⟨hp, hrow⟩ := hpawn hk
      have hb := (inBounds_iff _ _).1 hto
      rw [hp]
      constructor
      · intro h
        refine ⟨hk, ?_⟩
        split_ifs at h with h1
        · cases color <;> simp at hrow ⊢ <;> omega
        · simp at h
      · rintro ⟨-, h⟩
        rw [if_pos]
        · rfl
        · cases color <;> simp at h ⊢ <;> omega
    · rw [hnp hk]
      simp [hk]
  refine ⟨p, hsq', hcol, hiff, ?_, ?_⟩
  · intro hsome
    obtain ⟨hk, -⟩ := hiff.1 hsome
    obtain ⟨hp, -⟩ := hpawn hk
    have hq : m.promo = some ⟨color, Kind.queen⟩ := by
      rw [hp] at hsome ⊢
      split_ifs at hsome ⊢ with h1
      · rfl
      · simp at hsome
    exact ⟨hq, by rw [hdest, hq]⟩
  · intro hnone
    rw [hdest, hnone, hsq']

theorem promotion_is_auto_queen_witness :
    WellFormed promotionBoard ∧
    (⟨(1, 0), (0, 0), some ⟨Color.white, Kind.queen⟩⟩ : Move)
      ∈ generatePseudoMoves promotionBoard Color.white ∧
    sq (applyMove promotionBoard ⟨(1, 0), (0, 0), some ⟨Color.white, Kind.queen⟩⟩) 0 0
      = some ⟨Color.white, Kind.queen⟩ :=
  ⟨by decide, by decide,
    match promotion_is_auto_queen promotionBoard Color.white (by decide)
      ⟨(1, 0), (0, 0), some ⟨Color.white, Kind.queen⟩⟩ (by decide) with
    | ⟨_, _, _, _, h, _⟩ => (h rfl).2⟩

/-! ## Alpha-beta pruning -/

namespace EInt

theorem neg_neg (a : EInt) : a.neg.neg = a := by
  cases a <;> simp [neg]

theorem neg_le_neg_iff (a b : EInt) : a.neg ≤ b.neg ↔ b ≤ a := by
  cases a <;> cases b <;> simp [le_iff_ble, ble, neg]

theorem neg_lt_neg_iff (a b : EInt) : a.neg < b.neg ↔ b < a := by
  rw [lt_iff_not_le, lt_iff_not_le, neg_le_neg_iff]

end EInt

theorem bounded_self (alpha beta v : EInt) : Bounded alpha beta v v :=
  ⟨fun _ => le_refl v, fun _ _ => rfl, fun _ => le_refl v⟩

theorem Bounded.neg_child {alpha beta x v : EInt} (h : Bounded beta.neg alpha.neg x v) :
    Bounded alpha beta x.neg v.neg := by
  obtain ⟨h1, h2, h3⟩ := h
  refine ⟨fun hx => ?_, fun ha hb => ?_, fun hx => ?_⟩
  · rw [EInt.neg_le_neg_iff]
    apply h3
    rw [← EInt.neg_le_neg_iff, EInt.neg_neg]
    exact hx
  · rw [h2 ?_ ?_]
    · rw [← EInt.neg_lt_neg_iff, EInt.neg_neg]; exact hb
    · rw [← EInt.neg_lt_neg_iff, EInt.neg_neg]; exact ha
  · rw [EInt.neg_le_neg_iff]
    apply h1
    rw [← EInt.neg_le_neg_iff, EInt.neg_neg]
    exact hx

theorem fullLoop_cons (V : Move → EInt) (m : Move) (ms : List Move) (best : EInt) :
    fullLoop V (m :: ms) best = fullLoop V ms (if EInt.blt best (V m) then V m else best) := rfl

theorem le_fullLoop (V : Move → EInt) (ms : List Move) : ∀ best : EInt, best ≤ fullLoop V ms best := by
  induction ms with
  | nil => intro best; exact le_refl _
  | cons m ms ih =>
    intro best
    rw [fullLoop_cons]
    refine le_trans ?_ (ih _)
    by_cases h : EInt.blt best (V m) = true
    · rw [if_pos h]; exact le_of_lt h
    · rw [if_neg h]

theorem searchLoop_bounded (child : Move → EInt → EInt → EInt) (vc : Move → EInt)
    (alpha0 beta : EInt) (ms : List Move) :
    ∀ (alpha : EInt) (best : SearchResult) (D : EInt),
      (∀ m ∈ ms, ∀ a b : EInt, a < b → Bounded a b (child m a b) (vc m)) →
      alpha < beta → alpha0 ≤ alpha → best.score ≤ alpha →
      (alpha = alpha0 ∨ alpha = best.score) →
      (best.score ≤ alpha0 → D ≤ best.score) →
      (alpha0 < best.score → best.score = D) →
      Bounded alpha0 beta (searchLoop child ms alpha beta best).score
        (fullLoop (fun m => (vc m).neg) ms D) := by
  induction ms with
  | nil =>
    intro alpha best D _ hab h0 hb _ inv1 inv2
    refine ⟨inv1, fun h _ => inv2 h, fun h => ?_⟩
    exact absurd (lt_of_le_of_lt hb hab) (not_lt.2 h)
  | cons m ms ih =>
    intro alpha best D hchild hab h0 hb hor inv1 inv2
    have hval : Bounded alpha beta (child m beta.neg alpha.neg).neg (vc m).neg :=
      Bounded.neg_child
        (hchild m (List.mem_cons_self _ _) _ _ ((EInt.neg_lt_neg_iff _ _).2 hab))
    obtain ⟨hA, hB, hC⟩ := hval
    have hrest : ∀ m' ∈ ms, ∀ a b : EInt, a < b → Bounded a b (child m' a b) (vc m') :=
      fun m' hm' => hchild m' (List.mem_cons_of_mem _ hm')
    rw [fullLoop_cons]
    unfold searchLoop
    dsimp only
    generalize (child m beta.neg alpha.neg).neg = val at hA hB hC ⊢
    generalize hV : (vc m).neg = V at hA hB hC ⊢
    by_cases hav' : EInt.blt alpha val = true
    · -- the move raises alpha
      have hav : alpha < val := hav'
      have hbv : best.score < val := lt_of_le_of_lt hb hav
      have hbv' : EInt.blt best.score val = true := hbv
      rw [if_pos hav', if_pos hbv']
      by_cases hcut' : EInt.ble beta val = true
      · have hcut : beta ≤ val := hcut'
        rw [if_pos hcut']
        refine ⟨fun h => ?_, fun _ h => ?_, fun _ => ?_⟩
        · exact absurd (lt_of_lt_of_le (lt_of_le_of_lt h0 hab) hcut) (not_lt.2 h)
        · exact absurd h (not_lt.2 hcut)
        · refine le_trans (hC hcut) (le_trans ?_ (le_fullLoop _ _ _))
          by_cases h : EInt.blt D V = true
          · rw [if_pos h]
          · rw [if_neg h]; exact not_lt.1 h
      · have hcut : ¬ beta ≤ val := hcut'
        rw [if_neg hcut']
        have hvb : val < beta := not_le.1 hcut
        have hvV : val = V := hB hav hvb
        have hDV : D < V := by
          rw [← hvV]
          rcases le_or_lt best.score alpha0 with h | h
          · exact lt_of_le_of_lt (inv1 h) hbv
          · rw [← inv2 h]; exact hbv
        have hDV' : EInt.blt D V = true := hDV
        rw [if_pos hDV']
        apply ih val ⟨val, some m⟩ V hrest hvb (le_trans h0 (le_of_lt hav)) (le_refl _)
          (Or.inr rfl)
        · intro h
          exact absurd (lt_of_le_of_lt h0 hav) (not_lt.2 h)
        · intro _
          exact hvV
    · -- the move fails low
      have hav : ¬ alpha < val := hav'
      have hva : val ≤ alpha := not_lt.1 hav
      have hVv : V ≤ val := hA hva
      have hnc : ¬ EInt.ble beta alpha = true := fun h => absurd hab (not_lt.2 h)
      rw [if_neg hav', if_neg hnc]
      by_cases hbv' : EInt.blt best.score val = true
      · have hbv : best.score < val := hbv'
        rw [if_pos hbv']
        have ha0 : alpha = alpha0 := by
          rcases hor with h | h
          · exact h
          · exact absurd (lt_of_lt_of_le hbv hva) (by rw [h]; exact lt_irrefl _)
        have hD : D ≤ best.score := inv1 (le_trans hb (le_of_eq ha0))
        apply ih alpha ⟨val, some m⟩ _ hrest hab h0 hva (Or.inl ha0)
        · intro _
          by_cases h : EInt.blt D V = true
          · rw [if_pos h]; exact hVv
          · rw [if_neg h]; exact le_trans hD (le_of_lt hbv)
        · intro h
          exact absurd (lt_of_lt_of_le h hva) (by rw [ha0]; exact lt_irrefl _)
      · have hbv : ¬ best.score < val := hbv'
        rw [if_neg hbv']
        have hvb : val ≤ best.score := not_lt.1 hbv
        apply ih alpha best _ hrest hab h0 hb hor
        · intro h
          by_cases h' : EInt.blt D V = true
          · rw [if_pos h']; exact le_trans hVv hvb
          · rw [if_neg h']; exact inv1 h
        · intro h
          have hD := inv2 h
          have : ¬ EInt.blt D V = true := by
            rw [← hD]; exact not_lt.2 (le_trans hVv hvb)
          rw [if_neg this]
          exact hD

theorem step_eq_max (z v : EInt) : (if EInt.blt z v = true then v else z) = max z v := by
  by_cases h : EInt.blt z v = true
  · have h' : z < v := h
    rw [if_pos h, max_eq_right (le_of_lt h')]
  · have h' : ¬ z < v := h
    rw [if_neg h, max_eq_left (not_lt.1 h')]

theorem fullLoop_perm (V : Move → EInt) {l1 l2 : List Move} (p : l1.Perm l2) (best : EInt) :
    fullLoop V l1 best = fullLoop V l2 best := by
  unfold fullLoop
  apply List.Perm.foldl_eq' p
  intro x _ y _ z
  simp only [step_eq_max]
  rw [max_assoc, max_assoc, max_comm (V x) (V y)]

theorem fullNegamax_succ (board : Board) (color : Color) (depth : Nat) :
    fullNegamax board color (depth + 1) =
      if (generateLegalMoves board color).length = 0 then
        (if isInCheck board color then EInt.fin (-100000 + (3 - ((depth : Int) + 1)))
          else EInt.fin 0)
      else
        fullLoop (fun m => (fullNegamax (applyMove board m) (other color) depth).neg)
          (generateLegalMoves board color) EInt.negInf := rfl

theorem negamax_bounded (depth : Nat) :
    ∀ (board : Board) (color : Color) (alpha beta : EInt), alpha < beta →
      Bounded alpha beta (negamax board color depth alpha beta).score
        (fullNegamax board color depth) := by
  induction depth with
  | zero =>
    intro board color alpha beta _
    exact bounded_self _ _ _
  | succ d ih =>
    intro board color alpha beta hab
    rw [fullNegamax_succ]
    unfold negamax
    dsimp only
    by_cases hlen : (generateLegalMoves board color).length = 0
    · rw [if_pos hlen, if_pos hlen]
      by_cases hchk : isInCheck board color = true
      · rw [if_pos hchk, if_pos hchk]; exact bounded_self _ _ _
      · rw [if_neg hchk, if_neg hchk]; exact bounded_self _ _ _
    · rw [if_neg hlen, if_neg hlen]
      have hperm : (sortByCapture board (generateLegalMoves board color)).Perm
          (generateLegalMoves board color) := List.perm_insertionSort _ _
      rw [← fullLoop_perm _ hperm]
      apply searchLoop_bounded
        (fun m a b => (negamax (applyMove board m) (other color) d a b).score)
        (fun m => fullNegamax (applyMove board m) (other color) d) alpha beta
        (sortByCapture board (generateLegalMoves board color)) alpha ⟨EInt.negInf, none⟩ EInt.negInf
      · intro m _ a b hlt
        exact ih _ _ a b hlt
      · exact hab
      · exact le_refl _
      · cases alpha <;> rfl
      · exact Or.inl rfl
      · intro _; exact le_refl _
      · intro h
        cases alpha <;> exact absurd h (by simp [EInt.lt_iff_blt, EInt.blt, EInt.ble])

/-- C4: for every board, side and depth, the score of
`negamax(board, side, depth, -Infinity, +Infinity)` is the score of the
un-pruned full-width negamax of the same depth. -/
theorem alpha_beta_score_eq_full_width (board : Board) (color : Color) (depth : Nat) :
    (negamax board color depth EInt.negInf EInt.posInf).score = fullNegamax board color depth := by
  obtain ⟨h1, h2, h3⟩ := negamax_bounded depth board color EInt.negInf EInt.posInf (by decide)
  generalize (negamax board color depth EInt.negInf EInt.posInf).score = x at h1 h2 h3
  generalize fullNegamax board color depth = v at h1 h2 h3
  cases x with
  | negInf =>
    have := h1 (le_refl _)
    cases v <;> first | rfl | exact absurd this (by simp [EInt.le_iff_ble, EInt.ble])
  | fin a => exact h2 rfl rfl
  | posInf =>
    have := h3 (le_refl _)
    cases v <;> first | rfl | exact absurd this (by simp [EInt.le_iff_ble, EInt.ble])

/-! ## The move returned by the search -/

theorem searchLoop_result (child : Move → EInt → EInt → EInt)
    (hfin : ∀ m a b, ∃ v, child m a b = EInt.fin v) (beta : EInt) (ms : List Move) :
    ∀ (alpha : EInt) (best : SearchResult),
      searchLoop child ms alpha beta best = best ∨
      ∃ m ∈ ms, ∃ v, searchLoop child ms alpha beta best = ⟨EInt.fin v, some m⟩ := by
  induction ms with
  | nil => intro alpha best; exact Or.inl rfl
  | cons m ms ih =>
    intro alpha best
    obtain ⟨w, hw⟩ := hfin m beta.neg alpha.neg
    unfold searchLoop
    dsimp only
    rw [hw]
    have hstep : (if EInt.blt best.score (EInt.fin w).neg = true
          then (⟨(EInt.fin w).neg, some m⟩ : SearchResult) else best) = best ∨
        (if EInt.blt best.score (EInt.fin w).neg = true
          then (⟨(EInt.fin w).neg, some m⟩ : SearchResult) else best)
          = ⟨EInt.fin (-w), some m⟩ := by
      by_cases h : EInt.blt best.score (EInt.fin w).neg = true
      · rw [if_pos h]; exact Or.inr rfl
      · rw [if_neg h]; exact Or.inl rfl
    by_cases hcut : EInt.ble beta
        (if EInt.blt alpha (EInt.fin w).neg = true then (EInt.fin w).neg else alpha) = true
    · rw [if_pos hcut]
      rcases hstep with h | h
      · exact Or.inl h
      · exact Or.inr ⟨m, List.mem_cons_self _ _, -w, h⟩
    · rw [if_neg hcut]
      rcases ih (if EInt.blt alpha (EInt.fin w).neg = true then (EInt.fin w).neg else alpha)
          (if EInt.blt best.score (EInt.fin w).neg = true
            then (⟨(EInt.fin w).neg, some m⟩ : SearchResult) else best) with h | ⟨m', hm', v, h⟩
      · rw [h]
        rcases hstep with h | h
        · exact Or.inl h
        · exact Or.inr ⟨m, List.mem_cons_self _ _, -w, h⟩
      · exact Or.inr ⟨m', List.mem_cons_of_mem _ hm', v, h⟩

theorem searchLoop_from_negInf (child : Move → EInt → EInt → EInt)
    (hfin : ∀ m a b, ∃ v, child m a b = EInt.fin v) (alpha beta : EInt) (ms : List Move)
    (hne : ms ≠ []) :
    ∃ m ∈ ms, ∃ v, searchLoop child ms alpha beta ⟨EInt.negInf, none⟩ = ⟨EInt.fin v, some m⟩ := by
  cases ms with
  | nil => exact absurd rfl hne
  | cons m ms =>
    obtain ⟨w, hw⟩ := hfin m beta.neg alpha.neg
    unfold searchLoop
    dsimp only
    rw [hw]
    have hb : EInt.blt EInt.negInf (EInt.fin w).neg = true := rfl
    rw [if_pos hb]
    by_cases hcut : EInt.ble beta
        (if EInt.blt alpha (EInt.fin w).neg = true then (EInt.fin w).neg else alpha) = true
    · rw [if_pos hcut]
      exact ⟨m, List.mem_cons_self _ _, -w, rfl⟩
    · rw [if_neg hcut]
      rcases searchLoop_result child hfin beta ms
          (if EInt.blt alpha (EInt.fin w).neg = true then (EInt.fin w).neg else alpha)
          ⟨(EInt.fin w).neg, some m⟩ with h | ⟨m', hm', v, h⟩
      · exact ⟨m, List.mem_cons_self _ _, -w, h⟩
      · exact ⟨m', List.mem_cons_of_mem _ hm', v, h⟩

theorem negamax_score_finite (depth : Nat) :
    ∀ (board : Board) (color : Color) (alpha beta : EInt),
      ∃ v, (negamax board color depth alpha beta).score = EInt.fin v := by
  induction depth with
  | zero => intro board color alpha beta; exact ⟨_, rfl⟩
  | succ d ih =>
    intro board color alpha beta
    unfold negamax
    dsimp only
    by_cases hlen : (generateLegalMoves board color).length = 0
    · rw [if_pos hlen]
      by_cases hchk : isInCheck board color = true
      · rw [if_pos hchk]; exact ⟨_, rfl⟩
      · rw [if_neg hchk]; exact ⟨_, rfl⟩
    · rw [if_neg hlen]
      have hne : sortByCapture board (generateLegalMoves board color) ≠ [] := by
        intro h
        apply hlen
        have := (List.perm_insertionSort
          (fun a b => captureValue board b ≤ captureValue board a)
          (generateLegalMoves board color)).length_eq
        unfold sortByCapture at h
        rw [h] at this
        exact this.symm
      obtain ⟨m, -, v, h⟩ := searchLoop_from_negInf
        (fun m a b => (negamax (applyMove board m) (other color) d a b).score)
        (fun m a b => ih _ _ a b) alpha beta _ hne
      rw [h]
      exact ⟨v, rfl⟩

/-- C11: on a board with at least one legal move for `side` and for every
depth of at least 1, `negamax`, with the full window as with every other
window, returns a move, the move is one of `generateLegalMoves(board, side)`,
and the score is finite. -/
theorem negamax_returns_legal_move (board : Board) (color : Color) (depth : Nat)
    (hlegal : generateLegalMoves board color ≠ []) (hdepth : 1 ≤ depth) :
    (∃ m v, negamax board color depth EInt.negInf EInt.posInf = ⟨EInt.fin v, some m⟩ ∧
      m ∈ generateLegalMoves board color) ∧
    ∀ alpha beta : EInt, ∃ m v, negamax board color depth alpha beta = ⟨EInt.fin v, some m⟩ ∧
      m ∈ generateLegalMoves board color := by
  have key : ∀ alpha beta : EInt,
      ∃ m v, negamax board color depth alpha beta = ⟨EInt.fin v, some m⟩ ∧
        m ∈ generateLegalMoves board color := by
    intro alpha beta
    obtain ⟨d, rfl⟩ : ∃ d, depth = d + 1 := ⟨depth - 1, by omega⟩
    have hlen : ¬ (generateLegalMoves board color).length = 0 := by
      intro h; exact hlegal (List.length_eq_zero.1 h)
    have hperm : (sortByCapture board (generateLegalMoves board color)).Perm
        (generateLegalMoves board color) := List.perm_insertionSort _ _
    have hne : sortByCapture board (generateLegalMoves board color) ≠ [] := by
      intro h
      rw [h] at hperm
      exact hlegal hperm.symm.eq_nil
    obtain ⟨m, hm, v, h⟩ := searchLoop_from_negInf
      (fun m a b => (negamax (applyMove board m) (other color) d a b).score)
      (fun m a b => negamax_score_finite d _ _ a b) alpha beta _ hne
    refine ⟨m, v, ?_, hperm.mem_iff.1 hm⟩
    unfold negamax
    dsimp only
    rw [if_neg hlen]
    exact h
  exact ⟨key _ _, key⟩

theorem negamax_returns_legal_move_witness :
    generateLegalMoves initialBoard Color.white ≠ [] ∧
    ∃ m v, negamax initialBoard Color.white 1 EInt.negInf EInt.posInf = ⟨EInt.fin v, some m⟩ ∧
      m ∈ generateLegalMoves initialBoard Color.white :=
  ⟨by decide, (negamax_returns_legal_move initialBoard Color.white 1 (by decide) (by decide)).1⟩

/-! ## Game session -/

theorem sameGame_refl (s : Session) : SameGame s s := ⟨rfl, rfl, rfl, rfl⟩

theorem other_other (c : Color) : other (other c) = c := by
  cases c <;> rfl

theorem other_eq_white_iff (c : Color) : other c = Color.white ↔ ¬ c = Color.white := by
  cases c <;> simp [other]

theorem showHint_sameGame (s : Session) : SameGame s (showHint s) := by
  unfold showHint
  by_cases hA : (gameOver s.board s.turn).isSome ∨ s.turn ≠ s.humanColor
  · rw [if_pos hA]; exact sameGame_refl s
  · rw [if_neg hA]
    dsimp only
    by_cases hB : (generateLegalMoves s.board s.turn).length = 0
    · rw [if_pos hB]; exact sameGame_refl s
    · rw [if_neg hB]; exact ⟨rfl, rfl, rfl, rfl⟩

theorem showHint_selection (s : Session) :
    (showHint s).selected = s.selected ∧ (showHint s).legalMoves = s.legalMoves := by
  unfold showHint
  by_cases hA : (gameOver s.board s.turn).isSome ∨ s.turn ≠ s.humanColor
  · rw [if_pos hA]; exact ⟨rfl, rfl⟩
  · rw [if_neg hA]
    dsimp only
    by_cases hB : (generateLegalMoves s.board s.turn).length = 0
    · rw [if_pos hB]; exact ⟨rfl, rfl⟩
    · rw [if_neg hB]; exact ⟨rfl, rfl⟩

/-- What a click does: it leaves the session as it is, clears the selection,
selects the clicked square of the human side whose turn it is, or plays the
first offered move that ends on the clicked square. -/
theorem onSquareClick_cases (s : Session) (i : Nat) :
    onSquareClick s i = s ∨ onSquareClick s i = clearSelection s ∨
    (s.turn = s.humanColor ∧
      onSquareClick s i =
        selectSquare s (viewToModel i s.orientation).1 (viewToModel i s.orientation).2) ∨
    (gameOver s.board s.turn = none ∧ s.turn = s.humanColor ∧
      ∃ sel m, s.selected = some sel ∧ m ∈ s.legalMoves ∧
        m.to_ = viewToModel i s.orientation ∧ onSquareClick s i = doMove s m) := by
  unfold onSquareClick
  by_cases hgo : (gameOver s.board s.turn).isSome = true
  · rw [if_pos hgo]; exact Or.inl rfl
  · rw [if_neg hgo]
    dsimp only
    by_cases hturn : s.turn ≠ s.humanColor
    · rw [if_pos hturn]; exact Or.inl rfl
    · rw [if_neg hturn]
      have hturn' : s.turn = s.humanColor := not_not.1 hturn
      have hgo' : gameOver s.board s.turn = none := by
        cases h : gameOver s.board s.turn with
        | none => rfl
        | some x => rw [h] at hgo; exact absurd rfl hgo
      cases hsel : s.selected with
      | none =>
        dsimp only
        split_ifs
        · exact Or.inr (Or.inr (Or.inl ⟨hturn', rfl⟩))
        · exact Or.inl rfl
      | some sel =>
        dsimp only
        by_cases h1 : sel.1 = (viewToModel i s.orientation).1
            ∧ sel.2 = (viewToModel i s.orientation).2
        · rw [if_pos h1]; exact Or.inr (Or.inl rfl)
        · rw [if_neg h1]
          cases hfind : s.legalMoves.find? (fun m =>
              decide (m.to_.1 = (viewToModel i s.orientation).1)
                && decide (m.to_.2 = (viewToModel i s.orientation).2)) with
          | some move =>
            dsimp only
            refine Or.inr (Or.inr (Or.inr ⟨hgo', hturn', sel, move, rfl,
              List.mem_of_find?_eq_some hfind, ?_, rfl⟩))
            have := List.find?_some hfind
            simp only [Bool.and_eq_true, decide_eq_true_eq] at this
            exact Prod.ext this.1 this.2
          | none =>
            dsimp only
            split_ifs
            · exact Or.inr (Or.inr (Or.inl ⟨hturn', rfl⟩))
            · exact Or.inr (Or.inl rfl)

theorem selectionConsistent_of_reachable (s : Session) (h : SessionReachable s) :
    SelectionConsistent s := by
  induction h with
  | init => intro sel hsel; cases hsel
  | newGame side _ _ => intro sel hsel; cases hsel
  | doMove m _ _ => intro sel hsel; cases hsel
  | @undoPly s _ ih =>
    unfold undoPly
    split_ifs
    · exact ih
    · intro sel hsel; cases hsel
  | @click s i _ ih =>
    rcases onSquareClick_cases s i with h | h | ⟨hturn, h⟩ | ⟨-, -, sel, m, -, -, -, h⟩
    · rw [h]; exact ih
    · rw [h]; intro sel hsel; cases hsel
    · rw [h]
      intro sel hsel
      have : sel = ((viewToModel i s.orientation).1, (viewToModel i s.orientation).2) := by
        simp only [selectSquare, Option.some.injEq] at hsel
        exact hsel.symm
      subst this
      simp only [selectSquare, hturn]
    · rw [h]; intro sel hsel; cases hsel
  | @hint s _ ih =>
    intro sel hsel
    obtain ⟨h1, h2⟩ := showHint_selection s
    obtain ⟨h3, -, -, h4⟩ := showHint_sameGame s
    rw [h1] at hsel
    rw [h2, h3, h4]
    exact ih sel hsel
  | escape _ _ => intro sel hsel; cases hsel
  | difficulty d _ ih => exact ih
  | flip _ ih => exact ih

theorem session_invariant_of_reachable (s : Session) (h : SessionReachable s) :
    s.boardStack.length = s.moveStack.length + 1 ∧
    (s.turn = Color.white ↔ s.moveStack.length % 2 = 0) := by
  induction h with
  | init => exact ⟨rfl, by decide⟩
  | newGame side _ _ => exact ⟨rfl, by simp [newGame]⟩
  | @doMove s m _ ih =>
    obtain ⟨h1, h2⟩ := ih
    refine ⟨by simp [doMove, h1], ?_⟩
    simp only [doMove, List.length_cons, other_eq_white_iff, h2]
    omega
  | @undoPly s _ ih =>
    obtain ⟨h1, h2⟩ := ih
    unfold undoPly
    split_ifs with hlen
    · exact ⟨h1, h2⟩
    · refine ⟨by simp only [List.length_dropLast, List.length_drop]; omega, ?_⟩
      simp only [List.length_drop, other_eq_white_iff, h2]
      omega
  | @click s i _ ih =>
    obtain ⟨h1, h2⟩ := ih
    rcases onSquareClick_cases s i with h | h | ⟨-, h⟩ | ⟨-, -, sel, m, -, -, -, h⟩
    · rw [h]; exact ⟨h1, h2⟩
    · rw [h]; exact ⟨h1, h2⟩
    · rw [h]; exact ⟨h1, h2⟩
    · rw [h]
      refine ⟨by simp [doMove, h1], ?_⟩
      simp only [doMove, List.length_cons, other_eq_white_iff, h2]
      omega
  | @hint s _ ih =>
    obtain ⟨-, h3, h4, h5⟩ := showHint_sameGame s
    rw [h3, h4, h5]
    exact ih
  | escape _ ih => exact ih
  | difficulty d _ ih => exact ih
  | flip _ ih => exact ih

/-- C12: in every session state reached from the mounted component or from
`newGame` by the handlers (`doMove`, `undoPly` and `newGame` among them), the
position stack has exactly one more entry than the move stack, and White is to
move if and only if the number of moves on the move stack is even. -/
theorem session_stack_invariant (s : Session) (h : SessionReachable s) :
    s.boardStack.length = s.moveStack.length + 1 ∧
    (s.turn = Color.white ↔ Even s.moveStack.length) := by
  obtain ⟨h1, h2⟩ := session_invariant_of_reachable s h
  exact ⟨h1, by rw [h2, Nat.even_iff]⟩

theorem session_stack_invariant_witness :
    (undoPly (doMove (doMove (newGame initialSession Color.white) ⟨(6, 4), (4, 4), none⟩)
      ⟨(1, 4), (3, 4), none⟩)).boardStack.length =
      (undoPly (doMove (doMove (newGame initialSession Color.white) ⟨(6, 4), (4, 4), none⟩)
        ⟨(1, 4), (3, 4), none⟩)).moveStack.length + 1 ∧
    ((undoPly (doMove (doMove (newGame initialSession Color.white) ⟨(6, 4), (4, 4), none⟩)
      ⟨(1, 4), (3, 4), none⟩)).turn = Color.white ↔
      Even (undoPly (doMove (doMove (newGame initialSession Color.white) ⟨(6, 4), (4, 4), none⟩)
        ⟨(1, 4), (3, 4), none⟩)).moveStack.length) :=
  session_stack_invariant _
    (SessionReachable.undoPly (SessionReachable.doMove _ (SessionReachable.doMove _
      (SessionReachable.newGame Color.white SessionReachable.init))))

/-- C13: for every session state whose current board is the top of the
position stack and every move `m`, `undoPly` after `doMove(m)` restores the
prior board, the prior position stack, the prior move stack (one shorter than
after the move) and the prior side to move. -/
theorem undo_after_move_round_trip (s : Session) (m : Move)
    (htop : s.boardStack.getLast? = some s.board) :
    (undoPly (doMove s m)).board = s.board ∧
    (undoPly (doMove s m)).boardStack = s.boardStack ∧
    (undoPly (doMove s m)).moveStack = s.moveStack ∧
    (doMove s m).moveStack.length = (undoPly (doMove s m)).moveStack.length + 1 ∧
    (undoPly (doMove s m)).turn = s.turn := by
  have hne : s.boardStack ≠ [] := by
    intro h; rw [h] at htop; cases htop
  have hlen : ¬ (doMove s m).boardStack.length ≤ 1 := by
    have : 0 < s.boardStack.length := List.length_pos.2 hne
    simp only [doMove, List.length_append, List.length_singleton]
    omega
  unfold undoPly
  rw [if_neg hlen]
  have hdrop : (doMove s m).boardStack.dropLast = s.boardStack := by
    simp [doMove]
  refine ⟨?_, hdrop, rfl, by simp [doMove], ?_⟩
  · dsimp only
    rw [hdrop, List.getLastD_eq_getLast?, htop]
    rfl
  · simp [doMove, other_other]

theorem undo_after_move_round_trip_witness :
    initialSession.boardStack.getLast? = some initialSession.board ∧
    (undoPly (doMove initialSession ⟨(6, 4), (4, 4), none⟩)).board = initialBoard ∧
    (undoPly (doMove initialSession ⟨(6, 4), (4, 4), none⟩)).boardStack = [initialBoard] :=
  have h := undo_after_move_round_trip initialSession ⟨(6, 4), (4, 4), none⟩ rfl
  ⟨rfl, h.1, h.2.1⟩
/-- C20: in every session state reached by the handlers, a click on a square
leaves the board, the position stack, the move stack and the side to move
exactly as they were, unless the game is not over, it is the human side's
turn, a square is selected and the clicked square is the destination of a move
of `generateLegalMoves(board, turn)` that starts on the selected square; in
that case the click does `doMove` of such a move. -/
theorem illegal_click_is_not_applied (s : Session) (hs : SessionReachable s) (i : Nat) :
    SameGame s (onSquareClick s i) ∨
    (gameOver s.board s.turn = none ∧ s.turn = s.humanColor ∧
      ∃ sel m, s.selected = some sel ∧ m ∈ generateLegalMoves s.board s.turn ∧
        m.from_ = sel ∧ m.to_ = viewToModel i s.orientation ∧
        onSquareClick s i = doMove s m) := by
  rcases onSquareClick_cases s i with h | h | ⟨-, h⟩ | ⟨hgo, hturn, sel, m, hsel, hm, hto, h⟩
  · rw [h]; exact Or.inl (sameGame_refl s)
  · rw [h]; exact Or.inl ⟨rfl, rfl, rfl, rfl⟩
  · rw [h]; exact Or.inl ⟨rfl, rfl, rfl, rfl⟩
  · refine Or.inr ⟨hgo, hturn, sel, m, hsel, ?_, ?_, hto, h⟩
    · have hcons := selectionConsistent_of_reachable s hs sel hsel
      rw [hcons] at hm
      exact (List.mem_filter.1 hm).1
    · have hcons := selectionConsistent_of_reachable s hs sel hsel
      rw [hcons] at hm
      have := (List.mem_filter.1 hm).2
      simp only [Bool.and_eq_true, decide_eq_true_eq] at this
      exact Prod.ext this.1 this.2

theorem illegal_click_is_not_applied_witness :
    (onSquareClick (onSquareClick initialSession 52) 36).board
      = applyMove initialBoard ⟨(6, 4), (4, 4), none⟩ ∧
    SameGame (onSquareClick initialSession 52) (onSquareClick (onSquareClick initialSession 52) 35) ∧
    (SameGame (onSquareClick initialSession 52) (onSquareClick (onSquareClick initialSession 52) 36) ∨
    (gameOver (onSquareClick initialSession 52).board (onSquareClick initialSession 52).turn = none ∧
      (onSquareClick initialSession 52).turn = (onSquareClick initialSession 52).humanColor ∧
      ∃ sel m, (onSquareClick initialSession 52).selected = some sel ∧
        m ∈ generateLegalMoves (onSquareClick initialSession 52).board
          (onSquareClick initialSession 52).turn ∧
        m.from_ = sel ∧ m.to_ = viewToModel 36 (onSquareClick initialSession 52).orientation ∧
        onSquareClick (onSquareClick initialSession 52) 36
          = doMove (onSquareClick initialSession 52) m)) :=
  ⟨by decide, by unfold SameGame; decide,
    illegal_click_is_not_applied (onSquareClick initialSession 52)
      (SessionReachable.click 52 SessionReachable.init) 36⟩

/-- C14: the `gameOver` value is `null` if and only if the side to move has a
legal move; with no legal move it names the opponent of the side to move as
the winner by checkmate when that side is in check, and is the draw by
stalemate otherwise. The position after 1.f3 e5 2.g4 Qh4 is reachable and is
reported as a checkmate won by Black. -/
theorem gameOver_spec (board : Board) (turn : Color) :
    (gameOver board turn = none ↔ generateLegalMoves board turn ≠ []) ∧
    (generateLegalMoves board turn = [] → isInCheck board turn = true →
      gameOver board turn =
        some (if turn = Color.white then "Black wins by checkmate"
          else "White wins by checkmate")) ∧
    (generateLegalMoves board turn = [] → isInCheck board turn = false →
      gameOver board turn = some "Draw by stalemate") ∧
    (Reachable foolsMateBoard Color.white ∧
      generateLegalMoves foolsMateBoard Color.white = [] ∧
      isInCheck foolsMateBoard Color.white = true ∧
      gameOver foolsMateBoard Color.white = some "Black wins by checkmate") := by
  have hmate : ∀ (b : Board) (t : Color), generateLegalMoves b t = [] → isInCheck b t = true →
      gameOver b t =
        some (if t = Color.white then "Black wins by checkmate"
          else "White wins by checkmate") := by
    intro b t h1 h2
    unfold gameOver
    rw [if_pos (by rw [h1]; rfl), if_pos h2]
    split_ifs <;> rfl
  refine ⟨?_, hmate board turn, ?_, ?_, by decide, by decide, ?_⟩
  · unfold gameOver
    by_cases h : (generateLegalMoves board turn).length = 0
    · rw [if_pos h]
      have h' : generateLegalMoves board turn = [] := List.length_eq_zero.1 h
      constructor
      · intro hn; split_ifs at hn
      · intro hn; exact absurd h' hn
    · rw [if_neg h]
      exact ⟨fun _ h' => h (by rw [h']; rfl), fun _ => rfl⟩
  · intro h1 h2
    unfold gameOver
    rw [if_pos (by rw [h1]; rfl), if_neg (by rw [h2]; decide)]
  · have h1 : Reachable (applyMove initialBoard ⟨(6, 5), (5, 5), none⟩) Color.black :=
      Reachable.step Reachable.init (by decide)
    have h2 := Reachable.step (m := ⟨(1, 4), (3, 4), none⟩) h1 (by decide)
    have h3 := Reachable.step (m := ⟨(6, 6), (4, 6), none⟩) h2 (by decide)
    exact Reachable.step (m := ⟨(0, 3), (4, 7), none⟩) h3 (by decide)
  · exact hmate foolsMateBoard Color.white (by decide) (by decide)

/-- C19: `difficultyToDepth` maps every level up to 2 to depth 1, the levels
3 and 4 to depth 2, the levels 5 and 6 to depth 3 and every level from 7 on to
depth 4; for every integer level the depth is one of 1, 2, 3, 4, and the depth
does not decrease when the level grows. -/
theorem difficultyToDepth_spec :
    (∀ level : Int, level ≤ 2 → difficultyToDepth level = 1) ∧
    (∀ level : Int, 3 ≤ level → level ≤ 4 → difficultyToDepth level = 2) ∧
    (∀ level : Int, 5 ≤ level → level ≤ 6 → difficultyToDepth level = 3) ∧
    (∀ level : Int, 7 ≤ level → difficultyToDepth level = 4) ∧
    (∀ level : Int, difficultyToDepth level ∈ [1, 2, 3, 4]) ∧
    (∀ a b : Int, a ≤ b → difficultyToDepth a ≤ difficultyToDepth b) := by
  refine ⟨?_, ?_, ?_, ?_, ?_, ?_⟩
  · intro l h; unfold difficultyToDepth; rw [if_pos h]
  · intro l h1 h2; unfold difficultyToDepth; split_ifs <;> first | rfl | omega
  · intro l h1 h2; unfold difficultyToDepth; split_ifs <;> first | rfl | omega
  · intro l h; unfold difficultyToDepth; split_ifs <;> first | rfl | omega
  · intro l; unfold difficultyToDepth; split_ifs <;> simp
  · intro a b h; unfold difficultyToDepth; split_ifs <;> omega

/-! ## The attack oracle -/

theorem mem_kMoves (d : Int × Int) :
    d ∈ kMoves ↔ (d.1.natAbs = 1 ∧ d.2.natAbs = 2) ∨ (d.1.natAbs = 2 ∧ d.2.natAbs = 1) := by
  obtain ⟨a, b⟩ := d
  simp only [kMoves, List.mem_cons, List.mem_singleton, List.not_mem_nil, or_false,
    Prod.mk.injEq]
  omega

theorem mem_kingOffsets (d : Int × Int) :
    d ∈ kingOffsets ↔ d ≠ (0, 0) ∧ d.1.natAbs ≤ 1 ∧ d.2.natAbs ≤ 1 := by
  obtain ⟨a, b⟩ := d
  simp only [kingOffsets, List.mem_cons, List.mem_singleton, List.not_mem_nil, or_false,
    Prod.mk.injEq, ne_eq, not_and]
  omega

theorem mem_diagDirs (d : Int × Int) :
    d ∈ diagDirs ↔ d.1.natAbs = 1 ∧ d.2.natAbs = 1 := by
  obtain ⟨a, b⟩ := d
  simp only [diagDirs, List.mem_cons, List.mem_singleton, List.not_mem_nil, or_false,
    Prod.mk.injEq]
  omega

theorem mem_orthoDirs (d : Int × Int) :
    d ∈ orthoDirs ↔ d.1.natAbs + d.2.natAbs = 1 := by
  obtain ⟨a, b⟩ := d
  simp only [orthoDirs, List.mem_cons, List.mem_singleton, List.not_mem_nil, or_false,
    Prod.mk.injEq]
  omega

theorem attackRay_iff (board : Board) (dr dc : Int) (p1 p2 : Piece) :
    ∀ (fuel : Nat) (rr cc : Int),
      attackRay board dr dc p1 p2 fuel rr cc = true ↔
        ∃ k : Nat, k < fuel ∧
          (∀ j : Nat, j ≤ k → inBounds (rr + j * dr) (cc + j * dc) = true) ∧
          (∀ j : Nat, j < k → sq board (rr + j * dr) (cc + j * dc) = none) ∧
          ∃ p, sq board (rr + k * dr) (cc + k * dc) = some p ∧ (p = p1 ∨ p = p2) := by
  intro fuel
  induction fuel with
  | zero =>
    intro rr cc
    simp [attackRay]
  | succ n ih =>
    intro rr cc
    unfold attackRay
    by_cases hin : inBounds rr cc = true
    · rw [if_pos hin]
      cases hsq : sq board rr cc with
      | some p =>
        dsimp only
        constructor
        · intro h
          refine ⟨0, Nat.succ_pos _, ?_, ?_, p, by simpa using hsq, by simpa using h⟩
          · intro j hj
            obtain rfl : j = 0 := by omega
            simpa using hin
          · intro j hj; omega
        · rintro ⟨k, -, -, hempty, q, hq, hP⟩
          cases k with
          | zero =>
            simp only [Nat.cast_zero, zero_mul, add_zero] at hq
            rw [hsq] at hq
            cases hq
            simpa using hP
          | succ k =>
            have := hempty 0 (Nat.succ_pos _)
            simp only [Nat.cast_zero, zero_mul, add_zero] at this
            rw [hsq] at this
            cases this
      | none =>
        dsimp only
        rw [ih]
        constructor
        · rintro ⟨k, hk, hb, hempty, q, hq, hP⟩
          refine ⟨k + 1, by omega, ?_, ?_, q, ?_, hP⟩
          · intro j hj
            cases j with
            | zero => simpa using hin
            | succ j =>
              have := hb j (by omega)
              have e1 : rr + ((j + 1 : Nat) : Int) * dr = rr + dr + (j : Int) * dr := by
                push_cast; ring
              have e2 : cc + ((j + 1 : Nat) : Int) * dc = cc + dc + (j : Int) * dc := by
                push_cast; ring
              rw [e1, e2]; exact this
          · intro j hj
            cases j with
            | zero => simpa using hsq
            | succ j =>
              have := hempty j (by omega)
              have e1 : rr + ((j + 1 : Nat) : Int) * dr = rr + dr + (j : Int) * dr := by
                push_cast; ring
              have e2 : cc + ((j + 1 : Nat) : Int) * dc = cc + dc + (j : Int) * dc := by
                push_cast; ring
              rw [e1, e2]; exact this
          · have e1 : rr + ((k + 1 : Nat) : Int) * dr = rr + dr + (k : Int) * dr := by
              push_cast; ring
            have e2 : cc + ((k + 1 : Nat) : Int) * dc = cc + dc + (k : Int) * dc := by
              push_cast; ring
            rw [e1, e2]; exact hq
        · rintro ⟨k, hk, hb, hempty, q, hq, hP⟩
          cases k with
          | zero =>
            simp only [Nat.cast_zero, zero_mul, add_zero] at hq
            rw [hsq] at hq
            cases hq
          | succ k =>
            have e1 : ∀ j : Nat, rr + ((j + 1 : Nat) : Int) * dr = rr + dr + (j : Int) * dr := by
              intro j; push_cast; ring
            have e2 : ∀ j : Nat, cc + ((j + 1 : Nat) : Int) * dc = cc + dc + (j : Int) * dc := by
              intro j; push_cast; ring
            refine ⟨k, by omega, ?_, ?_, q, ?_, hP⟩
            · intro j hj
              rw [← e1, ← e2]; exact hb (j + 1) (by omega)
            · intro j hj
              rw [← e1, ← e2]; exact hempty (j + 1) (by omega)
            · rw [← e1, ← e2]; exact hq
    · rw [if_neg hin]
      constructor
      · intro h; cases h
      · rintro ⟨k, -, hb, -⟩
        have := hb 0 (Nat.zero_le _)
        simp only [Nat.cast_zero, zero_mul, add_zero] at this
        exact absurd this hin

theorem attackRay_iff_firstOnRay (board : Board) (r c dr dc : Int) (p1 p2 : Piece)
    (hd : IsRayDir dr dc) :
    attackRay board dr dc p1 p2 8 (r + dr) (c + dc) = true ↔
      FirstOnRay board r c dr dc (fun p => p = p1 ∨ p = p2) := by
  have e1 : ∀ j : Nat, r + ((j + 1 : Nat) : Int) * dr = r + dr + (j : Int) * dr := by
    intro j; push_cast; ring
  have e2 : ∀ j : Nat, c + ((j + 1 : Nat) : Int) * dc = c + dc + (j : Int) * dc := by
    intro j; push_cast; ring
  rw [attackRay_iff]
  unfold FirstOnRay
  constructor
  · rintro ⟨k, -, hb, hempty, q, hq, hP⟩
    refine ⟨k + 1, by omega, ?_, ?_, q, ?_, hP⟩
    · intro j h1 hj
      obtain ⟨i, rfl⟩ : ∃ i, j = i + 1 := ⟨j - 1, by omega⟩
      rw [e1, e2]; exact hb i (by omega)
    · intro j h1 hj
      obtain ⟨i, rfl⟩ : ∃ i, j = i + 1 := ⟨j - 1, by omega⟩
      rw [e1, e2]; exact hempty i (by omega)
    · rw [e1, e2]; exact hq
  · rintro ⟨K, hK, hb, hempty, q, hq, hP⟩
    obtain ⟨k, rfl⟩ : ∃ k, K = k + 1 := ⟨K - 1, by omega⟩
    refine ⟨k, ?_, ?_, ?_, q, ?_, hP⟩
    · have h1 := (inBounds_iff _ _).1 (hb 1 (le_refl _) (by omega))
      have h2 := (inBounds_iff _ _).1 (hb (k + 1) (by omega) (le_refl _))
      push_cast at h1 h2
      rcases hd with h | h | ⟨h, h' | h'⟩
      · subst h; omega
      · subst h; omega
      · subst h h'; omega
      · subst h h'; omega
    · intro j hj
      rw [← e1, ← e2]; exact hb (j + 1) (by omega) (by omega)
    · intro j hj
      rw [← e1, ← e2]; exact hempty (j + 1) (by omega) (by omega)
    · rw [← e1, ← e2]; exact hq

/-- C15: `isSquareAttacked(board, r, c, bySide)` is true if and only if
(1) a pawn of `bySide` stands on `(r + d, c - 1)` or `(r + d, c + 1)`, with
`d = -1` for White and `+1` for Black, or (2) a knight of `bySide` stands on
one of the 8 knight offsets, or (3) the king of `bySide` stands on one of the 8
adjacent squares, or (4) along one of the 4 diagonal rays the first occupied
square holds a bishop or queen of `bySide`, or (5) along one of the 4
orthogonal rays the first occupied square holds a rook or queen of
`bySide`. -/
theorem isSquareAttacked_iff (board : Board) (r c : Int) (byColor : Color) :
    isSquareAttacked board r c byColor = true ↔
      (∃ cc : Int, (cc = c - 1 ∨ cc = c + 1) ∧
        inBounds (r + (if byColor = Color.white then -1 else 1)) cc = true ∧
        sq board (r + (if byColor = Color.white then -1 else 1)) cc
          = some ⟨byColor, Kind.pawn⟩) ∨
      (∃ dr dc : Int, ((dr.natAbs = 1 ∧ dc.natAbs = 2) ∨ (dr.natAbs = 2 ∧ dc.natAbs = 1)) ∧
        inBounds (r + dr) (c + dc) = true ∧
        sq board (r + dr) (c + dc) = some ⟨byColor, Kind.knight⟩) ∨
      (∃ dr dc : Int, (dr, dc) ≠ (0, 0) ∧ dr.natAbs ≤ 1 ∧ dc.natAbs ≤ 1 ∧
        inBounds (r + dr) (c + dc) = true ∧
        sq board (r + dr) (c + dc) = some ⟨byColor, Kind.king⟩) ∨
      (∃ dr dc : Int, dr.natAbs = 1 ∧ dc.natAbs = 1 ∧
        FirstOnRay board r c dr dc
          (fun p => p = ⟨byColor, Kind.bishop⟩ ∨ p = ⟨byColor, Kind.queen⟩)) ∨
      (∃ dr dc : Int, dr.natAbs + dc.natAbs = 1 ∧
        FirstOnRay board r c dr dc
          (fun p => p = ⟨byColor, Kind.rook⟩ ∨ p = ⟨byColor, Kind.queen⟩)) := by
  unfold isSquareAttacked
  simp only [Bool.or_eq_true, List.any_eq_true, Bool.and_eq_true, beq_iff_eq]
  have hpawn : (∃ x ∈ ([-1, 1] : List Int),
        inBounds (r + (if byColor = Color.white then -1 else 1)) (c + x) = true ∧
        sq board (r + (if byColor = Color.white then -1 else 1)) (c + x)
          = some ⟨byColor, Kind.pawn⟩) ↔
      (∃ cc : Int, (cc = c - 1 ∨ cc = c + 1) ∧
        inBounds (r + (if byColor = Color.white then -1 else 1)) cc = true ∧
        sq board (r + (if byColor = Color.white then -1 else 1)) cc
          = some ⟨byColor, Kind.pawn⟩) := by
    constructor
    · rintro ⟨x, hx, h⟩
      refine ⟨c + x, ?_, h⟩
      simp only [List.mem_cons, List.mem_singleton, List.not_mem_nil, or_false] at hx
      omega
    · rintro ⟨cc, hcc, h⟩
      refine ⟨cc - c, ?_, by rw [add_sub_cancel]; exact h⟩
      simp only [List.mem_cons, List.mem_singleton, List.not_mem_nil, or_false]
      omega
  have hknight : (∃ x ∈ kMoves, inBounds (r + x.1) (c + x.2) = true ∧
        sq board (r + x.1) (c + x.2) = some ⟨byColor, Kind.knight⟩) ↔
      (∃ dr dc : Int, ((dr.natAbs = 1 ∧ dc.natAbs = 2) ∨ (dr.natAbs = 2 ∧ dc.natAbs = 1)) ∧
        inBounds (r + dr) (c + dc) = true ∧
        sq board (r + dr) (c + dc) = some ⟨byColor, Kind.knight⟩) := by
    constructor
    · rintro ⟨x, hx, h⟩; exact ⟨x.1, x.2, (mem_kMoves x).1 hx, h⟩
    · rintro ⟨dr, dc, hd, h⟩; exact ⟨(dr, dc), (mem_kMoves _).2 hd, h⟩
  have hking : (∃ x ∈ kingOffsets, inBounds (r + x.1) (c + x.2) = true ∧
        sq board (r + x.1) (c + x.2) = some ⟨byColor, Kind.king⟩) ↔
      (∃ dr dc : Int, (dr, dc) ≠ (0, 0) ∧ dr.natAbs ≤ 1 ∧ dc.natAbs ≤ 1 ∧
        inBounds (r + dr) (c + dc) = true ∧
        sq board (r + dr) (c + dc) = some ⟨byColor, Kind.king⟩) := by
    constructor
    · rintro ⟨x, hx, h⟩
      obtain ⟨h1, h2, h3⟩ := (mem_kingOffsets x).1 hx
      exact ⟨x.1, x.2, h1, h2, h3, h⟩
    · rintro ⟨dr, dc, h1, h2, h3, h⟩
      exact ⟨(dr, dc), (mem_kingOffsets _).2 ⟨h1, h2, h3⟩, h⟩
  have hdiag : (∃ x ∈ diagDirs,
        attackRay board x.1 x.2 ⟨byColor, Kind.bishop⟩ ⟨byColor, Kind.queen⟩ 8
          (r + x.1) (c + x.2) = true) ↔
      (∃ dr dc : Int, dr.natAbs = 1 ∧ dc.natAbs = 1 ∧
        FirstOnRay board r c dr dc
          (fun p => p = ⟨byColor, Kind.bishop⟩ ∨ p = ⟨byColor, Kind.queen⟩)) := by
    constructor
    · rintro ⟨x, hx, h⟩
      obtain ⟨h1, h2⟩ := (mem_diagDirs x).1 hx
      exact ⟨x.1, x.2, h1, h2, (attackRay_iff_firstOnRay board r c x.1 x.2 _ _
        (isRayDir_of_mem x (List.mem_append_left _ hx))).1 h⟩
    · rintro ⟨dr, dc, h1, h2, h⟩
      have hx : (dr, dc) ∈ diagDirs := (mem_diagDirs _).2 ⟨h1, h2⟩
      exact ⟨(dr, dc), hx, (attackRay_iff_firstOnRay board r c dr dc _ _
        (isRayDir_of_mem (dr, dc) (List.mem_append_left _ hx))).2 h⟩
  have hortho : (∃ x ∈ orthoDirs,
        attackRay board x.1 x.2 ⟨byColor, Kind.rook⟩ ⟨byColor, Kind.queen⟩ 8
          (r + x.1) (c + x.2) = true) ↔
      (∃ dr dc : Int, dr.natAbs + dc.natAbs = 1 ∧
        FirstOnRay board r c dr dc
          (fun p => p = ⟨byColor, Kind.rook⟩ ∨ p = ⟨byColor, Kind.queen⟩)) := by
    constructor
    · rintro ⟨x, hx, h⟩
      exact ⟨x.1, x.2, (mem_orthoDirs x).1 hx, (attackRay_iff_firstOnRay board r c x.1 x.2 _ _
        (isRayDir_of_mem x (List.mem_append_right _ hx))).1 h⟩
    · rintro ⟨dr, dc, h1, h⟩
      have hx : (dr, dc) ∈ orthoDirs := (mem_orthoDirs _).2 h1
      exact ⟨(dr, dc), hx, (attackRay_iff_firstOnRay board r c dr dc _ _
        (isRayDir_of_mem (dr, dc) (List.mem_append_right _ hx))).2 h⟩
  rw [hpawn, hknight, hking, hdiag, hortho]
  simp only [or_assoc]

/-! ## The evaluator -/

theorem centerDist_cast (r c : Int) :
    ((centerDist r c : Int) : ℚ) = |3.5 - (r : ℚ)| + |3.5 - (c : ℚ)| := by
  have h2 : (centerDist r c) * 2 = |7 - 2 * r| + |7 - 2 * c| := by
    unfold centerDist
    rw [← Int.natCast_natAbs, ← Int.natCast_natAbs]
    omega
  have hr : |3.5 - (r : ℚ)| = |((7 - 2 * r : Int) : ℚ)| / 2 := by
    have e : (3.5 - (r : ℚ)) = ((7 - 2 * r : Int) : ℚ) / 2 := by
      push_cast
      norm_num
      ring
    rw [e, abs_div, abs_two]
  have hc : |3.5 - (c : ℚ)| = |((7 - 2 * c : Int) : ℚ)| / 2 := by
    have e : (3.5 - (c : ℚ)) = ((7 - 2 * c : Int) : ℚ) / 2 := by
      push_cast
      norm_num
      ring
    rw [e, abs_div, abs_two]
  rw [hr, hc, ← Int.cast_abs, ← Int.cast_abs]
  have h2' : ((centerDist r c : Int) : ℚ) * 2 = ((|7 - 2 * r| : Int) : ℚ) + ((|7 - 2 * c| : Int) : ℚ) := by
    exact_mod_cast h2
  linarith

theorem centerBonus_cast (r c : Int) : ((centerBonus r c : Int) : ℚ) = specBonus r c := by
  unfold centerBonus specBonus
  rw [← centerDist_cast]
  push_cast
  rfl

theorem pieceValue_cast (k : Kind) : ((pieceValue k : Int) : ℚ) = specPieceValue k := by
  cases k <;> simp [pieceValue, specPieceValue]

theorem evaluate_foldl (board : Board) (l : List (Int × Int)) :
    ∀ a b : Int,
      (l.foldl
        (fun (acc : Int × Int) (p : Int × Int) =>
          match sq board p.1 p.2 with
          | none => acc
          | some pc =>
            (acc.1 + pieceSign pc * pieceValue pc.kind,
              acc.2 + pieceSign pc * centerBonus p.1 p.2))
        (a, b)).1 +
      (l.foldl
        (fun (acc : Int × Int) (p : Int × Int) =>
          match sq board p.1 p.2 with
          | none => acc
          | some pc =>
            (acc.1 + pieceSign pc * pieceValue pc.kind,
              acc.2 + pieceSign pc * centerBonus p.1 p.2))
        (a, b)).2 =
      a + b + (l.map fun p =>
        match sq board p.1 p.2 with
        | none => (0 : Int)
        | some pc => pieceSign pc * (pieceValue pc.kind + centerBonus p.1 p.2)).sum := by
  induction l with
  | nil => intro a b; simp
  | cons p l ih =>
    intro a b
    rw [List.foldl_cons, List.map_cons, List.sum_cons]
    cases hsq : sq board p.1 p.2 with
    | none =>
      dsimp only
      rw [ih]
      ring
    | some pc =>
      dsimp only
      rw [ih]
      ring

/-- C16: `evaluate(board)` is the sum over all occupied squares `(r, c)` of
`sign * (value + bonus)`, with the values 100, 320, 330, 500, 900, 20000 for
pawn, knight, bishop, rook, queen, king, the bonus
`(4 - min(4, |3.5 - r| + |3.5 - c|)) * 2` and the sign `+1` for a white piece
and `-1` for a black piece. -/
theorem evaluate_eq_evaluateSpec (board : Board) :
    ((evaluate board : Int) : ℚ) = evaluateSpec board := by
  unfold evaluate evaluateSpec
  dsimp only
  rw [evaluate_foldl board allSquares 0 0]
  simp only [zero_add]
  generalize allSquares = l
  induction l with
  | nil => simp
  | cons p l ih =>
    rw [List.map_cons, List.sum_cons, List.map_cons, List.sum_cons, Int.cast_add, ih]
    congr 1
    cases sq board p.1 p.2 with
    | none => simp
    | some pc =>
      dsimp only
      rw [Int.cast_mul, Int.cast_add, centerBonus_cast, pieceValue_cast]
      congr 1
      unfold pieceSign
      split_ifs <;> simp

/-- C17 as stated fails: no square of the board gives a bonus of 8, neither
by the integer bonus of the embedding nor by the formula of the
specification. -/
theorem no_square_has_bonus_eight :
    (¬ ∃ p ∈ allSquares, centerBonus p.1 p.2 = 8) ∧
    (¬ ∃ p ∈ allSquares, specBonus p.1 p.2 = 8) := by
  have h : ∀ p ∈ allSquares, centerBonus p.1 p.2 ≤ 6 := by decide
  constructor
  · rintro ⟨p, hp, h8⟩
    have := h p hp
    omega
  · rintro ⟨p, hp, h8⟩
    have h6 := h p hp
    rw [← centerBonus_cast] at h8
    have : centerBonus p.1 p.2 = 8 := by exact_mod_cast h8
    omega

/-- C17, amended: over the 64 squares the bonus
`(4 - min(4, |3.5 - r| + |3.5 - c|)) * 2` is the integer `centerBonus`, it is
never negative and never more than 6 (so never more than 8), and it is exactly
6 on the four central squares. -/
theorem center_bonus_maximum_is_six :
    (∀ p ∈ allSquares, specBonus p.1 p.2 = ((centerBonus p.1 p.2 : Int) : ℚ) ∧
      0 ≤ centerBonus p.1 p.2 ∧ centerBonus p.1 p.2 ≤ 6 ∧ specBonus p.1 p.2 ≤ 6 ∧
      specBonus p.1 p.2 ≤ 8) ∧
    (∃ p ∈ allSquares, specBonus p.1 p.2 = 6) ∧
    (∀ p ∈ allSquares, centerBonus p.1 p.2 = 6 ↔ p ∈ [(3, 3), (3, 4), (4, 3), (4, 4)]) := by
  have h : ∀ p ∈ allSquares, 0 ≤ centerBonus p.1 p.2 ∧ centerBonus p.1 p.2 ≤ 6 := by decide
  refine ⟨?_, ?_, by decide⟩
  · intro p hp
    obtain ⟨h0, h6⟩ := h p hp
    have h6' : ((centerBonus p.1 p.2 : Int) : ℚ) ≤ 6 := by exact_mod_cast h6
    rw [← centerBonus_cast]
    exact ⟨rfl, h0, h6, h6', by linarith⟩
  · refine ⟨(3, 3), by decide, ?_⟩
    rw [← centerBonus_cast]
    have : centerBonus 3 3 = 6 := by decide
    rw [this]
    norm_num

/-! ## Difficulty -/

theorem take_min_length (n : Nat) (l : List Move) : l.take (min n l.length) = l.take n := by
  rcases le_total n l.length with h | h
  · rw [min_eq_left h]
  · rw [min_eq_right h, List.take_length, List.take_of_length_le h]

/-! ### Binary64 rounding -/

theorem roundHalfEven_le (t : ℚ) : (roundHalfEven t : ℚ) ≤ t + 1 / 2 := by
  have hf := Int.floor_le t
  unfold roundHalfEven
  dsimp only
  split_ifs with h1 h2 h3
  · linarith
  · push_cast; linarith
  · linarith
  · push_cast; linarith

theorem le_roundHalfEven (t : ℚ) : t - 1 / 2 ≤ (roundHalfEven t : ℚ) := by
  have hf := Int.lt_floor_add_one t
  unfold roundHalfEven
  dsimp only
  split_ifs with h1 h2 h3
  · linarith
  · push_cast; linarith
  · linarith
  · push_cast; linarith

theorem roundHalfEven_nonneg {t : ℚ} (h : 0 ≤ t) : 0 ≤ roundHalfEven t := by
  have hf : 0 ≤ Int.floor t := Int.floor_nonneg.2 h
  unfold roundHalfEven
  dsimp only
  split_ifs <;> omega

theorem two_zpow_pos (e : ℤ) : (0 : ℚ) < (2 : ℚ) ^ e := zpow_pos (by norm_num) e

/-- The rounded value is within half a unit in the last place. -/
theorem roundDouble_near (x : ℚ) :
    |roundDouble x - x| ≤ (2 : ℚ) ^ ulpExp x / 2 := by
  have hu := two_zpow_pos (ulpExp x)
  have h1 := roundHalfEven_le (x / (2 : ℚ) ^ ulpExp x)
  have h2 := le_roundHalfEven (x / (2 : ℚ) ^ ulpExp x)
  unfold roundDouble
  generalize (roundHalfEven (x / (2 : ℚ) ^ ulpExp x) : ℚ) = m at h1 h2
  generalize (2 : ℚ) ^ ulpExp x = u at hu h1 h2
  have hx : x = x / u * u := by field_simp
  rw [abs_le]
  constructor
  · have := mul_le_mul_of_nonneg_right h2 hu.le
    nlinarith
  · have := mul_le_mul_of_nonneg_right h1 hu.le
    nlinarith

theorem roundDouble_nonneg {x : ℚ} (h : 0 ≤ x) : 0 ≤ roundDouble x := by
  unfold roundDouble
  have hu := two_zpow_pos (ulpExp x)
  have : 0 ≤ roundHalfEven (x / (2 : ℚ) ^ ulpExp x) := roundHalfEven_nonneg (div_nonneg h hu.le)
  have h2 : (0 : ℚ) ≤ (roundHalfEven (x / (2 : ℚ) ^ ulpExp x) : ℚ) := by exact_mod_cast this
  exact mul_nonneg h2 hu.le

theorem roundDouble_zero : roundDouble 0 = 0 := by
  unfold roundDouble roundHalfEven
  simp

/-- Below `2 ^ k` the unit in the last place is at most `2 ^ (k - 53)`. -/
theorem ulpExp_le {x : ℚ} {k : ℤ} (h0 : 0 < x) (hk : x < (2 : ℚ) ^ k) (hmin : -1021 ≤ k) :
    ulpExp x ≤ k - 53 := by
  unfold ulpExp
  rw [abs_of_pos h0]
  have h : Int.log 2 x < k := by
    rw [← Int.lt_zpow_iff_log_lt (by norm_num) h0]
    exact_mod_cast hk
  apply max_le <;> omega

/-- The unit in the last place on a binade. -/
theorem ulpExp_eq {x : ℚ} {k : ℤ} (hlo : (2 : ℚ) ^ k ≤ x) (hhi : x < (2 : ℚ) ^ (k + 1))
    (hmin : -1022 ≤ k) : ulpExp x = k - 52 := by
  have h0 : 0 < x := lt_of_lt_of_le (two_zpow_pos k) hlo
  unfold ulpExp
  rw [abs_of_pos h0]
  have h1 : Int.log 2 x < k + 1 := by
    rw [← Int.lt_zpow_iff_log_lt (by norm_num) h0]
    exact_mod_cast hhi
  have h2 : k ≤ Int.log 2 x := by
    rw [← Int.zpow_le_iff_le_log (by norm_num) h0]
    exact_mod_cast hlo
  rw [max_eq_left (by omega)]
  omega

/-- The largest binary64 value below 1 is `1 - 2 ^ (-53)`. -/
theorem isDouble_lt_one {x : ℚ} (hd : IsDouble x) (h1 : x < 1) :
    x ≤ 1 - (2 : ℚ) ^ (-53 : ℤ) := by
  obtain ⟨m, e, hm, he, _, rfl⟩ := hd
  have hm2 : m < 2 ^ 53 := lt_of_le_of_lt (le_abs_self m) hm
  rcases le_or_lt (-53) e with h | h
  · -- a multiple of 2 ^ (-53)
    obtain ⟨k, hk⟩ : ∃ k : ℕ, e = -53 + k := ⟨(e + 53).toNat, by omega⟩
    subst hk
    have hpow : (2 : ℚ) ^ (-53 + (k : ℤ)) = (2 : ℚ) ^ (-53 : ℤ) * (2 : ℚ) ^ k := by
      rw [zpow_add₀ (by norm_num), zpow_natCast]
    rw [hpow] at h1 ⊢
    have h53 : (2 : ℚ) ^ (-53 : ℤ) = 1 / 2 ^ 53 := by
      rw [zpow_neg]; norm_num
    rw [h53] at h1 ⊢
    have hint : m * 2 ^ k < (2 : ℤ) ^ 53 := by
      have : ((m * 2 ^ k : ℤ) : ℚ) < ((2 ^ 53 : ℤ) : ℚ) := by
        push_cast
        have h' : (m : ℚ) * (1 / 2 ^ 53 * 2 ^ k) * 2 ^ 53 < 1 * 2 ^ 53 :=
          mul_lt_mul_of_pos_right h1 (by positivity)
        have e1 : (m : ℚ) * (1 / 2 ^ 53 * 2 ^ k) * 2 ^ 53 = (m : ℚ) * 2 ^ k := by
          field_simp
        linarith
      exact_mod_cast this
    have hint2 : m * 2 ^ k ≤ (2 : ℤ) ^ 53 - 1 := by omega
    have hq : ((m * 2 ^ k : ℤ) : ℚ) ≤ (((2 : ℤ) ^ 53 - 1 : ℤ) : ℚ) := by exact_mod_cast hint2
    push_cast at hq
    have e2 : (m : ℚ) * (1 / 2 ^ 53 * 2 ^ k) = ((m : ℚ) * 2 ^ k) / 2 ^ 53 := by
      field_simp
    rw [e2, div_le_iff₀ (by positivity)]
    have : (1 - 1 / (2 : ℚ) ^ 53) * 2 ^ 53 = 2 ^ 53 - 1 := by norm_num
    linarith
  · -- below one half
    have hpow : (2 : ℚ) ^ e ≤ (2 : ℚ) ^ (-54 : ℤ) :=
      zpow_le_zpow_right₀ (by norm_num) (by omega)
    have hmq : (m : ℚ) < 2 ^ 53 := by exact_mod_cast hm2
    have hpos := two_zpow_pos e
    have h54 : (2 : ℚ) ^ (-54 : ℤ) = 1 / 2 ^ 54 := by
      rw [zpow_neg]; norm_num
    have h53 : (2 : ℚ) ^ (-53 : ℤ) = 1 / 2 ^ 53 := by
      rw [zpow_neg]; norm_num
    rw [h53]
    rw [h54] at hpow
    have : (m : ℚ) * (2 : ℚ) ^ e ≤ 2 ^ 53 * (1 / 2 ^ 54) := by
      rcases le_or_lt 0 m with hm0 | hm0
      · have hm0q : (0 : ℚ) ≤ m := by exact_mod_cast hm0
        exact mul_le_mul hmq.le hpow hpos.le (by positivity)
      · have hm0q : (m : ℚ) < 0 := by exact_mod_cast hm0
        have : (m : ℚ) * (2 : ℚ) ^ e < 0 := mul_neg_of_neg_of_pos hm0q hpos
        have : (0 : ℚ) ≤ 2 ^ 53 * (1 / 2 ^ 54) := by positivity
        linarith
    have e3 : (2 : ℚ) ^ 53 * (1 / 2 ^ 54) ≤ 1 - 1 / 2 ^ 53 := by norm_num
    linarith

/-- The rounded product of a binary64 value of `[0, 1)` and a length of at most
4 stays below the length. -/
theorem doubleMul_lt_length {rnd : ℚ} (hd : IsDouble rnd) (h0 : 0 ≤ rnd) (h1 : rnd < 1)
    {n : ℕ} (hn0 : 0 < n) (hn4 : n ≤ 4) :
    0 ≤ doubleMul rnd (n : ℚ) ∧ doubleMul rnd (n : ℚ) < (n : ℚ) := by
  have hnq : (0 : ℚ) < (n : ℚ) := by exact_mod_cast hn0
  have hle := isDouble_lt_one hd h1
  have h53 : (2 : ℚ) ^ (-53 : ℤ) = 1 / 2 ^ 53 := by
    rw [zpow_neg]; norm_num
  rw [h53] at hle
  unfold doubleMul
  refine ⟨roundDouble_nonneg (mul_nonneg h0 hnq.le), ?_⟩
  rcases eq_or_lt_of_le h0 with hz | hpos
  · rw [← hz, zero_mul, roundDouble_zero]; exact hnq
  have hq0 : 0 < rnd * (n : ℚ) := mul_pos hpos hnq
  have hqle : rnd * (n : ℚ) ≤ (1 - 1 / 2 ^ 53) * (n : ℚ) :=
    mul_le_mul_of_nonneg_right hle hnq.le
  have hnear := (abs_le.1 (roundDouble_near (rnd * (n : ℚ)))).2
  -- the unit in the last place of the product, by the size of `n`
  have key : ∀ k : ℤ, -1021 ≤ k → (n : ℚ) ≤ (2 : ℚ) ^ k →
      (2 : ℚ) ^ (k - 53) / 2 < 1 / 2 ^ 53 * (n : ℚ) → roundDouble (rnd * (n : ℚ)) < (n : ℚ) := by
    intro k hk hnk hsmall
    have hlt : rnd * (n : ℚ) < (2 : ℚ) ^ k := by
      have : rnd * (n : ℚ) < 1 * (n : ℚ) := mul_lt_mul_of_pos_right h1 hnq
      linarith
    have hu := ulpExp_le hq0 hlt hk
    have hpow : (2 : ℚ) ^ ulpExp (rnd * (n : ℚ)) ≤ (2 : ℚ) ^ (k - 53) :=
      zpow_le_zpow_right₀ (by norm_num) hu
    linarith
  have hcases : n = 1 ∨ n = 2 ∨ n = 3 ∨ n = 4 := by omega
  rcases hcases with rfl | rfl | rfl | rfl
  · exact key 0 (by norm_num) (by norm_num) (by
      rw [show (0 : ℤ) - 53 = -53 by norm_num, zpow_neg]; norm_num)
  · exact key 1 (by norm_num) (by norm_num) (by
      rw [show (1 : ℤ) - 53 = -52 by norm_num, zpow_neg]; norm_num)
  · exact key 2 (by norm_num) (by norm_num) (by
      rw [show (2 : ℤ) - 53 = -51 by norm_num, zpow_neg]; norm_num)
  · exact key 2 (by norm_num) (by norm_num) (by
      rw [show (2 : ℤ) - 53 = -51 by norm_num, zpow_neg]; norm_num)


theorem roundHalfEven_intCast (m : ℤ) : roundHalfEven (m : ℚ) = m := by
  unfold roundHalfEven
  simp

/-- A binary64 value rounds to itself. -/
theorem roundDouble_of_isDouble {x : ℚ} (hd : IsDouble x) : roundDouble x = x := by
  obtain ⟨m, e, hm, he, _, rfl⟩ := hd
  rcases eq_or_ne m 0 with rfl | hm0
  · simp [roundDouble_zero]
  have hpos := two_zpow_pos e
  have hx0 : 0 < |(m : ℚ) * (2 : ℚ) ^ e| := by
    rw [abs_pos]
    exact mul_ne_zero (by exact_mod_cast hm0) hpos.ne.symm
  have hu : ulpExp ((m : ℚ) * (2 : ℚ) ^ e) ≤ e := by
    unfold ulpExp
    have hlt : |(m : ℚ) * (2 : ℚ) ^ e| < (2 : ℚ) ^ (53 + e) := by
      rw [abs_mul, abs_of_pos hpos, zpow_add₀ (by norm_num)]
      have : |(m : ℚ)| < 2 ^ 53 := by exact_mod_cast hm
      have h53 : (2 : ℚ) ^ (53 : ℤ) = 2 ^ 53 := by norm_num
      rw [h53]
      exact mul_lt_mul_of_pos_right this hpos
    have h : Int.log 2 |(m : ℚ) * (2 : ℚ) ^ e| < 53 + e := by
      rw [← Int.lt_zpow_iff_log_lt (by norm_num) hx0]
      exact_mod_cast hlt
    apply max_le <;> omega
  obtain ⟨k, hk⟩ : ∃ k : ℕ, e = ulpExp ((m : ℚ) * (2 : ℚ) ^ e) + k :=
    ⟨(e - ulpExp ((m : ℚ) * (2 : ℚ) ^ e)).toNat, by omega⟩
  unfold roundDouble
  generalize ulpExp ((m : ℚ) * (2 : ℚ) ^ e) = u at hk
  subst hk
  have hup := two_zpow_pos u
  have e1 : (m : ℚ) * (2 : ℚ) ^ (u + (k : ℤ)) / (2 : ℚ) ^ u = ((m * 2 ^ k : ℤ) : ℚ) := by
    rw [zpow_add₀ (by norm_num), zpow_natCast]
    push_cast
    field_simp
    ring
  rw [e1, roundHalfEven_intCast, zpow_add₀ (by norm_num), zpow_natCast]
  push_cast
  ring

/-- The product `0.6666666666666666 * 3` is `2 - 2 ^ (-53)` exactly and `2` as
a binary64 product: the tie goes to the even significand. -/
theorem doubleMul_two_thirds :
    IsDouble (6004799503160661 / 9007199254740992) ∧
    (6004799503160661 / 9007199254740992 : ℚ) * 3 < 2 ∧
    doubleMul (6004799503160661 / 9007199254740992) 3 = 2 := by
  refine ⟨⟨6004799503160661, -53, by norm_num, by norm_num, by norm_num, ?_⟩, by norm_num, ?_⟩
  · rw [zpow_neg]; norm_num
  · have hu : ulpExp ((6004799503160661 / 9007199254740992 : ℚ) * 3) = -52 := by
      rw [ulpExp_eq (k := 0) (by norm_num) (by norm_num) (by norm_num)]
      norm_num
    have h52 : (2 : ℚ) ^ (-52 : ℤ) = 1 / 4503599627370496 := by
      rw [zpow_neg]; norm_num
    have hf : Int.floor ((6004799503160661 / 9007199254740992 : ℚ) * 3 / (1 / 4503599627370496))
        = 9007199254740991 := by
      rw [Int.floor_eq_iff]
      constructor <;> norm_num
    unfold doubleMul roundDouble
    rw [hu, h52]
    unfold roundHalfEven
    rw [hf]
    norm_num


theorem roundHalfEven_dist (t : ℚ) :
    |(roundHalfEven t : ℚ) - t| ≤ t - (Int.floor t : ℚ) ∧
    |(roundHalfEven t : ℚ) - t| ≤ (Int.floor t : ℚ) + 1 - t := by
  have hf := Int.floor_le t
  have hf2 := Int.lt_floor_add_one t
  unfold roundHalfEven
  dsimp only
  split_ifs with h1 h2 h3
  · constructor <;> rw [abs_le] <;> constructor <;> linarith
  · constructor <;> rw [abs_le] <;> constructor <;> push_cast <;> linarith
  · constructor <;> rw [abs_le] <;> constructor <;> linarith
  · constructor <;> rw [abs_le] <;> constructor <;> push_cast <;> linarith

/-- No binary64 value lies strictly between two neighbours of the grid that
`roundDouble` rounds `x` to. -/
theorem no_double_between {x : ℚ} (hpos : 0 < x) {d : ℚ} (hd : IsDouble d) :
    ¬ ((Int.floor (x / (2 : ℚ) ^ ulpExp x) : ℚ) * (2 : ℚ) ^ ulpExp x < d ∧
       d < ((Int.floor (x / (2 : ℚ) ^ ulpExp x) : ℚ) + 1) * (2 : ℚ) ^ ulpExp x) := by
  obtain ⟨m, e, hm, he, _, rfl⟩ := hd
  rintro ⟨h1, h2⟩
  have hm2 : (m : ℚ) < 2 ^ 53 := by
    have : m < 2 ^ 53 := lt_of_le_of_lt (le_abs_self m) hm
    exact_mod_cast this
  have hpe := two_zpow_pos e
  have hue : ulpExp x ≤ e := by
    by_contra hcon
    rw [not_le] at hcon
    have hk : ulpExp x = Int.log 2 x - 52 := by
      unfold ulpExp at hcon ⊢
      rw [abs_of_pos hpos] at hcon ⊢
      rcases le_total (Int.log 2 x - 52) (-1074) with h | h
      · rw [max_eq_right h] at hcon; omega
      · rw [max_eq_left h]
    rw [hk] at h1 hcon
    have hlog : (2 : ℚ) ^ (Int.log 2 x) ≤ x := by
      have := Int.zpow_log_le_self (b := 2) (by norm_num) hpos
      exact_mod_cast this
    have hu := two_zpow_pos (Int.log 2 x - 52)
    have hsplit : (2 : ℚ) ^ (Int.log 2 x) = 2 ^ 52 * (2 : ℚ) ^ (Int.log 2 x - 52) := by
      rw [show Int.log 2 x = 52 + (Int.log 2 x - 52) by ring, zpow_add₀ (by norm_num)]
      norm_num
    have hfl : (2 ^ 52 : ℤ) ≤ Int.floor (x / (2 : ℚ) ^ (Int.log 2 x - 52)) := by
      rw [Int.le_floor, le_div_iff₀ hu]
      push_cast
      rw [hsplit] at hlog
      norm_num at hlog ⊢
      exact hlog
    have hfq : ((2 ^ 52 : ℤ) : ℚ) ≤ (Int.floor (x / (2 : ℚ) ^ (Int.log 2 x - 52)) : ℚ) := by
      exact_mod_cast hfl
    push_cast at hfq
    have hlo : (2 : ℚ) ^ (Int.log 2 x) ≤
        (Int.floor (x / (2 : ℚ) ^ (Int.log 2 x - 52)) : ℚ) * (2 : ℚ) ^ (Int.log 2 x - 52) := by
      rw [hsplit]
      exact mul_le_mul_of_nonneg_right hfq hu.le
    have hd1 : (m : ℚ) * (2 : ℚ) ^ e < (2 : ℚ) ^ (53 + e) := by
      rw [zpow_add₀ (by norm_num)]
      have h53 : (2 : ℚ) ^ (53 : ℤ) = 2 ^ 53 := by norm_num
      rw [h53]
      exact mul_lt_mul_of_pos_right hm2 hpe
    have hd2 : (2 : ℚ) ^ (53 + e) ≤ (2 : ℚ) ^ (Int.log 2 x) :=
      zpow_le_zpow_right₀ (by norm_num) (by omega)
    linarith
  obtain ⟨j, hj⟩ : ∃ j : ℕ, e = ulpExp x + j := ⟨(e - ulpExp x).toNat, by omega⟩
  generalize ulpExp x = u at h1 h2 hj
  subst hj
  have hu := two_zpow_pos u
  have e1 : (m : ℚ) * (2 : ℚ) ^ (u + (j : ℤ)) = ((m * 2 ^ j : ℤ) : ℚ) * (2 : ℚ) ^ u := by
    rw [zpow_add₀ (by norm_num), zpow_natCast]
    push_cast
    ring
  rw [e1] at h1 h2
  have h3 := lt_of_mul_lt_mul_right h1 hu.le
  have h4 := lt_of_mul_lt_mul_right h2 hu.le
  have h5 : Int.floor (x / (2 : ℚ) ^ u) < m * 2 ^ j := by exact_mod_cast h3
  have h6 : m * 2 ^ j < Int.floor (x / (2 : ℚ) ^ u) + 1 := by exact_mod_cast h4
  omega

/-- The value `roundDouble x` is a nearest binary64 value to `x`. -/
theorem roundDouble_nearest {x : ℚ} (h0 : 0 ≤ x) {d : ℚ} (hd : IsDouble d) :
    |roundDouble x - x| ≤ |d - x| := by
  rcases eq_or_lt_of_le h0 with rfl | hpos
  · rw [roundDouble_zero, sub_zero, abs_zero]
    exact abs_nonneg _
  have hno := no_double_between hpos hd
  have hdist := roundHalfEven_dist (x / (2 : ℚ) ^ ulpExp x)
  have hf := Int.floor_le (x / (2 : ℚ) ^ ulpExp x)
  have hf2 := Int.lt_floor_add_one (x / (2 : ℚ) ^ ulpExp x)
  unfold roundDouble
  have hu := two_zpow_pos (ulpExp x)
  generalize (2 : ℚ) ^ ulpExp x = u at hno hdist hf hf2 hu ⊢
  generalize (roundHalfEven (x / u) : ℚ) = r at hdist ⊢
  generalize (Int.floor (x / u) : ℚ) = f at hno hdist hf hf2
  have hx : x = x / u * u := by field_simp
  have hr : |r * u - x| = |r - x / u| * u := by
    rw [← abs_of_pos hu, ← abs_mul, abs_of_pos hu, sub_mul, ← hx]
  have hlo : f * u ≤ x := by
    have := mul_le_mul_of_nonneg_right hf hu.le
    linarith
  have hhi : x < (f + 1) * u := by
    have := mul_lt_mul_of_pos_right hf2 hu
    linarith
  rw [hr]
  rcases le_or_lt d (f * u) with hle | hlt
  · have h1 : |r - x / u| * u ≤ (x / u - f) * u := mul_le_mul_of_nonneg_right hdist.1 hu.le
    have h2 : (x / u - f) * u = x - f * u := by rw [sub_mul, ← hx]
    have h3 : x - d ≤ |d - x| := by rw [abs_sub_comm]; exact le_abs_self _
    linarith
  · have hge : (f + 1) * u ≤ d := by
      by_contra hc
      exact hno ⟨hlt, not_le.1 hc⟩
    have h1 : |r - x / u| * u ≤ (f + 1 - x / u) * u := mul_le_mul_of_nonneg_right hdist.2 hu.le
    have h2 : (f + 1 - x / u) * u = (f + 1) * u - x := by rw [sub_mul, ← hx]
    have h3 : d - x ≤ |d - x| := le_abs_self _
    linarith


/-- The value `roundDouble x` is a binary64 value. -/
theorem isDouble_roundDouble {x : ℚ} (h0 : 0 ≤ x) (hmax : x < (2 : ℚ) ^ (1023 : ℤ)) :
    IsDouble (roundDouble x) := by
  rcases eq_or_lt_of_le h0 with rfl | hpos
  · rw [roundDouble_zero]
    exact ⟨0, 0, by norm_num, by norm_num, by norm_num, by norm_num⟩
  have hk : Int.log 2 x < 1023 := by
    rw [← Int.lt_zpow_iff_log_lt (by norm_num) hpos]
    exact_mod_cast hmax
  have hue1 : Int.log 2 x - 52 ≤ ulpExp x := by
    unfold ulpExp; rw [abs_of_pos hpos]; exact le_max_left _ _
  have hue2 : -1074 ≤ ulpExp x := by
    unfold ulpExp; exact le_max_right _ _
  have hue3 : ulpExp x ≤ 970 := by
    unfold ulpExp; rw [abs_of_pos hpos]; apply max_le <;> omega
  have hu := two_zpow_pos (ulpExp x)
  have hlt : x < (2 : ℚ) ^ (Int.log 2 x + 1) := by
    have := Int.lt_zpow_succ_log_self (b := 2) (by norm_num) x
    exact_mod_cast this
  have hx53 : x < 2 ^ 53 * (2 : ℚ) ^ ulpExp x := by
    have h1 : (2 : ℚ) ^ (Int.log 2 x + 1) ≤ (2 : ℚ) ^ (53 + ulpExp x) :=
      zpow_le_zpow_right₀ (by norm_num) (by omega)
    have h2 : (2 : ℚ) ^ (53 + ulpExp x) = 2 ^ 53 * (2 : ℚ) ^ ulpExp x := by
      rw [zpow_add₀ (by norm_num)]
      norm_num
    rw [h2] at h1
    linarith
  have ht : x / (2 : ℚ) ^ ulpExp x < 2 ^ 53 := by
    rw [div_lt_iff₀ hu]; exact hx53
  have hM0 : 0 ≤ roundHalfEven (x / (2 : ℚ) ^ ulpExp x) :=
    roundHalfEven_nonneg (div_nonneg h0 hu.le)
  have hM1 : roundHalfEven (x / (2 : ℚ) ^ ulpExp x) ≤ 2 ^ 53 := by
    have h1 := roundHalfEven_le (x / (2 : ℚ) ^ ulpExp x)
    have h2 : (roundHalfEven (x / (2 : ℚ) ^ ulpExp x) : ℚ) < ((2 ^ 53 + 1 : ℤ) : ℚ) := by
      push_cast; linarith
    have h3 : roundHalfEven (x / (2 : ℚ) ^ ulpExp x) < 2 ^ 53 + 1 := by exact_mod_cast h2
    omega
  unfold roundDouble
  generalize roundHalfEven (x / (2 : ℚ) ^ ulpExp x) = M at hM0 hM1
  rcases eq_or_lt_of_le hM1 with rfl | hM2
  · refine ⟨2 ^ 52, ulpExp x + 1, by norm_num, by omega, by omega, ?_⟩
    rw [zpow_add₀ (by norm_num)]
    push_cast
    ring
  · exact ⟨M, ulpExp x, by rw [abs_of_nonneg hM0]; exact hM2, hue2, by omega, rfl⟩

/-! ### The noisy choice -/

theorem roundHalfEven_tie_even (t : ℚ) (h : t - (Int.floor t : ℚ) = 1 / 2) :
    roundHalfEven t % 2 = 0 := by
  unfold roundHalfEven
  dsimp only
  rw [if_neg (by rw [h]; exact lt_irrefl _), if_neg (by rw [h]; exact lt_irrefl _)]
  split_ifs with h2
  · exact h2
  · omega

/-- C18: `pickMoveWithNoise(best, ordered, level)` returns `best` for every
level of at least 6; for a level below 6 and a non-empty list it returns, for
every random draw in `[0, 1)`, one of the first `N` entries of `ordered`, with
`N = 4` for a level of at most 2 and `N = 2` otherwise; for an empty list it
returns `best`. The draw is any binary64 value of `[0, 1)` and the index is
taken from the rounded binary64 product. -/
theorem pickMoveWithNoise_spec (best : Move) (ordered : List Move) (level : Int) (rnd : ℚ)
    (hd : IsDouble rnd) (h0 : 0 ≤ rnd) (h1 : rnd < 1) :
    (6 ≤ level → pickMoveWithNoise best ordered level rnd = best) ∧
    (level < 6 → ordered ≠ [] →
      pickMoveWithNoise best ordered level rnd ∈
        ordered.take (if level ≤ 2 then 4 else 2)) ∧
    (ordered = [] → pickMoveWithNoise best ordered level rnd = best) := by
  refine ⟨?_, ?_, ?_⟩
  · intro h
    unfold pickMoveWithNoise
    rw [if_pos h]
  · intro hlt hne
    unfold pickMoveWithNoise
    rw [if_neg (show ¬ level ≥ 6 by omega)]
    dsimp only
    rw [take_min_length]
    have hN : 0 < (if level ≤ 2 then 4 else 2 : Nat) := by split_ifs <;> omega
    have hN4 : (if level ≤ 2 then 4 else 2 : Nat) ≤ 4 := by split_ifs <;> omega
    generalize (if level ≤ 2 then 4 else 2 : Nat) = N at hN hN4 ⊢
    generalize hch : ordered.take N = choices
    have hpos : 0 < choices.length := by
      have : 0 < ordered.length := List.length_pos.2 hne
      rw [← hch, List.length_take]
      omega
    have hle4 : choices.length ≤ 4 := by
      rw [← hch, List.length_take]
      omega
    obtain ⟨hp0, hplt⟩ := doubleMul_lt_length hd h0 h1 hpos hle4
    have hlo : 0 ≤ Int.floor (doubleMul rnd (choices.length : ℚ)) := Int.floor_nonneg.2 hp0
    have hhi : Int.floor (doubleMul rnd (choices.length : ℚ)) < (choices.length : Int) := by
      rw [Int.floor_lt]
      push_cast
      exact hplt
    rw [if_neg (show ¬ Int.floor (doubleMul rnd (choices.length : ℚ)) < 0 by omega)]
    have hidx : (Int.floor (doubleMul rnd (choices.length : ℚ))).toNat < choices.length := by
      omega
    rw [List.get?_eq_get hidx, Option.getD_some]
    exact List.get_mem _ _ _
  · intro hnil
    subst hnil
    unfold pickMoveWithNoise
    split_ifs <;> simp

theorem pickMoveWithNoise_spec_witness :
    pickMoveWithNoise ⟨(6, 0), (5, 0), none⟩
        [⟨(6, 4), (4, 4), none⟩, ⟨(6, 3), (4, 3), none⟩, ⟨(7, 1), (5, 2), none⟩] 1
        (6004799503160661 / 9007199254740992)
      ∈ [(⟨(6, 4), (4, 4), none⟩ : Move), ⟨(6, 3), (4, 3), none⟩, ⟨(7, 1), (5, 2), none⟩] :=
  (pickMoveWithNoise_spec ⟨(6, 0), (5, 0), none⟩
    [⟨(6, 4), (4, 4), none⟩, ⟨(6, 3), (4, 3), none⟩, ⟨(7, 1), (5, 2), none⟩] 1
    (6004799503160661 / 9007199254740992)
    doubleMul_two_thirds.1 (by norm_num) (by norm_num)).2.1 (by decide) (by simp)

/-- At level 1 with three moves and the draw `0.6666666666666666` the index is
2, the floor of the rounded product, and the third move is returned; the floor
of the exact product is 1. -/
theorem pickMoveWithNoise_rounded_index :
    pickMoveWithNoise ⟨(6, 0), (5, 0), none⟩
        [⟨(6, 4), (4, 4), none⟩, ⟨(6, 3), (4, 3), none⟩, ⟨(7, 1), (5, 2), none⟩] 1
        (6004799503160661 / 9007199254740992) = ⟨(7, 1), (5, 2), none⟩ ∧
    Int.floor ((6004799503160661 / 9007199254740992 : ℚ) * 3) = 1 := by
  constructor
  · have h := doubleMul_two_thirds.2.2
    unfold pickMoveWithNoise
    rw [if_neg (by decide)]
    have hlen : (List.take (min (if (1 : Int) ≤ 2 then 4 else 2)
        [(⟨(6, 4), (4, 4), none⟩ : Move), ⟨(6, 3), (4, 3), none⟩,
          ⟨(7, 1), (5, 2), none⟩].length)
        [(⟨(6, 4), (4, 4), none⟩ : Move), ⟨(6, 3), (4, 3), none⟩, ⟨(7, 1), (5, 2), none⟩])
        = [(⟨(6, 4), (4, 4), none⟩ : Move), ⟨(6, 3), (4, 3), none⟩, ⟨(7, 1), (5, 2), none⟩] := by
      decide
    dsimp only
    rw [hlen]
    have h3 : (([(⟨(6, 4), (4, 4), none⟩ : Move), ⟨(6, 3), (4, 3), none⟩,
        ⟨(7, 1), (5, 2), none⟩].length : ℕ) : ℚ) = 3 := by norm_num
    rw [h3, h]
    have hf : Int.floor (2 : ℚ) = 2 := by
      rw [Int.floor_eq_iff]; constructor <;> norm_num
    rw [hf]
    rfl
  · rw [Int.floor_eq_iff]
    constructor <;> norm_num

/-! ## Undo on the initial stack and the check test -/

/-- C21: for every session state whose position stack has length 1, `undoPly`
changes nothing: the board, both stacks, the history and the side to move (and
every other field) stay as they are. -/
theorem undoPly_noop_on_initial_stack (s : Session) (hlen : s.boardStack.length = 1) :
    undoPly s = s ∧
    (undoPly s).board = s.board ∧ (undoPly s).boardStack = s.boardStack ∧
    (undoPly s).moveStack = s.moveStack ∧ (undoPly s).history = s.history ∧
    (undoPly s).turn = s.turn := by
  have h : undoPly s = s := by
    unfold undoPly
    rw [if_pos (by omega)]
  rw [h]
  exact ⟨rfl, rfl, rfl, rfl, rfl, rfl⟩

theorem undoPly_noop_on_initial_stack_witness :
    initialSession.boardStack.length = 1 ∧ undoPly initialSession = initialSession :=
  ⟨rfl, (undoPly_noop_on_initial_stack initialSession rfl).1⟩

theorem allSquares_rowMajor : allSquares.Pairwise rowMajorLt := by decide

theorem find?_first_of_pairwise {l : List (Int × Int)} (hl : l.Pairwise rowMajorLt)
    (f : Int × Int → Bool) (k : Int × Int) (h : l.find? f = some k) :
    k ∈ l ∧ f k = true ∧ ∀ q ∈ l, rowMajorLt q k → f q = false := by
  obtain ⟨hk, as, bs, hl', has⟩ := List.find?_eq_some.1 h
  subst hl'
  refine ⟨by simp, hk, ?_⟩
  intro q hq hlt
  rcases List.mem_append.1 hq with h1 | h1
  · simpa using has q h1
  · rcases List.mem_cons.1 h1 with h2 | h2
    · subst h2
      unfold rowMajorLt at hlt
      omega
    · have hp := (List.pairwise_cons.1 (List.pairwise_append.1 hl).2.1).1 q h2
      unfold rowMajorLt at hlt hp
      omega

/-- C22: `isInCheck(board, side)` is false on every board without a king of
`side`; on a board with such a king it equals
`isSquareAttacked(board, king square, opposite side)`, where the king square is
the first square in row-major order that holds the king of `side`. -/
theorem isInCheck_spec (board : Board) (color : Color) :
    ((∀ p ∈ allSquares, sq board p.1 p.2 ≠ some ⟨color, Kind.king⟩) →
      isInCheck board color = false) ∧
    ((∃ p ∈ allSquares, sq board p.1 p.2 = some ⟨color, Kind.king⟩) →
      ∃ k ∈ allSquares, sq board k.1 k.2 = some ⟨color, Kind.king⟩ ∧
        (∀ q ∈ allSquares, rowMajorLt q k → sq board q.1 q.2 ≠ some ⟨color, Kind.king⟩) ∧
        findKing board color = some k ∧
        isInCheck board color = isSquareAttacked board k.1 k.2 (other color)) := by
  constructor
  · intro hno
    have : findKing board color = none := by
      unfold findKing
      rw [List.find?_eq_none]
      intro p hp
      simpa using hno p hp
    unfold isInCheck
    rw [this]
  · rintro ⟨p, hp, hking⟩
    cases hfind : findKing board color with
    | none =>
      unfold findKing at hfind
      rw [List.find?_eq_none] at hfind
      have := hfind p hp
      simp [hking] at this
    | some k =>
      have hfind' := hfind
      unfold findKing at hfind'
      obtain ⟨hk, hf, hfirst⟩ := find?_first_of_pairwise allSquares_rowMajor _ k hfind'
      refine ⟨k, hk, by simpa using hf, ?_, rfl, ?_⟩
      · intro q hq hlt
        simpa using hfirst q hq hlt
      · unfold isInCheck
        rw [hfind]

/-! ## Symmetry of the evaluator -/

theorem evaluate_eq_sum (board : Board) :
    evaluate board = (allSquares.map (squareScore board)).sum := by
  unfold evaluate
  dsimp only
  rw [evaluate_foldl board allSquares 0 0]
  simp only [zero_add]
  rfl

theorem sq_mirrorSwap (b : Board) (r c : Int) (hwf : WellFormed b)
    (hin : inBounds r c = true) :
    sq (mirrorSwap b) r c = (sq b (7 - r) c).map swapColor := by
  rw [inBounds_iff] at hin
  obtain ⟨hlen, hrows⟩ := hwf
  have h7 : (7 - r).toNat = b.length - 1 - r.toNat := by omega
  have hi : r.toNat < b.length := by omega
  have hi' : b.length - 1 - r.toNat < b.length := by omega
  unfold sq mirrorSwap
  rw [h7]
  simp only [List.getD_eq_getElem?_getD, List.getElem?_map, List.getElem?_reverse hi,
    List.getElem?_eq_getElem hi', Option.map_some', Option.getD_some]
  cases h : (b[b.length - 1 - r.toNat])[c.toNat]? <;> simp [h]

theorem centerBonus_mirror (r c : Int) : centerBonus (7 - r) c = centerBonus r c := by
  unfold centerBonus centerDist
  have : (7 - 2 * (7 - r)).natAbs = (7 - 2 * r).natAbs := by omega
  rw [this]

theorem squareScore_mirrorSwap (b : Board) (p : Int × Int) (hwf : WellFormed b)
    (hp : p ∈ allSquares) :
    squareScore (mirrorSwap b) p = -squareScore b (7 - p.1, p.2) := by
  unfold squareScore
  rw [sq_mirrorSwap b p.1 p.2 hwf ((mem_allSquares p).1 hp)]
  cases sq b (7 - p.1) p.2 with
  | none => simp
  | some pc =>
    simp only [Option.map_some', centerBonus_mirror]
    obtain ⟨col, k⟩ := pc
    cases col <;> simp [swapColor, other, pieceSign]

theorem allSquares_mirror_perm :
    (allSquares.map fun p : Int × Int => (7 - p.1, p.2)).Perm allSquares := by
  have hinj : Function.Injective (fun p : Int × Int => (7 - p.1, p.2)) := by
    intro p q h
    simp only [Prod.mk.injEq] at h
    exact Prod.ext (by omega) h.2
  rw [List.perm_ext_iff_of_nodup (nodup_allSquares.map hinj) nodup_allSquares]
  intro p
  rw [List.mem_map]
  constructor
  · rintro ⟨q, hq, rfl⟩
    rw [mem_allSquares, inBounds_iff] at hq ⊢
    dsimp only
    omega
  · intro hp
    refine ⟨(7 - p.1, p.2), ?_, by simp⟩
    rw [mem_allSquares, inBounds_iff] at hp ⊢
    dsimp only
    omega

/-- C30: for every 8x8 board `b`, the board `b'` obtained by mirroring `b` top
to bottom and swapping the colour of every piece has
`evaluate(b') = -evaluate(b)`; and `evaluate(initialBoard()) = 0`. -/
theorem evaluate_mirrorSwap (b : Board) (hwf : WellFormed b) :
    evaluate (mirrorSwap b) = -evaluate b ∧ evaluate initialBoard = 0 := by
  refine ⟨?_, by decide⟩
  rw [evaluate_eq_sum, evaluate_eq_sum]
  have h1 : allSquares.map (squareScore (mirrorSwap b))
      = (allSquares.map fun p : Int × Int => (7 - p.1, p.2)).map
          (fun p => -squareScore b p) := by
    rw [List.map_map]
    apply List.map_congr_left
    intro p hp
    exact squareScore_mirrorSwap b p hwf hp
  have h2 : ∀ l : List (Int × Int),
      (l.map fun p => -squareScore b p).sum = -(l.map (squareScore b)).sum := by
    intro l
    induction l with
    | nil => simp
    | cons p l ih => simp only [List.map_cons, List.sum_cons, ih]; ring
  rw [h1, h2, List.map_map]
  congr 1
  rw [← List.map_map]
  exact (allSquares_mirror_perm.map (squareScore b)).sum_eq

theorem evaluate_mirrorSwap_witness :
    WellFormed stalemateBoard ∧ evaluate stalemateBoard = 900 ∧
    evaluate (mirrorSwap stalemateBoard) = -evaluate stalemateBoard :=
  ⟨by decide, by decide, (evaluate_mirrorSwap stalemateBoard (by decide)).1⟩

/-! ## Undo of a full turn -/

theorem undoPly_eq_undoPlyFrom (s : Session) : undoPly s = undoPlyFrom s s := rfl

/-- With at least two applied moves `undoTurn` is two `undoPly`: the last two
plies are removed. -/
theorem undoTurn_two_plies (s : Session) (h : 3 ≤ s.boardStack.length) :
    undoTurn s = undoPly (undoPly s) := by
  have h1 : ¬ s.boardStack.length ≤ 1 := by omega
  have h2 : ¬ (undoPly s).boardStack.length ≤ 1 := by
    rw [undoPly_eq_undoPlyFrom]
    unfold undoPlyFrom
    rw [if_neg h1]
    simp only [undoPlyUpdates, List.length_dropLast]
    omega
  rw [undoTurn, undoPly_eq_undoPlyFrom (undoPly s)]
  unfold undoPlyFrom
  rw [if_neg h1, if_neg h2]

/-- C24, evaluated on the session after exactly one applied move (1.e4 from a
new game): the second `undoPly` of `undoTurn` still sees the position stack of
length 2 of the render it was created in, so it pops again; the position stack
ends empty and Black is to move, where two guarded `undoPly` leave the stack
holding the initial position and White to move. -/
theorem undoTurn_over_pops_after_one_move :
    SessionReachable (doMove (newGame initialSession Color.white) ⟨(6, 4), (4, 4), none⟩) ∧
    (doMove (newGame initialSession Color.white) ⟨(6, 4), (4, 4), none⟩).moveStack.length = 1 ∧
    (undoTurn (doMove (newGame initialSession Color.white) ⟨(6, 4), (4, 4), none⟩)).boardStack
      = [] ∧
    (undoTurn (doMove (newGame initialSession Color.white) ⟨(6, 4), (4, 4), none⟩)).moveStack
      = [] ∧
    (undoTurn (doMove (newGame initialSession Color.white) ⟨(6, 4), (4, 4), none⟩)).turn
      = Color.black ∧
    (undoPly (undoPly (doMove (newGame initialSession Color.white)
      ⟨(6, 4), (4, 4), none⟩))).boardStack = [initialBoard] ∧
    (undoPly (undoPly (doMove (newGame initialSession Color.white)
      ⟨(6, 4), (4, 4), none⟩))).turn = Color.white :=
  ⟨SessionReachable.doMove _ (SessionReachable.newGame Color.white SessionReachable.init),
    by decide, by decide, by decide, by decide, by decide, by decide⟩

/-! ## Engine scheduling -/

theorem render_blocked (p : Page) (s : Session) (f : Bool) (h1 : p.thinking = true)
    (h2 : p.timer = none) :
    (render p s f).thinking = true ∧ (render p s f).timer = none := by
  unfold render
  split_ifs
  · exact ⟨h1, h2⟩
  · unfold engineEffect
    dsimp only
    split_ifs
    · exact ⟨h1, rfl⟩
    · exact ⟨h1, rfl⟩

/-- "New Game" as Black pressed again while the first search is scheduled:
every dependency keeps its value, and the new board array alone makes the
effect run again; the cleanup cancels the timer and the flag stays set. -/
theorem newGame_again_cancels_timer :
    effectDeps (newGame thinkingPage.session Color.black) = effectDeps thinkingPage.session ∧
    PageReachable (render thinkingPage (newGame thinkingPage.session Color.black) true) ∧
    (render thinkingPage (newGame thinkingPage.session Color.black) true).thinking = true ∧
    (render thinkingPage (newGame thinkingPage.session Color.black) true).timer = none :=
  ⟨by decide,
    PageReachable.handler
      (PageReachable.handler PageReachable.mount (Handler.newGame _ Color.black))
      (Handler.newGame _ Color.black),
    by decide, by decide⟩

/-- C29, evaluated on the run: mount, "New Game" as Black (the engine is to
move, the effect sets the flag and schedules the search), difficulty slider
moved to 7 before the 60 ms elapse. The cleanup cancels the timer and does not
reset the flag, the effect runs again and returns at the guard: the reachable
state has the flag set and no timer outstanding, and every later render leaves
it so, whatever the session state. -/
theorem thinking_flag_set_without_timer :
    PageReachable blockedPage ∧
    thinkingPage.thinking = true ∧ thinkingPage.timer.isSome = true ∧
    blockedPage.session.turn = other blockedPage.session.humanColor ∧
    gameOver blockedPage.session.board blockedPage.session.turn = none ∧
    blockedPage.thinking = true ∧ blockedPage.timer = none ∧
    (∀ (s : Session) (f : Bool),
      (render blockedPage s f).thinking = true ∧ (render blockedPage s f).timer = none) := by
  have hA : thinkingPage.thinking = true := by decide
  have hB : blockedPage.thinking = true := by decide
  have hC : blockedPage.timer = none := by decide
  refine ⟨?_, hA, by decide, by decide, by decide, hB, hC, fun s f => render_blocked _ s f hB hC⟩
  exact PageReachable.handler
    (PageReachable.handler PageReachable.mount (Handler.newGame _ Color.black))
    (Handler.difficulty _ 7)

theorem render_engine_move (s : Session) (m : Move) (hturn : s.turn = other s.humanColor) :
    render ⟨s, false, none⟩ (doMove s m) true = ⟨doMove s m, false, none⟩ := by
  unfold render
  rw [if_neg (by simp)]
  unfold engineEffect
  dsimp only
  rw [if_pos]
  right
  show other s.turn ≠ other s.humanColor
  rw [hturn, other_other]
  cases s.humanColor <;> decide

/-- The timer callback of the engine's turn applies one move, clears the flag
and leaves no timer: the effect that runs after it finds the human to move. -/
theorem timerFire_engine_turn (p : Page) (r : Session) (rnd : ℚ) (ht : p.timer = some r)
    (hlegal : (generateLegalMoves r.board r.turn).length ≠ 0)
    (hturn : p.session.turn = other p.session.humanColor) :
    ∃ m : Move, timerFire p rnd = ⟨doMove p.session m, false, none⟩ := by
  unfold timerFire
  rw [ht]
  dsimp only
  rw [if_neg hlegal]
  exact ⟨_, render_engine_move _ _ hturn⟩

/-- "Undo Turn" with the human to move and the engine idle: the render after
the first `undoPly` has the engine to move, so the effect sets the flag and
schedules the search; the render after the delayed `undoPly` cancels that
timer and the flag stays set. -/
theorem undoTurnPage_flag_set (p : Page) (hth : p.thinking = false)
    (hlen : 1 < p.session.boardStack.length) (hturn : p.session.turn = p.session.humanColor)
    (hgo : gameOver (undoPly p.session).board (undoPly p.session).turn = none) :
    (undoTurnPage p).session = undoTurn p.session ∧
    (undoTurnPage p).thinking = true ∧ (undoTurnPage p).timer = none := by
  have hfirst : render p (undoPly p.session) (decide (1 < p.session.boardStack.length))
      = ⟨undoPly p.session, true, some (undoPly p.session)⟩ := by
    unfold render
    rw [if_neg (by simp [hlen])]
    unfold engineEffect
    dsimp only
    have ht : (undoPly p.session).turn = other (undoPly p.session).humanColor := by
      unfold undoPly
      rw [if_neg (by omega)]
      dsimp only
      rw [hturn]
    rw [if_neg (by rw [hgo]; simp [ht]), if_neg (by simp [hth])]
  unfold undoTurnPage
  rw [hfirst]
  have h := render_blocked ⟨undoPly p.session, true, none⟩ (undoTurn p.session)
    (decide (1 < p.session.boardStack.length)) rfl rfl
  unfold render at h ⊢
  rw [if_neg (by simp [hlen])] at h ⊢
  refine ⟨?_, h.1, h.2⟩
  unfold engineEffect
  dsimp only
  split_ifs <;> rfl

/-- The flag is left set by ordinary play: the human plays e2-e4, the engine
answers with whatever move and draw, the human presses "Undo Turn". The state
is reachable, the flag is set with no timer outstanding, and every later
render leaves it so. -/
theorem undo_turn_blocks_engine (rnd : ℚ) (hd : IsDouble rnd) (h0 : 0 ≤ rnd) (h1 : rnd < 1) :
    PageReachable (undoTurnPage (timerFire movedPage rnd)) ∧
    (undoTurnPage (timerFire movedPage rnd)).thinking = true ∧
    (undoTurnPage (timerFire movedPage rnd)).timer = none ∧
    (∀ (s : Session) (f : Bool),
      (render (undoTurnPage (timerFire movedPage rnd)) s f).thinking = true ∧
      (render (undoTurnPage (timerFire movedPage rnd)) s f).timer = none) := by
  have hreach : PageReachable (undoTurnPage (timerFire movedPage rnd)) :=
    PageReachable.undoTurn (PageReachable.fire rnd
      (PageReachable.handler (PageReachable.handler PageReachable.mount (Handler.click _ 52))
        (Handler.click _ 36))
      (by decide) hd h0 h1)
  have htimer : movedPage.timer = some movedPage.session := by decide
  obtain ⟨m, hm⟩ := timerFire_engine_turn movedPage movedPage.session rnd htimer
    (by decide) (by decide)
  have hflag : (undoTurnPage (timerFire movedPage rnd)).thinking = true ∧
      (undoTurnPage (timerFire movedPage rnd)).timer = none := by
    rw [hm]
    have hlen : (doMove movedPage.session m).boardStack.length = 3 := by
      have : movedPage.session.boardStack.length = 2 := by decide
      simp [doMove, this]
    have hturn : (doMove movedPage.session m).turn = (doMove movedPage.session m).humanColor := by
      show other movedPage.session.turn = movedPage.session.humanColor
      decide
    have hstack : movedPage.session.boardStack = [initialBoard, movedPage.session.board] := by
      decide
    refine (undoTurnPage_flag_set ⟨doMove movedPage.session m, false, none⟩ rfl
      (by show 1 < (doMove movedPage.session m).boardStack.length; omega) hturn ?_).2
    show gameOver (undoPly (doMove movedPage.session m)).board
      (undoPly (doMove movedPage.session m)).turn = none
    have hb : (undoPly (doMove movedPage.session m)).board = movedPage.session.board := by
      unfold undoPly
      rw [if_neg (by omega)]
      show ((movedPage.session.boardStack ++ [applyMove movedPage.session.board m]).dropLast).getLastD
        (applyMove movedPage.session.board m) = movedPage.session.board
      rw [List.dropLast_concat, hstack]
      rfl
    have ht : (undoPly (doMove movedPage.session m)).turn = movedPage.session.turn := by
      unfold undoPly
      rw [if_neg (by omega)]
      simp [doMove, other_other]
    rw [hb, ht]
    decide
  exact ⟨hreach, hflag.1, hflag.2, fun s f => render_blocked _ s f hflag.1 hflag.2⟩

/-! ## The generated moves, piece by piece -/

theorem mem_stepMoves_iff (b : Board) (their : Color) (r c : Int) (dirs : List (Int × Int))
    (m : Move) :
    m ∈ stepMoves b their r c dirs ↔
      ∃ d ∈ dirs, inBounds (r + d.1) (c + d.2) = true ∧ FreeFor b their (r + d.1) (c + d.2) ∧
        m = ⟨(r, c), (r + d.1, c + d.2), none⟩ := by
  unfold stepMoves FreeFor
  rw [List.mem_flatMap]
  constructor
  · rintro ⟨d, hd, h⟩
    refine ⟨d, hd, ?_⟩
    by_cases hin : inBounds (r + d.1) (c + d.2) = true
    · simp only [hin, Bool.not_true, Bool.false_eq_true, if_false] at h
      cases hsq : sq b (r + d.1) (c + d.2) with
      | none =>
        rw [hsq] at h
        exact ⟨hin, Or.inl rfl, List.mem_singleton.1 h⟩
      | some t =>
        rw [hsq] at h
        dsimp only at h
        by_cases ht : t.color = their
        · rw [if_pos ht] at h
          exact ⟨hin, Or.inr ⟨t, rfl, ht⟩, List.mem_singleton.1 h⟩
        · rw [if_neg ht] at h; simp at h
    · simp [hin] at h
  · rintro ⟨d, hd, hin, hfree, rfl⟩
    refine ⟨d, hd, ?_⟩
    simp only [hin, Bool.not_true, Bool.false_eq_true, if_false]
    rcases hfree with h | ⟨t, h, ht⟩
    · rw [h]; exact List.mem_singleton.2 rfl
    · rw [h]; dsimp only; rw [if_pos ht]; exact List.mem_singleton.2 rfl

theorem mem_slideRay_iff (b : Board) (their : Color) (r c dr dc : Int) (m : Move) :
    ∀ (fuel : Nat) (rr cc : Int),
      m ∈ slideRay b their r c dr dc fuel rr cc ↔
        ∃ k : Nat, k < fuel ∧
          (∀ j : Nat, j ≤ k → inBounds (rr + j * dr) (cc + j * dc) = true) ∧
          (∀ j : Nat, j < k → sq b (rr + j * dr) (cc + j * dc) = none) ∧
          FreeFor b their (rr + k * dr) (cc + k * dc) ∧
          m = ⟨(r, c), (rr + k * dr, cc + k * dc), none⟩ := by
  intro fuel
  induction fuel with
  | zero =>
    intro rr cc
    simp [slideRay]
  | succ n ih =>
    intro rr cc
    have e1 : ∀ j : Nat, rr + ((j + 1 : Nat) : Int) * dr = rr + dr + (j : Int) * dr := by
      intro j; push_cast; ring
    have e2 : ∀ j : Nat, cc + ((j + 1 : Nat) : Int) * dc = cc + dc + (j : Int) * dc := by
      intro j; push_cast; ring
    have z1 : rr + ((0 : Nat) : Int) * dr = rr := by simp
    have z2 : cc + ((0 : Nat) : Int) * dc = cc := by simp
    unfold slideRay
    by_cases hin : inBounds rr cc = true
    · rw [if_pos hin]
      cases hsq : sq b rr cc with
      | some t =>
        dsimp only
        constructor
        · intro h
          by_cases ht : t.color = their
          · rw [if_pos ht] at h
            refine ⟨0, Nat.succ_pos _, ?_, ?_, ?_, ?_⟩
            · intro j hj
              obtain rfl : j = 0 := by omega
              rw [z1, z2]; exact hin
            · intro j hj; omega
            · rw [z1, z2]; exact Or.inr ⟨t, hsq, ht⟩
            · rw [z1, z2]; exact List.mem_singleton.1 h
          · rw [if_neg ht] at h; simp at h
        · rintro ⟨k, -, -, hempty, hfree, hm⟩
          cases k with
          | zero =>
            rw [z1, z2] at hfree hm
            rcases hfree with h | ⟨t', h, ht'⟩
            · rw [hsq] at h; cases h
            · rw [hsq] at h
              cases h
              rw [if_pos ht', hm]
              exact List.mem_singleton.2 rfl
          | succ k =>
            have := hempty 0 (Nat.succ_pos _)
            rw [z1, z2, hsq] at this
            cases this
      | none =>
        dsimp only
        rw [List.mem_cons, ih]
        constructor
        · rintro (h | ⟨k, hk, hb, hempty, hfree, hm⟩)
          · refine ⟨0, Nat.succ_pos _, ?_, ?_, ?_, ?_⟩
            · intro j hj
              obtain rfl : j = 0 := by omega
              rw [z1, z2]; exact hin
            · intro j hj; omega
            · rw [z1, z2]; exact Or.inl hsq
            · rw [z1, z2]; exact h
          · refine ⟨k + 1, by omega, ?_, ?_, ?_, ?_⟩
            · intro j hj
              cases j with
              | zero => rw [z1, z2]; exact hin
              | succ j => rw [e1, e2]; exact hb j (by omega)
            · intro j hj
              cases j with
              | zero => rw [z1, z2]; exact hsq
              | succ j => rw [e1, e2]; exact hempty j (by omega)
            · rw [e1, e2]; exact hfree
            · rw [e1, e2]; exact hm
        · rintro ⟨k, hk, hb, hempty, hfree, hm⟩
          cases k with
          | zero =>
            rw [z1, z2] at hm
            exact Or.inl hm
          | succ k =>
            refine Or.inr ⟨k, by omega, ?_, ?_, ?_, ?_⟩
            · intro j hj
              rw [← e1, ← e2]; exact hb (j + 1) (by omega)
            · intro j hj
              rw [← e1, ← e2]; exact hempty (j + 1) (by omega)
            · rw [← e1, ← e2]; exact hfree
            · rw [← e1, ← e2]; exact hm
    · rw [if_neg hin]
      constructor
      · intro h; simp at h
      · rintro ⟨k, -, hb, -⟩
        have := hb 0 (Nat.zero_le _)
        rw [z1, z2] at this
        exact absurd this hin

theorem clearPath_le_eight (b : Board) (r c dr dc : Int) (n : Nat) (hd : IsRayDir dr dc)
    (h : ClearPath b r c dr dc n) : n ≤ 8 := by
  obtain ⟨hn, hb, -⟩ := h
  have h1 := (inBounds_iff _ _).1 (hb 1 (le_refl _) hn)
  have h2 := (inBounds_iff _ _).1 (hb n hn (le_refl _))
  push_cast at h1 h2
  rcases hd with h | h | ⟨h, h' | h'⟩
  · subst h; omega
  · subst h; omega
  · subst h h'; omega
  · subst h h'; omega

theorem mem_slideRay_origin (b : Board) (their : Color) (r c dr dc : Int) (m : Move)
    (hd : IsRayDir dr dc) :
    m ∈ slideRay b their r c dr dc 8 (r + dr) (c + dc) ↔
      ∃ n : Nat, ClearPath b r c dr dc n ∧ FreeFor b their (r + n * dr) (c + n * dc) ∧
        m = ⟨(r, c), (r + n * dr, c + n * dc), none⟩ := by
  have e1 : ∀ j : Nat, r + ((j + 1 : Nat) : Int) * dr = r + dr + (j : Int) * dr := by
    intro j; push_cast; ring
  have e2 : ∀ j : Nat, c + ((j + 1 : Nat) : Int) * dc = c + dc + (j : Int) * dc := by
    intro j; push_cast; ring
  rw [mem_slideRay_iff]
  constructor
  · rintro ⟨k, -, hb, hempty, hfree, hm⟩
    refine ⟨k + 1, ⟨by omega, ?_, ?_⟩, ?_, ?_⟩
    · intro j h1 hj
      obtain ⟨i, rfl⟩ : ∃ i, j = i + 1 := ⟨j - 1, by omega⟩
      rw [e1, e2]; exact hb i (by omega)
    · intro j h1 hj
      obtain ⟨i, rfl⟩ : ∃ i, j = i + 1 := ⟨j - 1, by omega⟩
      rw [e1, e2]; exact hempty i (by omega)
    · rw [e1, e2]; exact hfree
    · rw [e1, e2]; exact hm
  · rintro ⟨n, hpath, hfree, hm⟩
    have h8 := clearPath_le_eight b r c dr dc n hd hpath
    obtain ⟨hn, hb, hempty⟩ := hpath
    obtain ⟨k, rfl⟩ : ∃ k, n = k + 1 := ⟨n - 1, by omega⟩
    refine ⟨k, by omega, ?_, ?_, ?_, ?_⟩
    · intro j hj
      rw [← e1, ← e2]; exact hb (j + 1) (by omega) (by omega)
    · intro j hj
      rw [← e1, ← e2]; exact hempty (j + 1) (by omega) (by omega)
    · rw [← e1, ← e2]; exact hfree
    · rw [← e1, ← e2]; exact hm

theorem mem_pawnMoves_iff (b : Board) (color : Color) (r c : Int) (m : Move) :
    m ∈ pawnMoves b (other color) (decide (color = Color.white)) r c ↔
      (inBounds (r + pawnDir color) c = true ∧ sq b (r + pawnDir color) c = none ∧
        m = ⟨(r, c), (r + pawnDir color, c), promoAt color (r + pawnDir color)⟩) ∨
      (inBounds (r + pawnDir color) c = true ∧ sq b (r + pawnDir color) c = none ∧
        r = pawnStartRow color ∧ sq b (r + 2 * pawnDir color) c = none ∧
        m = ⟨(r, c), (r + 2 * pawnDir color, c), none⟩) ∨
      (∃ dc : Int, (dc = -1 ∨ dc = 1) ∧ inBounds (r + pawnDir color) (c + dc) = true ∧
        (∃ t, sq b (r + pawnDir color) (c + dc) = some t ∧ t.color = other color) ∧
        m = ⟨(r, c), (r + pawnDir color, c + dc), promoAt color (r + pawnDir color)⟩) := by
  have hdir : (if decide (color = Color.white) = true then (-1 : Int) else 1) = pawnDir color := by
    cases color <;> rfl
  have hstart : (if decide (color = Color.white) = true then (6 : Int) else 1)
      = pawnStartRow color := by
    cases color <;> rfl
  have hq : (⟨if decide (color = Color.white) = true then Color.white else Color.black,
      Kind.queen⟩ : Piece) = ⟨color, Kind.queen⟩ := by
    cases color <;> rfl
  unfold pawnMoves
  simp only [hdir, hstart, hq]
  rw [List.mem_append]
  have hone : ∀ (cc : Int),
      (if r + pawnDir color = 0 ∨ r + pawnDir color = 7
        then [(⟨(r, c), (r + pawnDir color, cc), some ⟨color, Kind.queen⟩⟩ : Move)]
        else [(⟨(r, c), (r + pawnDir color, cc), none⟩ : Move)])
      = [⟨(r, c), (r + pawnDir color, cc), promoAt color (r + pawnDir color)⟩] := by
    intro cc
    unfold promoAt
    split_ifs <;> rfl
  simp only [hone]
  constructor
  · rintro (h | h)
    · by_cases h1 : (inBounds (r + pawnDir color) c
          && (sq b (r + pawnDir color) c).isNone) = true
      · rw [if_pos h1] at h
        rw [Bool.and_eq_true, Option.isNone_iff_eq_none] at h1
        rcases List.mem_append.1 h with h | h
        · exact Or.inl ⟨h1.1, h1.2, List.mem_singleton.1 h⟩
        · by_cases h2 : r = pawnStartRow color
              ∧ (sq b (r + 2 * pawnDir color) c).isNone = true
          · rw [if_pos h2] at h
            rw [Option.isNone_iff_eq_none] at h2
            exact Or.inr (Or.inl ⟨h1.1, h1.2, h2.1, h2.2, List.mem_singleton.1 h⟩)
          · rw [if_neg h2] at h; simp at h
      · rw [if_neg h1] at h; simp at h
    · rw [List.mem_flatMap] at h
      obtain ⟨dc, hdc, h⟩ := h
      refine Or.inr (Or.inr ⟨dc, by simpa using hdc, ?_⟩)
      by_cases hin : inBounds (r + pawnDir color) (c + dc) = true
      · simp only [hin, Bool.not_true, Bool.false_eq_true, if_false] at h
        cases hsq : sq b (r + pawnDir color) (c + dc) with
        | none => rw [hsq] at h; simp at h
        | some t =>
          rw [hsq] at h
          dsimp only at h
          by_cases ht : t.color = other color
          · rw [if_pos ht] at h
            exact ⟨hin, ⟨t, rfl, ht⟩, List.mem_singleton.1 h⟩
          · rw [if_neg ht] at h; simp at h
      · simp [hin] at h
  · rintro (⟨hin, hsq, rfl⟩ | ⟨hin, hsq, hr, hsq2, rfl⟩ | ⟨dc, hdc, hin, ⟨t, hsq, ht⟩, rfl⟩)
    · left
      rw [if_pos (by rw [Bool.and_eq_true, Option.isNone_iff_eq_none]; exact ⟨hin, hsq⟩)]
      exact List.mem_append_left _ (List.mem_singleton.2 rfl)
    · left
      rw [if_pos (by rw [Bool.and_eq_true, Option.isNone_iff_eq_none]; exact ⟨hin, hsq⟩)]
      apply List.mem_append_right
      rw [if_pos ⟨hr, by rw [Option.isNone_iff_eq_none]; exact hsq2⟩]
      exact List.mem_singleton.2 rfl
    · right
      rw [List.mem_flatMap]
      refine ⟨dc, by simpa using hdc, ?_⟩
      simp only [hin, Bool.not_true, Bool.false_eq_true, if_false]
      rw [hsq]
      dsimp only
      rw [if_pos ht]
      exact List.mem_singleton.2 rfl

theorem mem_generatePseudoMoves_origin (b : Board) (color : Color) (m : Move) :
    m ∈ generatePseudoMoves b color ↔
      inBounds m.from_.1 m.from_.2 = true ∧ m ∈ pieceMoves b color m.from_.1 m.from_.2 := by
  rw [mem_generatePseudoMoves]
  constructor
  · rintro ⟨r, hr, c, hc, h⟩
    obtain ⟨p, -, -, hfrom, -⟩ := pieceMoves_spec b color r c m h
    rw [hfrom]
    exact ⟨(inBounds_iff _ _).2 ⟨(mem_idx8 r).1 hr, (mem_idx8 c).1 hc⟩, h⟩
  · rintro ⟨hin, h⟩
    rw [inBounds_iff] at hin
    exact ⟨m.from_.1, (mem_idx8 _).2 hin.1, m.from_.2, (mem_idx8 _).2 hin.2, h⟩

theorem pieceMoves_piece (b : Board) (color : Color) (r c : Int) (m : Move)
    (h : m ∈ pieceMoves b color r c) : ∃ k, sq b r c = some ⟨color, k⟩ := by
  obtain ⟨p, hsq, hcol, -⟩ := pieceMoves_spec b color r c m h
  obtain ⟨pc, k⟩ := p
  dsimp only at hcol
  subst hcol
  exact ⟨k, hsq⟩

theorem mem_pieceMoves_pawn (b : Board) (color : Color) (r c : Int) (m : Move)
    (hsq : sq b r c = some ⟨color, Kind.pawn⟩) :
    m ∈ pieceMoves b color r c ↔
      (inBounds (r + pawnDir color) c = true ∧ sq b (r + pawnDir color) c = none ∧
        m = ⟨(r, c), (r + pawnDir color, c), promoAt color (r + pawnDir color)⟩) ∨
      (inBounds (r + pawnDir color) c = true ∧ sq b (r + pawnDir color) c = none ∧
        r = pawnStartRow color ∧ sq b (r + 2 * pawnDir color) c = none ∧
        m = ⟨(r, c), (r + 2 * pawnDir color, c), none⟩) ∨
      (∃ dc : Int, (dc = -1 ∨ dc = 1) ∧ inBounds (r + pawnDir color) (c + dc) = true ∧
        (∃ t, sq b (r + pawnDir color) (c + dc) = some t ∧ t.color = other color) ∧
        m = ⟨(r, c), (r + pawnDir color, c + dc), promoAt color (r + pawnDir color)⟩) := by
  rw [← mem_pawnMoves_iff]
  unfold pieceMoves
  rw [hsq]
  simp

theorem mem_pieceMoves_knight (b : Board) (color : Color) (r c : Int) (m : Move)
    (hsq : sq b r c = some ⟨color, Kind.knight⟩) :
    m ∈ pieceMoves b color r c ↔
      ∃ d ∈ kMoves, inBounds (r + d.1) (c + d.2) = true ∧
        FreeFor b (other color) (r + d.1) (c + d.2) ∧
        m = ⟨(r, c), (r + d.1, c + d.2), none⟩ := by
  rw [← mem_stepMoves_iff]
  unfold pieceMoves
  rw [hsq]
  simp

theorem mem_pieceMoves_king (b : Board) (color : Color) (r c : Int) (m : Move)
    (hsq : sq b r c = some ⟨color, Kind.king⟩) :
    m ∈ pieceMoves b color r c ↔
      ∃ d ∈ kingOffsets, inBounds (r + d.1) (c + d.2) = true ∧
        FreeFor b (other color) (r + d.1) (c + d.2) ∧
        m = ⟨(r, c), (r + d.1, c + d.2), none⟩ := by
  rw [← mem_stepMoves_iff]
  unfold pieceMoves
  rw [hsq]
  simp

theorem mem_pieceMoves_slide (b : Board) (color : Color) (k : Kind) (r c : Int) (m : Move)
    (hsq : sq b r c = some ⟨color, k⟩)
    (hk : k = Kind.bishop ∨ k = Kind.rook ∨ k = Kind.queen) :
    m ∈ pieceMoves b color r c ↔
      ∃ d ∈ slideDirs k, ∃ n : Nat, ClearPath b r c d.1 d.2 n ∧
        FreeFor b (other color) (r + n * d.1) (c + n * d.2) ∧
        m = ⟨(r, c), (r + n * d.1, c + n * d.2), none⟩ := by
  have hdirs : ∀ d ∈ slideDirs k, IsRayDir d.1 d.2 := by
    intro d hd
    apply isRayDir_of_mem
    rcases hk with h | h | h <;> subst h
    · exact List.mem_append_left _ hd
    · exact List.mem_append_right _ hd
    · exact hd
  have hmem : m ∈ pieceMoves b color r c ↔
      ∃ d ∈ slideDirs k, m ∈ slideRay b (other color) r c d.1 d.2 8 (r + d.1) (c + d.2) := by
    unfold pieceMoves
    rw [hsq]
    dsimp only
    rw [if_neg (not_not.2 rfl)]
    rcases hk with h | h | h <;> subst h <;> exact List.mem_flatMap
  rw [hmem]
  constructor
  · rintro ⟨d, hd, h⟩
    exact ⟨d, hd, (mem_slideRay_origin b _ r c d.1 d.2 m (hdirs d hd)).1 h⟩
  · rintro ⟨d, hd, h⟩
    exact ⟨d, hd, (mem_slideRay_origin b _ r c d.1 d.2 m (hdirs d hd)).2 h⟩

/-! ## Rules of the generated moves -/

theorem ray_step_ne (r c dr dc : Int) (n : Nat) (hd : IsRayDir dr dc) (hn : 1 ≤ n) :
    ((r + n * dr, c + n * dc) : Int × Int) ≠ (r, c) := by
  intro h
  rw [Prod.mk.injEq] at h
  rcases hd with h' | h' | ⟨h', h'' | h''⟩
  · subst h'; omega
  · subst h'; omega
  · subst h' h''; omega
  · subst h' h''; omega

theorem isRayDir_of_slideDirs (k : Kind) (d : Int × Int) (hd : d ∈ slideDirs k) :
    IsRayDir d.1 d.2 := by
  apply isRayDir_of_mem
  cases k <;> simp only [slideDirs, List.not_mem_nil] at hd
  · exact List.mem_append_left _ hd
  · exact List.mem_append_right _ hd
  · exact hd

theorem pawnDir_cases (color : Color) : pawnDir color = -1 ∨ pawnDir color = 1 := by
  cases color
  · exact Or.inl rfl
  · exact Or.inr rfl

theorem pawnStartRow_two_steps (color : Color) (r : Int) (h : r = pawnStartRow color) :
    0 ≤ r + 2 * pawnDir color ∧ r + 2 * pawnDir color < 8 ∧
    r + 2 * pawnDir color ≠ 0 ∧ r + 2 * pawnDir color ≠ 7 ∧
    0 ≤ r + pawnDir color ∧ r + pawnDir color < 8 := by
  subst h
  cases color <;> simp [pawnStartRow, pawnDir]

/-- C25: every move of `generatePseudoMoves(board, side)` starts on a square
of the board that holds a piece of `side`, ends on a square of the board
different from its origin, and its destination is empty or holds a piece of
the opposing side. -/
theorem pseudo_moves_shape (board : Board) (color : Color) (m : Move)
    (hm : m ∈ generatePseudoMoves board color) :
    (∃ p, sq board m.from_.1 m.from_.2 = some p ∧ p.color = color) ∧
    inBounds m.from_.1 m.from_.2 = true ∧ inBounds m.to_.1 m.to_.2 = true ∧
    m.to_ ≠ m.from_ ∧
    (sq board m.to_.1 m.to_.2 = none ∨
      ∃ t, sq board m.to_.1 m.to_.2 = some t ∧ t.color = other color) := by
  obtain ⟨hin, hpm⟩ := (mem_generatePseudoMoves_origin board color m).1 hm
  obtain ⟨k, hsq⟩ := pieceMoves_piece board color _ _ m hpm
  refine ⟨⟨_, hsq, rfl⟩, hin, ?_⟩
  obtain ⟨f, t, pr⟩ := m
  obtain ⟨r, c⟩ := f
  dsimp only at hin hpm hsq ⊢
  have hb := (inBounds_iff _ _).1 hin
  cases k with
  | pawn =>
    rcases (mem_pieceMoves_pawn board color r c _ hsq).1 hpm with
      ⟨h1, h2, h3⟩ | ⟨h1, h2, h3, h4, h5⟩ | ⟨dc, hdc, h1, h2, h3⟩
    · cases h3
      refine ⟨h1, ?_, Or.inl h2⟩
      intro h
      rw [Prod.mk.injEq] at h
      have := pawnDir_cases color
      omega
    · cases h5
      have hs := pawnStartRow_two_steps color r h3
      refine ⟨(inBounds_iff _ _).2 ⟨⟨hs.1, hs.2.1⟩, hb.2⟩, ?_, Or.inl h4⟩
      intro h
      rw [Prod.mk.injEq] at h
      have := pawnDir_cases color
      omega
    · cases h3
      refine ⟨h1, ?_, Or.inr h2⟩
      intro h
      rw [Prod.mk.injEq] at h
      have := pawnDir_cases color
      omega
  | knight =>
    obtain ⟨d, hd, h1, h2, h3⟩ := (mem_pieceMoves_knight board color r c _ hsq).1 hpm
    cases h3
    refine ⟨h1, ?_, h2⟩
    intro h
    rw [Prod.mk.injEq] at h
    have := (mem_kMoves d).1 hd
    omega
  | king =>
    obtain ⟨d, hd, h1, h2, h3⟩ := (mem_pieceMoves_king board color r c _ hsq).1 hpm
    cases h3
    refine ⟨h1, ?_, h2⟩
    intro h
    rw [Prod.mk.injEq] at h
    obtain ⟨hne, -, -⟩ := (mem_kingOffsets d).1 hd
    apply hne
    exact Prod.ext (by dsimp only; omega) (by dsimp only; omega)
  | bishop =>
    obtain ⟨d, hd, n, hpath, h2, h3⟩ :=
      (mem_pieceMoves_slide board color _ r c _ hsq (Or.inl rfl)).1 hpm
    cases h3
    exact ⟨hpath.2.1 n hpath.1 (le_refl _),
      ray_step_ne r c d.1 d.2 n (isRayDir_of_slideDirs _ d hd) hpath.1, h2⟩
  | rook =>
    obtain ⟨d, hd, n, hpath, h2, h3⟩ :=
      (mem_pieceMoves_slide board color _ r c _ hsq (Or.inr (Or.inl rfl))).1 hpm
    cases h3
    exact ⟨hpath.2.1 n hpath.1 (le_refl _),
      ray_step_ne r c d.1 d.2 n (isRayDir_of_slideDirs _ d hd) hpath.1, h2⟩
  | queen =>
    obtain ⟨d, hd, n, hpath, h2, h3⟩ :=
      (mem_pieceMoves_slide board color _ r c _ hsq (Or.inr (Or.inr rfl))).1 hpm
    cases h3
    exact ⟨hpath.2.1 n hpath.1 (le_refl _),
      ray_step_ne r c d.1 d.2 n (isRayDir_of_slideDirs _ d hd) hpath.1, h2⟩

theorem pseudo_moves_shape_witness :
    (⟨(7, 1), (5, 2), none⟩ : Move) ∈ generatePseudoMoves initialBoard Color.white ∧
    (∃ p, sq initialBoard 7 1 = some p ∧ p.color = Color.white) ∧
    inBounds 7 1 = true ∧ inBounds 5 2 = true ∧ ((5, 2) : Int × Int) ≠ (7, 1) ∧
    (sq initialBoard 5 2 = none ∨
      ∃ t, sq initialBoard 5 2 = some t ∧ t.color = other Color.white) :=
  ⟨by decide, pseudo_moves_shape initialBoard Color.white ⟨(7, 1), (5, 2), none⟩ (by decide)⟩
theorem mem_slideDirs_iff (k : Kind) (hk : k = Kind.bishop ∨ k = Kind.rook ∨ k = Kind.queen)
    (d : Int × Int) :
    d ∈ slideDirs k ↔
      (k ≠ Kind.rook ∧ d.1.natAbs = 1 ∧ d.2.natAbs = 1) ∨
      (k ≠ Kind.bishop ∧ d.1.natAbs + d.2.natAbs = 1) := by
  rcases hk with h | h | h <;> subst h
  · simp [slideDirs, mem_diagDirs]
  · simp [slideDirs, mem_orthoDirs]
  · simp [slideDirs, mem_diagDirs, mem_orthoDirs]

/-- C26: the moves of `generatePseudoMoves` that start on a square holding a
bishop, rook or queen of `side` are exactly the moves, without promotion, to a
square `n >= 1` steps away along one of the piece's directions (diagonal for
the bishop, orthogonal for the rook, both for the queen) such that every
square strictly between is on the board and empty and the destination is empty
or holds a piece of the opposing side. -/
theorem sliding_moves_never_jump (board : Board) (color : Color) (k : Kind) (r c : Int)
    (m : Move) (hin : inBounds r c = true) (hsq : sq board r c = some ⟨color, k⟩)
    (hk : k = Kind.bishop ∨ k = Kind.rook ∨ k = Kind.queen) :
    (m ∈ generatePseudoMoves board color ∧ m.from_ = (r, c)) ↔
      ∃ dr dc : Int,
        ((k ≠ Kind.rook ∧ dr.natAbs = 1 ∧ dc.natAbs = 1) ∨
          (k ≠ Kind.bishop ∧ dr.natAbs + dc.natAbs = 1)) ∧
        ∃ n : Nat, ClearPath board r c dr dc n ∧
          FreeFor board (other color) (r + n * dr) (c + n * dc) ∧
          m = ⟨(r, c), (r + n * dr, c + n * dc), none⟩ := by
  constructor
  · rintro ⟨hm, hfrom⟩
    obtain ⟨-, hpm⟩ := (mem_generatePseudoMoves_origin board color m).1 hm
    rw [hfrom] at hpm
    obtain ⟨d, hd, n, h⟩ := (mem_pieceMoves_slide board color k r c m hsq hk).1 hpm
    exact ⟨d.1, d.2, (mem_slideDirs_iff k hk d).1 hd, n, h⟩
  · rintro ⟨dr, dc, hd, n, hpath, hfree, hm⟩
    have hpm : m ∈ pieceMoves board color r c :=
      (mem_pieceMoves_slide board color k r c m hsq hk).2
        ⟨(dr, dc), (mem_slideDirs_iff k hk (dr, dc)).2 hd, n, hpath, hfree, hm⟩
    have hfrom : m.from_ = (r, c) := by rw [hm]
    refine ⟨(mem_generatePseudoMoves_origin board color m).2 ?_, hfrom⟩
    rw [hfrom]
    exact ⟨hin, hpm⟩

theorem sliding_moves_never_jump_witness :
    inBounds 2 6 = true ∧ sq stalemateBoard 2 6 = some ⟨Color.white, Kind.queen⟩ ∧
    ∃ dr dc : Int,
      ((Kind.queen ≠ Kind.rook ∧ dr.natAbs = 1 ∧ dc.natAbs = 1) ∨
        (Kind.queen ≠ Kind.bishop ∧ dr.natAbs + dc.natAbs = 1)) ∧
      ∃ n : Nat, ClearPath stalemateBoard 2 6 dr dc n ∧
        FreeFor stalemateBoard (other Color.white) (2 + n * dr) (6 + n * dc) ∧
        (⟨(2, 6), (5, 3), none⟩ : Move) = ⟨(2, 6), (2 + n * dr, 6 + n * dc), none⟩ :=
  ⟨by decide, by decide,
    (sliding_moves_never_jump stalemateBoard Color.white Kind.queen 2 6 ⟨(2, 6), (5, 3), none⟩
      (by decide) (by decide) (by decide)).1 ⟨by decide, rfl⟩⟩

/-- C27: for a pawn of colour `pc` standing on the square `(r, c)` of the
board, the two-square advance from `(r, c)` is in
`generatePseudoMoves(board, side)` if and only if the pawn belongs to `side`,
stands on its starting row (6 for White, 1 for Black) and both the
intermediate and the destination square in column `c` are empty; the
one-square advance is generated if and only if the pawn belongs to `side` and
the square directly ahead is on the board and empty. -/
theorem pawn_advances (board : Board) (side pc : Color) (r c : Int)
    (hin : inBounds r c = true) (hsq : sq board r c = some ⟨pc, Kind.pawn⟩) :
    ((∃ promo, (⟨(r, c), (r + 2 * pawnDir pc, c), promo⟩ : Move)
        ∈ generatePseudoMoves board side) ↔
      pc = side ∧ r = pawnStartRow pc ∧ sq board (r + pawnDir pc) c = none ∧
        sq board (r + 2 * pawnDir pc) c = none) ∧
    ((∃ promo, (⟨(r, c), (r + pawnDir pc, c), promo⟩ : Move)
        ∈ generatePseudoMoves board side) ↔
      pc = side ∧ inBounds (r + pawnDir pc) c = true ∧ sq board (r + pawnDir pc) c = none) := by
  have hb := (inBounds_iff _ _).1 hin
  have hside : ∀ m : Move, m.from_ = (r, c) → m ∈ generatePseudoMoves board side →
      pc = side ∧ m ∈ pieceMoves board pc r c := by
    intro m hfrom hm
    obtain ⟨-, hpm⟩ := (mem_generatePseudoMoves_origin board side m).1 hm
    rw [hfrom] at hpm
    obtain ⟨k, hk⟩ := pieceMoves_piece board side r c m hpm
    rw [hsq] at hk
    cases hk
    exact ⟨rfl, hpm⟩
  have hmem : ∀ m : Move, m.from_ = (r, c) → m ∈ pieceMoves board pc r c →
      m ∈ generatePseudoMoves board pc := by
    intro m hfrom hpm
    refine (mem_generatePseudoMoves_origin board pc m).2 ?_
    rw [hfrom]
    exact ⟨hin, hpm⟩
  have hdir := pawnDir_cases pc
  constructor
  · constructor
    · rintro ⟨promo, hm⟩
      obtain ⟨hpc, hpm⟩ := hside _ rfl hm
      rcases (mem_pieceMoves_pawn board pc r c _ hsq).1 hpm with
        ⟨-, -, h3⟩ | ⟨-, h2, h3, h4, -⟩ | ⟨dc, hdc, -, -, h3⟩
      · simp only [Move.mk.injEq, Prod.mk.injEq] at h3
        omega
      · exact ⟨hpc, h3, h2, h4⟩
      · simp only [Move.mk.injEq, Prod.mk.injEq] at h3
        omega
    · rintro ⟨hpc, hr, h1, h2⟩
      subst hpc
      have hs := pawnStartRow_two_steps pc r hr
      refine ⟨none, hmem _ rfl ((mem_pieceMoves_pawn board pc r c _ hsq).2
        (Or.inr (Or.inl ⟨(inBounds_iff _ _).2 ⟨⟨hs.2.2.2.2.1, hs.2.2.2.2.2⟩, hb.2⟩,
          h1, hr, h2, rfl⟩)))⟩
  · constructor
    · rintro ⟨promo, hm⟩
      obtain ⟨hpc, hpm⟩ := hside _ rfl hm
      rcases (mem_pieceMoves_pawn board pc r c _ hsq).1 hpm with
        ⟨h1, h2, -⟩ | ⟨h1, h2, -, -, -⟩ | ⟨dc, hdc, -, -, h3⟩
      · exact ⟨hpc, h1, h2⟩
      · exact ⟨hpc, h1, h2⟩
      · simp only [Move.mk.injEq, Prod.mk.injEq] at h3
        omega
    · rintro ⟨hpc, h1, h2⟩
      subst hpc
      exact ⟨_, hmem _ rfl ((mem_pieceMoves_pawn board pc r c _ hsq).2
        (Or.inl ⟨h1, h2, rfl⟩))⟩

theorem pawn_advances_witness :
    inBounds 6 4 = true ∧ sq initialBoard 6 4 = some ⟨Color.white, Kind.pawn⟩ ∧
    (∃ promo, (⟨(6, 4), (6 + 2 * pawnDir Color.white, 4), promo⟩ : Move)
      ∈ generatePseudoMoves initialBoard Color.white) :=
  ⟨by decide, by decide,
    (pawn_advances initialBoard Color.white Color.white 6 4 (by decide) (by decide)).1.2
      ⟨rfl, by decide, by decide, by decide⟩⟩

/-- C28: every move of `generatePseudoMoves(board, side)` made by a pawn that
changes column goes exactly one row forward and one column sideways onto a
square occupied by a piece of the opposing side, and every pawn move that
stays in its column lands on an empty square. -/
theorem pawn_moves_no_en_passant (board : Board) (side : Color) (m : Move)
    (hm : m ∈ generatePseudoMoves board side)
    (hpawn : ∃ pc, sq board m.from_.1 m.from_.2 = some ⟨pc, Kind.pawn⟩) :
    (m.to_.2 ≠ m.from_.2 →
      m.to_.1 = m.from_.1 + pawnDir side ∧
      (m.to_.2 = m.from_.2 - 1 ∨ m.to_.2 = m.from_.2 + 1) ∧
      ∃ t, sq board m.to_.1 m.to_.2 = some t ∧ t.color = other side) ∧
    (m.to_.2 = m.from_.2 → sq board m.to_.1 m.to_.2 = none) := by
  obtain ⟨-, hpm⟩ := (mem_generatePseudoMoves_origin board side m).1 hm
  obtain ⟨k, hk⟩ := pieceMoves_piece board side _ _ m hpm
  obtain ⟨pc, hpc⟩ := hpawn
  rw [hk] at hpc
  cases hpc
  obtain ⟨f, t, pr⟩ := m
  obtain ⟨r, c⟩ := f
  dsimp only at hpm hk ⊢
  rcases (mem_pieceMoves_pawn board side r c _ hk).1 hpm with
    ⟨-, h2, h3⟩ | ⟨-, -, -, h4, h5⟩ | ⟨dc, hdc, -, h2, h3⟩
  · cases h3
    exact ⟨fun h => absurd rfl h, fun _ => h2⟩
  · cases h5
    exact ⟨fun h => absurd rfl h, fun _ => h4⟩
  · cases h3
    refine ⟨fun _ => ⟨rfl, by dsimp only; omega, h2⟩, fun h => ?_⟩
    dsimp only at h
    omega

theorem pawn_moves_no_en_passant_witness :
    (⟨(4, 3), (5, 4), none⟩ : Move) ∈
      generatePseudoMoves (applyMove pawnGuardBoard ⟨(6, 4), (5, 4), none⟩) Color.black ∧
    ((5 : Int) = 4 + pawnDir Color.black ∧ ((4 : Int) = 3 - 1 ∨ (4 : Int) = 3 + 1) ∧
      ∃ t, sq (applyMove pawnGuardBoard ⟨(6, 4), (5, 4), none⟩) 5 4 = some t ∧
        t.color = other Color.black) :=
  ⟨by decide,
    (pawn_moves_no_en_passant (applyMove pawnGuardBoard ⟨(6, 4), (5, 4), none⟩) Color.black
      ⟨(4, 3), (5, 4), none⟩ (by decide) ⟨Color.black, by decide⟩).1 (by decide)⟩

/-! ## The attack oracle and the move generator -/

/-- C23, evaluated on two reachable positions. After 1.e4 d5 2.Ke2 d4 3.Ke3
the black pawn on `(4, 3)` has the pseudo-legal capture onto `(5, 4)`, which
holds the white king, and `isSquareAttacked(board, 5, 4, BLACK)` is false.
After 1.e4 d5 2.e5 d4 `isSquareAttacked(board, 4, 3, WHITE)` is true for the
square of the black pawn, through the white pawn on `(3, 4)`, and no
pseudo-legal move of White ends on `(4, 3)`. -/
theorem attack_oracle_disagrees_with_generator_on_pawns :
    (Reachable (applyMove pawnGuardBoard ⟨(6, 4), (5, 4), none⟩) Color.black ∧
      sq (applyMove pawnGuardBoard ⟨(6, 4), (5, 4), none⟩) 5 4 = some ⟨Color.white, Kind.king⟩ ∧
      (⟨(4, 3), (5, 4), none⟩ : Move) ∈
        generatePseudoMoves (applyMove pawnGuardBoard ⟨(6, 4), (5, 4), none⟩) Color.black ∧
      isSquareAttacked (applyMove pawnGuardBoard ⟨(6, 4), (5, 4), none⟩) 5 4 Color.black
        = false) ∧
    (Reachable advancedPawnsBoard Color.white ∧
      sq advancedPawnsBoard 4 3 = some ⟨Color.black, Kind.pawn⟩ ∧
      isSquareAttacked advancedPawnsBoard 4 3 Color.white = true ∧
      ∀ m ∈ generatePseudoMoves advancedPawnsBoard Color.white, m.to_ ≠ (4, 3)) := by
  refine ⟨⟨?_, by decide, by decide, by decide⟩, ⟨?_, by decide, by decide, by decide⟩⟩
  · have h1 : Reachable (applyMove initialBoard ⟨(6, 4), (4, 4), none⟩) Color.black :=
      Reachable.step Reachable.init (by decide)
    have h2 := Reachable.step (m := ⟨(1, 3), (3, 3), none⟩) h1 (by decide)
    have h3 := Reachable.step (m := ⟨(7, 4), (6, 4), none⟩) h2 (by decide)
    have h4 : Reachable pawnGuardBoard Color.white :=
      Reachable.step (m := ⟨(3, 3), (4, 3), none⟩) h3 (by decide)
    exact Reachable.step (m := ⟨(6, 4), (5, 4), none⟩) h4 (by decide)
  · have h1 : Reachable (applyMove initialBoard ⟨(6, 4), (4, 4), none⟩) Color.black :=
      Reachable.step Reachable.init (by decide)
    have h2 := Reachable.step (m := ⟨(1, 3), (3, 3), none⟩) h1 (by decide)
    have h3 := Reachable.step (m := ⟨(4, 4), (3, 4), none⟩) h2 (by decide)
    exact Reachable.step (m := ⟨(3, 3), (4, 3), none⟩) h3 (by decide)

end Chess
